import Mathlib

/-!
# Grid pathfinding (`src/main.cpp`): BFS, Dijkstra and A* on the 20x20 maze

Shallow embedding of the search engine of `src/main.cpp` and the verification
of its specification.

Modelling conventions.

* `sf::Vector2i` is the structure `Vector2i` of two integers.
* The global tables `grid`, `visited`, `cameFrom` (and the local tables
  `fScore` / `dist`) are total maps from coordinates; only the in-bounds
  coordinates stand for storage of the program.
* `std::queue` is a list (push at the back, pop at the front).
* `std::priority_queue` with `CompareVector2i` is a list of entries; `top`
  yields an entry of minimal key.  Which one among several entries of equal
  minimal key is left open by the C++ standard, so every run takes a
  tie-breaking oracle `tie : Nat → Nat`: at the `k`-th pop the entry number
  `tie k` (modulo their count) among the entries of minimal key is taken.
  General theorems quantify over all oracles.
* The field `pops` of a search state counts the pops made so far; only the
  oracle reads it.
* Rendering (`drawGrid`, `window.display`, `sf::sleep`) has no effect on
  the program state and is left out; the walk of `drawPath` over `cameFrom` is
  modelled by `drawPath`.
* Every loop iteration of a search ends with a call of `drawPath`; the states
  at which it is called are the loop-head states after the first one
  (`bfsStates`, `dijkstraStates`, `aStarStates`). The walk reads
  `cameFrom[current.x][current.y]` at every cell it paints.
* Claims that count events are stated over the list of the cells popped
  (`aStarPopped`, `dijkstraPopped`) and the list of the writes of `bfs`
  (`bfsWrites`).
* The `while` loops run on fuel; the fuel given by `bfs`, `dijkstra` and
  `aStar` is a potential of the initial state, which is proved sufficient.
* `int` scores are integers with exact addition; the scores that are read stay
  below `INT_MAX`, so no addition of the program overflows.
-/

namespace MazePathfinding

/-! ## Data model -/

/-- The coordinate type `sf::Vector2i`. -/
structure Vector2i where
  x : Int
  y : Int
deriving DecidableEq

/-- The cell kinds of `enum CellType`. -/
inductive CellType where
  | Empty
  | Wall
  | Start
  | End
  | Visited
  | Path
deriving DecidableEq

def rows : Int := 20
def cols : Int := 20
def cellSize : Int := 30

/-- The value `std::numeric_limits<int>::max()`. -/
def INT_MAX : Int := 2147483647

/-- The coordinate `sf::Vector2i(-1, -1)` of an unset endpoint or predecessor. -/
def unsetPos : Vector2i := ⟨-1, -1⟩

/-- The global variables of the program. The field `end_` is the global `end`. -/
structure World where
  grid : Vector2i → CellType
  start : Vector2i
  end_ : Vector2i
  visited : Vector2i → Bool
  cameFrom : Vector2i → Vector2i

/-- The globals as initialised at program start. -/
def initialWorld : World where
  grid := fun _ => CellType.Empty
  start := unsetPos
  end_ := unsetPos
  visited := fun _ => false
  cameFrom := fun _ => unsetPos

/-- The assignment `t[c.x][c.y] = v` on a table. -/
def setAt {α : Type} (t : Vector2i → α) (c : Vector2i) (v : α) : Vector2i → α :=
  fun p => if p = c then v else t p

/-- The coordinate is a valid index of the tables. -/
def inBounds (c : Vector2i) : Prop :=
  0 ≤ c.x ∧ c.x < rows ∧ 0 ≤ c.y ∧ c.y < cols

instance (c : Vector2i) : Decidable (inBounds c) := by
  unfold inBounds
  infer_instance

/-- The function `isValid(x, y)`: in bounds, not a wall and not visited. -/
def isValid (w : World) (x y : Int) : Bool :=
  decide (x ≥ 0) && decide (x < rows) && decide (y ≥ 0) && decide (y < cols)
    && decide (w.grid ⟨x, y⟩ ≠ CellType.Wall) && !(w.visited ⟨x, y⟩)

/-- The function `resetGrid()`. -/
def resetGrid (w : World) : World :=
  { w with
    grid := fun c =>
      if inBounds c ∧ (w.grid c = CellType.Visited ∨ w.grid c = CellType.Path)
      then CellType.Empty else w.grid c
    visited := fun _ => false
    cameFrom := fun _ => unsetPos }

/-- The offsets `(dx[i], dy[i])` for `i = 0, 1, 2, 3`. -/
def dirs : List (Int × Int) := [(-1, 0), (1, 0), (0, -1), (0, 1)]

/-- How a run of a search loop ended; `outOfFuel` is an artefact of the model. -/
inductive Outcome where
  | reached
  | exhausted
  | outOfFuel
deriving DecidableEq

/-- All in-bounds coordinates, row by row. -/
def allCells : List Vector2i :=
  (List.range rows.toNat).flatMap fun (i : Nat) =>
    (List.range cols.toNat).map fun (j : Nat) => Vector2i.mk (Int.ofNat i) (Int.ofNat j)

/-! ## The reconstruction walk of `drawPath` -/

/-- The loop of `drawPath` from `current`: the cells it paints, in order, and
the value of `current` at loop exit; `none` when the fuel runs out. -/
def drawPathFrom (w : World) : Nat → Vector2i → Option (List Vector2i × Vector2i)
  | 0, _ => none
  | fuel + 1, current =>
    if current ≠ w.start ∧ current ≠ unsetPos then
      (drawPathFrom w fuel (w.cameFrom current)).map fun r => (current :: r.1, r.2)
    else some ([], current)

/-- The walk of `drawPath()`, which starts at `end`. -/
def drawPath (w : World) (fuel : Nat) : Option (List Vector2i × Vector2i) :=
  drawPathFrom w fuel w.end_

/-! ## Breadth-first search -/

/-- The state of `bfs`: the globals, the local queue `q`, and the number of
pops made so far. -/
structure BfsState where
  w : World
  q : List Vector2i
  pops : Nat

/-- One pass of the body of the `for` loop of `bfs`, for the offset `d`. -/
def bfsNeighbor (current : Vector2i) (s : BfsState) (d : Int × Int) : BfsState :=
  let newX := current.x + d.1
  let newY := current.y + d.2
  if isValid s.w newX newY then
    { s with
      w := { s.w with
        visited := setAt s.w.visited ⟨newX, newY⟩ true
        cameFrom := setAt s.w.cameFrom ⟨newX, newY⟩ current
        grid := setAt s.w.grid ⟨newX, newY⟩ CellType.Visited }
      q := s.q ++ [⟨newX, newY⟩] }
  else s

/-- The `while (!q.empty())` loop of `bfs`. -/
def bfsLoop : Nat → BfsState → Outcome × BfsState
  | 0, s => (Outcome.outOfFuel, s)
  | fuel + 1, s =>
    match s.q with
    | [] => (Outcome.exhausted, s)
    | current :: rest =>
      let s1 : BfsState := { s with q := rest, pops := s.pops + 1 }
      if current = s1.w.end_ then (Outcome.reached, s1)
      else bfsLoop fuel (dirs.foldl (bfsNeighbor current) s1)

/-- The state of `bfs` on entry to its loop. -/
def bfsInit (w : World) : BfsState :=
  let w1 := resetGrid w
  { w := { w1 with visited := setAt w1.visited w1.start true }
    q := [w1.start]
    pops := 0 }

/-- The potential of a BFS state that bounds the remaining loop iterations. -/
def bfsPotential (s : BfsState) : Nat :=
  s.q.length + 2 * (allCells.map fun c => if s.w.visited c then 0 else 1).sum

/-- The function `bfs`. -/
def bfs (w : World) : Outcome × BfsState :=
  bfsLoop (bfsPotential (bfsInit w) + 1) (bfsInit w)

/-! ## The priority queue -/

/-- The least key of a non-empty list of entries whose first key is `k`. -/
def minKey (k : Int) (es : List (Vector2i × Int)) : Int :=
  es.foldl (fun a e => min a e.2) k

/-- The calls `pq.top()` and `pq.pop()`: an entry of minimal key, chosen by the
oracle value `t` among the entries of minimal key, and the remaining entries. -/
def popTop (t : Nat) (pq : List (Vector2i × Int)) :
    Option ((Vector2i × Int) × List (Vector2i × Int)) :=
  match pq with
  | [] => none
  | e :: es =>
    let cands := (e :: es).filter fun c => decide (c.2 ≤ minKey e.2 es)
    let top := cands.getD (t % cands.length) e
    some (top, (e :: es).erase top)

/-! ## A* and Dijkstra -/

/-- The state of `aStar` and of `dijkstra`: the globals, the local score table
(`fScore` in `aStar`, `dist` in `dijkstra`), the local queue `pq`, and the
number of pops made so far. -/
structure PQState where
  w : World
  score : Vector2i → Int
  pq : List (Vector2i × Int)
  pops : Nat

/-- The integer `abs`. -/
def iabs (v : Int) : Int := if v < 0 then -v else v

/-- The lambda `heuristic` of `aStar`: the Manhattan distance. -/
def heuristic (a b : Vector2i) : Int :=
  iabs (a.x - b.x) + iabs (a.y - b.y)

/-- One pass of the body of the `for` loop of `aStar`, for the offset `d`. -/
def aStarNeighbor (current : Vector2i) (s : PQState) (d : Int × Int) : PQState :=
  let newX := current.x + d.1
  let newY := current.y + d.2
  if isValid s.w newX newY then
    let tentativeScore := s.score current + 1
    if tentativeScore < s.score ⟨newX, newY⟩ then
      { s with
        score := setAt s.score ⟨newX, newY⟩ tentativeScore
        w := { s.w with
          cameFrom := setAt s.w.cameFrom ⟨newX, newY⟩ current
          grid := setAt s.w.grid ⟨newX, newY⟩ CellType.Visited }
        pq := s.pq ++ [(⟨newX, newY⟩, tentativeScore + heuristic ⟨newX, newY⟩ s.w.end_)] }
    else s
  else s

/-- The `while (!pq.empty())` loop of `aStar`. -/
def aStarLoop (tie : Nat → Nat) : Nat → PQState → Outcome × PQState
  | 0, s => (Outcome.outOfFuel, s)
  | fuel + 1, s =>
    match popTop (tie s.pops) s.pq with
    | none => (Outcome.exhausted, s)
    | some (top, rest) =>
      let current := top.1
      let s1 : PQState := { s with pq := rest, pops := s.pops + 1 }
      if current = s1.w.end_ then (Outcome.reached, s1)
      else aStarLoop tie fuel (dirs.foldl (aStarNeighbor current) s1)

/-- The state of `aStar` on entry to its loop. -/
def aStarInit (w : World) : PQState :=
  let w1 := resetGrid w
  let fScore := setAt (fun _ => INT_MAX) w1.start (heuristic w1.start w1.end_)
  { w := w1
    score := fScore
    pq := [(w1.start, fScore w1.start)]
    pops := 0 }

/-- The potential of a state of `aStar` or `dijkstra` that bounds the remaining
loop iterations. -/
def pqPotential (s : PQState) : Nat :=
  s.pq.length + 2 * (allCells.map fun c => (s.score c).toNat).sum

/-- The function `aStar`. -/
def aStar (tie : Nat → Nat) (w : World) : Outcome × PQState :=
  aStarLoop tie (pqPotential (aStarInit w) + 1) (aStarInit w)

/-- One pass of the body of the `for` loop of `dijkstra`, for the offset `d`. -/
def dijkstraNeighbor (current : Vector2i) (s : PQState) (d : Int × Int) : PQState :=
  let newX := current.x + d.1
  let newY := current.y + d.2
  if isValid s.w newX newY then
    let tentativeDist := s.score current + 1
    if tentativeDist < s.score ⟨newX, newY⟩ then
      { s with
        score := setAt s.score ⟨newX, newY⟩ tentativeDist
        w := { s.w with
          cameFrom := setAt s.w.cameFrom ⟨newX, newY⟩ current
          grid := setAt s.w.grid ⟨newX, newY⟩ CellType.Visited }
        pq := s.pq ++ [(⟨newX, newY⟩, tentativeDist)] }
    else s
  else s

/-- The `while (!pq.empty())` loop of `dijkstra`. -/
def dijkstraLoop (tie : Nat → Nat) : Nat → PQState → Outcome × PQState
  | 0, s => (Outcome.outOfFuel, s)
  | fuel + 1, s =>
    match popTop (tie s.pops) s.pq with
    | none => (Outcome.exhausted, s)
    | some (top, rest) =>
      let current := top.1
      let s1 : PQState := { s with pq := rest, pops := s.pops + 1 }
      if current = s1.w.end_ then (Outcome.reached, s1)
      else dijkstraLoop tie fuel (dirs.foldl (dijkstraNeighbor current) s1)

/-- The state of `dijkstra` on entry to its loop. -/
def dijkstraInit (w : World) : PQState :=
  let w1 := resetGrid w
  { w := w1
    score := setAt (fun _ => INT_MAX) w1.start 0
    pq := [(w1.start, 0)]
    pops := 0 }

/-- The function `dijkstra`. -/
def dijkstra (tie : Nat → Nat) (w : World) : Outcome × PQState :=
  dijkstraLoop tie (pqPotential (dijkstraInit w) + 1) (dijkstraInit w)

/-! ## The event handlers of `main` -/

/-- The left-click handler for a click at pixel `(mouseX, mouseY)`. -/
def onLeftClick (w : World) (mouseX mouseY : Int) : World :=
  let x := Int.tdiv mouseX cellSize
  let y := Int.tdiv mouseY cellSize
  { w with
    grid := setAt w.grid ⟨y, x⟩
      (if w.grid ⟨y, x⟩ = CellType.Wall then CellType.Empty else CellType.Wall) }

/-- The handler of key `S` with the mouse at pixel `(mouseX, mouseY)`. -/
def onKeyS (w : World) (mouseX mouseY : Int) : World :=
  let x := Int.tdiv mouseX cellSize
  let y := Int.tdiv mouseY cellSize
  { w with start := ⟨y, x⟩, grid := setAt w.grid ⟨y, x⟩ CellType.Start }

/-- The handler of key `E` with the mouse at pixel `(mouseX, mouseY)`. -/
def onKeyE (w : World) (mouseX mouseY : Int) : World :=
  let x := Int.tdiv mouseX cellSize
  let y := Int.tdiv mouseY cellSize
  { w with end_ := ⟨y, x⟩, grid := setAt w.grid ⟨y, x⟩ CellType.End }

/-! ## Routes on the grid -/

/-- Two cells are 4-adjacent: they differ by exactly one in exactly one
coordinate. -/
def adjacent (a b : Vector2i) : Prop :=
  (a.x - b.x).natAbs + (a.y - b.y).natAbs = 1

instance (a b : Vector2i) : Decidable (adjacent a b) := by
  unfold adjacent
  infer_instance

/-- A route of `n` up/down/left/right moves from `a` to `b`, every move going
into an in-bounds cell that is not a wall of `grid`. -/
inductive Route (grid : Vector2i → CellType) : Vector2i → Vector2i → Nat → Prop
  | refl (a : Vector2i) : Route grid a a 0
  | step {a b c : Vector2i} {n : Nat} :
      adjacent a b → inBounds b → grid b ≠ CellType.Wall → Route grid b c n →
      Route grid a c (n + 1)

/-! ## The relaxation search

The loops of `aStar` and `dijkstra` differ only in the heuristic that is added
to the key of a pushed entry. The proofs are done once, on the common loop. -/

/-- The neighbour step of `aStar` and `dijkstra` for an arbitrary heuristic
`hf`; `aStarNeighbor` is the case `heuristic`, `dijkstraNeighbor` the case
`noHeuristic`. -/
def relaxNeighbor (hf : Vector2i → Vector2i → Int) (current : Vector2i) (s : PQState)
    (d : Int × Int) : PQState :=
  let newX := current.x + d.1
  let newY := current.y + d.2
  if isValid s.w newX newY then
    let tentative := s.score current + 1
    if tentative < s.score ⟨newX, newY⟩ then
      { s with
        score := setAt s.score ⟨newX, newY⟩ tentative
        w := { s.w with
          cameFrom := setAt s.w.cameFrom ⟨newX, newY⟩ current
          grid := setAt s.w.grid ⟨newX, newY⟩ CellType.Visited }
        pq := s.pq ++ [(⟨newX, newY⟩, tentative + hf ⟨newX, newY⟩ s.w.end_)] }
    else s
  else s

/-- The loop of `aStar` and `dijkstra` for an arbitrary heuristic `hf`;
`aStarLoop` is the case `heuristic`, `dijkstraLoop` the case `noHeuristic`. -/
def relaxLoop (hf : Vector2i → Vector2i → Int) (tie : Nat → Nat) :
    Nat → PQState → Outcome × PQState
  | 0, s => (Outcome.outOfFuel, s)
  | fuel + 1, s =>
    match popTop (tie s.pops) s.pq with
    | none => (Outcome.exhausted, s)
    | some (top, rest) =>
      let current := top.1
      let s1 : PQState := { s with pq := rest, pops := s.pops + 1 }
      if current = s1.w.end_ then (Outcome.reached, s1)
      else relaxLoop hf tie fuel (dirs.foldl (relaxNeighbor hf current) s1)

/-- The heuristic of `dijkstra`: none. -/
def noHeuristic (_ _ : Vector2i) : Int := 0

/-- The state of `aStar` and `dijkstra` on entry to the loop, for an arbitrary
heuristic. -/
def relaxInit (hf : Vector2i → Vector2i → Int) (w : World) : PQState :=
  let w1 := resetGrid w
  { w := w1
    score := setAt (fun _ => INT_MAX) w1.start (hf w1.start w1.end_)
    pq := [(w1.start, hf w1.start w1.end_)]
    pops := 0 }

/-- The run of `aStar` and `dijkstra` for an arbitrary heuristic. -/
def relaxRun (hf : Vector2i → Vector2i → Int) (tie : Nat → Nat) (w : World) :
    Outcome × PQState :=
  relaxLoop hf tie (pqPotential (relaxInit hf w) + 1) (relaxInit hf w)

/-! ## Invariants of the searches -/

/-- What holds of every state of a relaxation search that started in bounds. -/
structure PQBasic (s : PQState) : Prop where
  score_nonneg : ∀ c, 0 ≤ s.score c
  entries : ∀ e ∈ s.pq, inBounds e.1
  unvisited : ∀ c, s.w.visited c = false

/-- The table `cameFrom` is a tree on the discovered cells `S`, rooted at
`start`: the predecessor of a discovered cell is a discovered 4-neighbour of
strictly smaller level. -/
structure TreeCert (g0 : Vector2i → CellType) (start : Vector2i) (S : Vector2i → Prop)
    (cameFrom : Vector2i → Vector2i) (lvl : Vector2i → Int) : Prop where
  nonneg : ∀ c, S c → 0 ≤ lvl c
  parent : ∀ c, S c → c ≠ start →
    inBounds c ∧ g0 c ≠ CellType.Wall ∧ S (cameFrom c) ∧ adjacent (cameFrom c) c ∧
      lvl (cameFrom c) + 1 ≤ lvl c

/-- What the walk of `drawPath` from a cell yields: it ends at `start`, and
the cells it paints form a simple 4-connected chain of open cells. -/
structure GoodWalk (g0 : Vector2i → CellType) (w : World) (c : Vector2i)
    (path : List Vector2i) : Prop where
  walk : ∀ fuel, path.length < fuel → drawPathFrom w fuel c = some (path, w.start)
  route : Route g0 w.start c path.length
  head : (path ++ [w.start]).head? = some c
  nodup : (path ++ [w.start]).Nodup
  chain : List.Chain' adjacent (path ++ [w.start])
  cells : ∀ x ∈ path, inBounds x ∧ g0 x ≠ CellType.Wall

/-- The number of in-bounds cells whose score is still unset. -/
def unsetCount (score : Vector2i → Int) : Nat :=
  (allCells.map fun c => if score c < INT_MAX then 0 else 1).sum

/-- The invariant of the relaxation search between two loop iterations
(`ex` is empty) and inside the neighbour loop of a cell (`ex` is that cell).
The discovered cells are those of score below `INT_MAX`. -/
structure PQInv (hf : Vector2i → Vector2i → Int) (g0 : Vector2i → CellType)
    (start e : Vector2i) (ex : Vector2i → Prop) (s : PQState) : Prop where
  w_start : s.w.start = start
  w_end : s.w.end_ = e
  score_start : s.score start = hf start e
  score_ge : ∀ c, hf start e ≤ s.score c
  bound : ∀ c, s.score c < INT_MAX →
    s.score c + unsetCount s.score ≤ hf start e + allCells.length
  tree : ∀ c, s.score c < INT_MAX → c ≠ start →
    inBounds c ∧ g0 c ≠ CellType.Wall ∧ adjacent (s.w.cameFrom c) c ∧
      s.score (s.w.cameFrom c) + 1 ≤ s.score c
  entries : ∀ en ∈ s.pq, s.score en.1 < INT_MAX ∧
    (en.1 = start ∨ s.score en.1 + hf en.1 e ≤ en.2)
  frontier : ∀ u, s.score u < INT_MAX → ¬ ex u →
    (∃ k, (u, k) ∈ s.pq ∧ k ≤ s.score u + hf u e) ∨
    (∀ v, adjacent u v → inBounds v → g0 v ≠ CellType.Wall → s.score v ≤ s.score u + 1)
  walls : ∀ c, s.w.grid c = CellType.Wall ↔ g0 c = CellType.Wall
  unvisited : ∀ c, s.w.visited c = false
  end_pending : s.score e < INT_MAX → ∃ k, (e, k) ∈ s.pq
  painted : ∀ c, inBounds c → c ≠ start →
    (s.w.grid c = CellType.Visited ↔ s.score c < INT_MAX)
  kept : ∀ c, (¬ s.score c < INT_MAX ∨ c = start) →
    s.w.cameFrom c = unsetPos ∧ s.w.grid c = (if inBounds c ∧
      (g0 c = CellType.Visited ∨ g0 c = CellType.Path) then CellType.Empty else g0 c)

/-- The facts about the tables of a relaxation search that hold whatever the
queue holds. -/
structure PQTables (hf : Vector2i → Vector2i → Int) (g0 : Vector2i → CellType)
    (start e : Vector2i) (s : PQState) : Prop where
  w_start : s.w.start = start
  w_end : s.w.end_ = e
  score_start : s.score start = hf start e
  start_found : s.score start < INT_MAX
  cert : TreeCert g0 start (fun c => s.score c < INT_MAX) s.w.cameFrom
    (fun c => s.score c - hf start e)
  unvisited : ∀ c, s.w.visited c = false
  painted : ∀ c, inBounds c → c ≠ start →
    (s.w.grid c = CellType.Visited ↔ s.score c < INT_MAX)
  kept : ∀ c, (¬ s.score c < INT_MAX ∨ c = start) →
    s.w.cameFrom c = unsetPos ∧ s.w.grid c = (if inBounds c ∧
      (g0 c = CellType.Visited ∨ g0 c = CellType.Path) then CellType.Empty else g0 c)

/-- The part of the invariant of `bfs` that holds between two loop iterations
(`ex` is empty) and inside the neighbour loop of a cell (`ex` is that cell). -/
structure BfsCore (g0 : Vector2i → CellType) (start e : Vector2i) (lvl : Vector2i → Int)
    (ex : Vector2i → Prop) (s : BfsState) : Prop where
  w_start : s.w.start = start
  w_end : s.w.end_ = e
  vis_start : s.w.visited start = true
  lvl_start : lvl start = 0
  lvl_nonneg : ∀ c, s.w.visited c = true → 0 ≤ lvl c
  tree : ∀ c, s.w.visited c = true → c ≠ start →
    inBounds c ∧ g0 c ≠ CellType.Wall ∧ s.w.visited (s.w.cameFrom c) = true ∧
      adjacent (s.w.cameFrom c) c ∧ lvl (s.w.cameFrom c) + 1 ≤ lvl c
  queued : ∀ c ∈ s.q, s.w.visited c = true
  sorted : s.q.Pairwise (fun a b => lvl a ≤ lvl b)
  closed : ∀ u, s.w.visited u = true → u ∉ s.q → ¬ ex u →
    ∀ v, adjacent u v → inBounds v → g0 v ≠ CellType.Wall →
      s.w.visited v = true ∧ lvl v ≤ lvl u + 1
  walls : ∀ c, s.w.grid c = CellType.Wall ↔ g0 c = CellType.Wall
  end_pending : s.w.visited e = true → e ∈ s.q
  painted : ∀ c, c ≠ start → s.w.visited c = true → s.w.grid c = CellType.Visited
  kept : ∀ c, (s.w.visited c = false ∨ c = start) →
    s.w.cameFrom c = unsetPos ∧ s.w.grid c = (if inBounds c ∧
      (g0 c = CellType.Visited ∨ g0 c = CellType.Path) then CellType.Empty else g0 c)

/-- The invariant of `bfs` between two loop iterations. -/
structure BfsInv (g0 : Vector2i → CellType) (start e : Vector2i) (lvl : Vector2i → Int)
    (s : BfsState) : Prop where
  core : BfsCore g0 start e lvl (fun _ => False) s
  window : ∀ h ∈ s.q, ∀ c, s.w.visited c = true → lvl c ≤ lvl h + 1

/-- The invariant of `bfs` inside the neighbour loop of the popped cell `u`. -/
structure BfsMid (g0 : Vector2i → CellType) (start e : Vector2i) (lvl : Vector2i → Int)
    (u : Vector2i) (s : BfsState) : Prop where
  core : BfsCore g0 start e lvl (fun c => c = u) s
  vis_cur : s.w.visited u = true
  above : ∀ c, s.w.visited c = true → lvl c ≤ lvl u + 1
  below : ∀ h ∈ s.q, lvl u ≤ lvl h

/-- The facts about the final tables of `bfs`. -/
structure BfsTables (g0 : Vector2i → CellType) (start e : Vector2i) (lvl : Vector2i → Int)
    (s : BfsState) : Prop where
  w_start : s.w.start = start
  w_end : s.w.end_ = e
  vis_start : s.w.visited start = true
  lvl_start : lvl start = 0
  cert : TreeCert g0 start (fun c => s.w.visited c = true) s.w.cameFrom lvl
  painted : ∀ c, c ≠ start → s.w.visited c = true → s.w.grid c = CellType.Visited
  kept : ∀ c, (s.w.visited c = false ∨ c = start) →
    s.w.cameFrom c = unsetPos ∧ s.w.grid c = (if inBounds c ∧
      (g0 c = CellType.Visited ∨ g0 c = CellType.Path) then CellType.Empty else g0 c)

/-! ## Concrete inputs and the vocabulary of the claims -/

/-- The tie-breaking oracle that always takes the oldest entry of minimal key. -/
def firstTie : Nat → Nat := fun _ => 0

/-- An empty grid with `Start` at `(0,0)` and `End` at `(0,1)`, as left by the
key handlers. -/
def twoCellWorld : World := onKeyE (onKeyS initialWorld 0 0) 30 0

/-- The chain read off the final globals `w1` of a run started on `w`: the
walk of `drawPath` arrives at start, and its cells followed by start repeat no
cell, are 4-adjacent one to the next, and are, other than start, in bounds and
not a wall of the grid the run started from. -/
def SimpleOpenChain (w w1 : World) : Prop :=
  ∃ path : List Vector2i,
    (∀ fuel, path.length < fuel → drawPath w1 fuel = some (path, w.start)) ∧
    (path ++ [w.start]).Nodup ∧
    List.Chain' adjacent (path ++ [w.start]) ∧
    (path ++ [w.start]).head? = some w.end_ ∧
    ∀ c ∈ path, inBounds c ∧ w.grid c ≠ CellType.Wall

/-- Walls at `(1,0)` and `(0,1)` shut `Start` at `(0,0)` in; `End` is at `(5,5)`. -/
def isolatedStartWorld : World :=
  onKeyE (onKeyS (onLeftClick (onLeftClick initialWorld 0 30) 30 0) 0 0) 150 150

/-- `Start` at `(0,0)`, `End` unset, and walls at `(1,0)`, `(1,1)` and `(0,2)`
around the two open cells `(0,0)` and `(0,1)`. -/
def unsetEndWorld : World :=
  onKeyS (onLeftClick (onLeftClick (onLeftClick initialWorld 0 30) 30 30) 60 0) 0 0

/-- A neighbour step of `aStar` or `dijkstra` pushes at most one entry, and
only for an in-bounds cell whose score it strictly lowers. -/
def PushesOnlyOnDecrease (step : Vector2i → PQState → Int × Int → PQState) : Prop :=
  ∀ (current : Vector2i) (s : PQState) (d : Int × Int),
    step current s d = s ∨
    ∃ (v : Vector2i) (k : Int), (step current s d).pq = s.pq ++ [(v, k)] ∧ inBounds v ∧
      (step current s d).score v < s.score v ∧
      (∀ c, c ≠ v → (step current s d).score c = s.score c) ∧
      (step current s d).w.visited = s.w.visited

/-! ## Sequences of set-start and set-end operations -/

/-- A set-start or set-end operation: key `S` or key `E` with the mouse at a
pixel. -/
inductive MarkOp where
  | setStart (mouseX mouseY : Int)
  | setEnd (mouseX mouseY : Int)

/-- The effect of a set-start or set-end operation. -/
def MarkOp.run (w : World) : MarkOp → World
  | MarkOp.setStart mouseX mouseY => onKeyS w mouseX mouseY
  | MarkOp.setEnd mouseX mouseY => onKeyE w mouseX mouseY

/-- The cell under the mouse. -/
def MarkOp.cell : MarkOp → Vector2i
  | MarkOp.setStart mouseX mouseY => ⟨Int.tdiv mouseY cellSize, Int.tdiv mouseX cellSize⟩
  | MarkOp.setEnd mouseX mouseY => ⟨Int.tdiv mouseY cellSize, Int.tdiv mouseX cellSize⟩

/-- The kind the operation writes. -/
def MarkOp.kind : MarkOp → CellType
  | MarkOp.setStart _ _ => CellType.Start
  | MarkOp.setEnd _ _ => CellType.End

/-- A sequence of set-start and set-end operations, first to last. -/
def runMarks (w : World) (ops : List MarkOp) : World :=
  ops.foldl MarkOp.run w

/-- The most recent operation of the sequence applied to the cell `c`. -/
def lastMarkAt (c : Vector2i) : List MarkOp → Option MarkOp
  | [] => none
  | op :: ops =>
    match lastMarkAt c ops with
    | some later => some later
    | none => if op.cell = c then some op else none

/-! ## Further inputs, loop-head states and logs of the runs -/

/-- The empty grid with `Start` and then `End` set on the same cell `(2,3)`. -/
def sameCellWorld : World := onKeyE (onKeyS initialWorld 90 60) 90 60

/-- The check that a run of the relaxation search never has a choice to make:
at every pop the queue holds at most one entry. -/
def relaxSingle (hf : Vector2i → Vector2i → Int) : Nat → PQState → Bool
  | 0, _ => true
  | fuel + 1, s =>
    match s.pq with
    | [] => true
    | [e] =>
      if e.1 = s.w.end_ then true
      else relaxSingle hf fuel
        (dirs.foldl (relaxNeighbor hf e.1) { s with pq := [], pops := s.pops + 1 })
    | _ :: _ :: _ => false

/-- The scenario of the 3x3 corner: walls at `(0,1)` and `(1,1)`, the gap at
`(2,1)`, the corner shut off from the rest of the grid by walls in row 3 and
column 3, `Start` at `(0,0)` and `End` at `(0,2)`. -/
def cornerWorld : World :=
  onKeyE (onKeyS
    ([(30, 0), (30, 30), (0, 90), (30, 90), (60, 90), (90, 0), (90, 30), (90, 60)].foldl
      (fun (w : World) (p : Int × Int) => onLeftClick w p.1 p.2) initialWorld) 0 0) 60 0

/-- The chain of the 3x3 scenario without its last cell start: from end
`(0,2)` down column 2, along row 2 and up column 0. -/
def cornerPath : List Vector2i := [⟨0, 2⟩, ⟨1, 2⟩, ⟨2, 2⟩, ⟨2, 1⟩, ⟨2, 0⟩, ⟨1, 0⟩]

/-- Two states of the globals that no search can tell apart: the same start,
end, `visited` and `cameFrom`, walls at the same cells and kind `Visited` at the
same cells. -/
def SameSearch (a b : World) : Prop :=
  a.start = b.start ∧ a.end_ = b.end_ ∧ a.visited = b.visited ∧ a.cameFrom = b.cameFrom ∧
  (∀ c, a.grid c = CellType.Wall ↔ b.grid c = CellType.Wall) ∧
  (∀ c, a.grid c = CellType.Visited ↔ b.grid c = CellType.Visited)

/-- What a second run of a search repeats of the first run, whose outcome and
final globals are `o1` and `w1`: the outcome, the tables `cameFrom` and
`visited`, and the set of cells of kind `Visited`. -/
def SameRun (o1 : Outcome) (w1 : World) (o2 : Outcome) (w2 : World) : Prop :=
  o2 = o1 ∧ w2.cameFrom = w1.cameFrom ∧ w2.visited = w1.visited ∧
  ∀ c, w2.grid c = CellType.Visited ↔ w1.grid c = CellType.Visited

/-- The states of `bfs` at the head of its `while` loop, in order: the state
on entry to the loop and the state after each loop iteration. -/
def bfsTrace : Nat → BfsState → List BfsState
  | 0, s => [s]
  | fuel + 1, s =>
    match s.q with
    | [] => [s]
    | current :: rest =>
      let s1 : BfsState := { s with q := rest, pops := s.pops + 1 }
      if current = s1.w.end_ then [s]
      else s :: bfsTrace fuel (dirs.foldl (bfsNeighbor current) s1)

/-- The loop-head states of the run of `bfs`. -/
def bfsStates (w : World) : List BfsState :=
  bfsTrace (bfsPotential (bfsInit w) + 1) (bfsInit w)

/-- The states of `aStar` (`step` is `aStarNeighbor`) or `dijkstra` (`step` is
`dijkstraNeighbor`) at the head of the `while` loop, in order: the state on
entry to the loop and the state after each loop iteration. -/
def pqTrace (step : Vector2i → PQState → Int × Int → PQState) (tie : Nat → Nat) :
    Nat → PQState → List PQState
  | 0, s => [s]
  | fuel + 1, s =>
    match popTop (tie s.pops) s.pq with
    | none => [s]
    | some (top, rest) =>
      let current := top.1
      let s1 : PQState := { s with pq := rest, pops := s.pops + 1 }
      if current = s1.w.end_ then [s]
      else s :: pqTrace step tie fuel (dirs.foldl (step current) s1)

/-- The loop-head states of the run of `aStar`. -/
def aStarStates (tie : Nat → Nat) (w : World) : List PQState :=
  pqTrace aStarNeighbor tie (pqPotential (aStarInit w) + 1) (aStarInit w)

/-- The loop-head states of the run of `dijkstra`. -/
def dijkstraStates (tie : Nat → Nat) (w : World) : List PQState :=
  pqTrace dijkstraNeighbor tie (pqPotential (dijkstraInit w) + 1) (dijkstraInit w)

/-- A value that the global `end` can hold: `(-1,-1)`, or a pair of `int` mouse
coordinates divided by `cellSize`; both coordinates lie within
`INT_MAX / cellSize = 71582788` of zero. -/
def EndValue (e : Vector2i) : Prop :=
  -71582788 ≤ e.x ∧ e.x ≤ 71582788 ∧ -71582788 ≤ e.y ∧ e.y ≤ 71582788

instance (e : Vector2i) : Decidable (EndValue e) := by
  unfold EndValue
  infer_instance

/-- The walk of `drawPath` over the `cameFrom` table of `w1` ends from whatever
cell it starts: within `rows * cols` steps it arrives at start or at the unset
coordinate `(-1,-1)`. -/
def WalkEnds (w1 : World) : Prop :=
  ∀ c : Vector2i, ∃ (path : List Vector2i) (last : Vector2i),
    path.length ≤ (rows * cols).toNat ∧ (last = w1.start ∨ last = unsetPos) ∧
    ∀ fuel, path.length < fuel → drawPathFrom w1 fuel c = some (path, last)

/-- The writes of one pass of the body of the `for` loop of `bfs`, for the
offset `d`: when `isValid` holds, the neighbour is enqueued and its `cameFrom`
entry is written with `current`; the pair of the cell and the value written. -/
def bfsNeighborLog (current : Vector2i) (s : BfsState) (d : Int × Int) :
    List (Vector2i × Vector2i) :=
  let newX := current.x + d.1
  let newY := current.y + d.2
  if isValid s.w newX newY then [(⟨newX, newY⟩, current)] else []

/-- The writes of the `for` loop of `bfs` over the offsets `ds`, in order. -/
def bfsExpandLog (current : Vector2i) : List (Int × Int) → BfsState → List (Vector2i × Vector2i)
  | [], _ => []
  | d :: ds, s => bfsNeighborLog current s d ++ bfsExpandLog current ds (bfsNeighbor current s d)

/-- The writes of the `while` loop of `bfs`, in order: one pair for each
`q.push` of the loop, which goes with the one write of `cameFrom`. -/
def bfsLog : Nat → BfsState → List (Vector2i × Vector2i)
  | 0, _ => []
  | fuel + 1, s =>
    match s.q with
    | [] => []
    | current :: rest =>
      let s1 : BfsState := { s with q := rest, pops := s.pops + 1 }
      if current = s1.w.end_ then []
      else bfsExpandLog current dirs s1 ++ bfsLog fuel (dirs.foldl (bfsNeighbor current) s1)

/-- The writes of the run of `bfs`: the cells enqueued after start, each with
the value written to its `cameFrom` entry. -/
def bfsWrites (w : World) : List (Vector2i × Vector2i) :=
  bfsLog (bfsPotential (bfsInit w) + 1) (bfsInit w)

/-- The cells popped from the queue `q` by the `while` loop of `bfs`, in the
order of the pops; the pop that yields `end` is the last one. -/
def bfsPopped : Nat → BfsState → List Vector2i
  | 0, _ => []
  | fuel + 1, s =>
    match s.q with
    | [] => []
    | current :: rest =>
      let s1 : BfsState := { s with q := rest, pops := s.pops + 1 }
      if current = s1.w.end_ then [current]
      else current :: bfsPopped fuel (dirs.foldl (bfsNeighbor current) s1)

/-- The cells popped from the queue by the run of `bfs`, in order. -/
def bfsPops (w : World) : List Vector2i :=
  bfsPopped (bfsPotential (bfsInit w) + 1) (bfsInit w)

/-- The invariant that ties a state of `bfs` to the writes `L` made so far. -/
structure BfsLogInv (start : Vector2i) (s : BfsState) (L : List (Vector2i × Vector2i)) :
    Prop where
  w_start : s.w.start = start
  vis_start : s.w.visited start = true
  fresh : (start :: L.map Prod.fst).Nodup
  logged : ∀ en ∈ L, s.w.cameFrom en.1 = en.2
  visited : ∀ c, s.w.visited c = true ↔ c = start ∨ c ∈ L.map Prod.fst
  others : ∀ c, c ∉ L.map Prod.fst → s.w.cameFrom c = unsetPos

/-- The invariant of the relaxation search that gives the exact value of the
scores and of the keys: a score below `INT_MAX` is the seed `hf start e` plus
the length of a route from start, and a key is that sum for the route by which
the entry was pushed, plus the heuristic of the cell. -/
structure KeyInv (hf : Vector2i → Vector2i → Int) (g0 : Vector2i → CellType)
    (start e : Vector2i) (s : PQState) : Prop where
  w_end : s.w.end_ = e
  walls : ∀ c, s.w.grid c = CellType.Wall ↔ g0 c = CellType.Wall
  le_max : ∀ c, s.score c ≤ INT_MAX
  found : ∀ en ∈ s.pq, s.score en.1 < INT_MAX
  dist : ∀ c, s.score c < INT_MAX →
    ∃ n : Nat, Route g0 start c n ∧ s.score c = hf start e + n
  keys : ∀ en ∈ s.pq, en = (start, hf start e) ∨
    ∃ n : Nat, 1 ≤ n ∧ Route g0 start en.1 n ∧ en.2 = n + hf start e + hf en.1 e

/-- The cells popped by the loop of `aStar` (`step` is `aStarNeighbor`) or
`dijkstra` (`step` is `dijkstraNeighbor`), in the order of the pops; the pop
that yields `end` is the last one. -/
def pqPopped (step : Vector2i → PQState → Int × Int → PQState) (tie : Nat → Nat) :
    Nat → PQState → List Vector2i
  | 0, _ => []
  | fuel + 1, s =>
    match popTop (tie s.pops) s.pq with
    | none => []
    | some (top, rest) =>
      let current := top.1
      let s1 : PQState := { s with pq := rest, pops := s.pops + 1 }
      if current = s1.w.end_ then [current]
      else current :: pqPopped step tie fuel (dirs.foldl (step current) s1)

/-- The cells popped by the run of `aStar`, in order. -/
def aStarPopped (tie : Nat → Nat) (w : World) : List Vector2i :=
  pqPopped aStarNeighbor tie (pqPotential (aStarInit w) + 1) (aStarInit w)

/-- The cells popped by the run of `dijkstra`, in order. -/
def dijkstraPopped (tie : Nat → Nat) (w : World) : List Vector2i :=
  pqPopped dijkstraNeighbor tie (pqPotential (dijkstraInit w) + 1) (dijkstraInit w)

/-- The grid with walls at `(0,3)`, `(1,1)`, `(1,3)`, `(2,3)`, `(3,1)`, `(3,2)`
and `(4,0)`, start `(0,1)` and end `(3,3)`: the walls close off the nine open
cells around start, and end lies outside. -/
def detourWorld : World :=
  onKeyE (onKeyS
    ([(90, 0), (30, 30), (90, 30), (90, 60), (30, 90), (60, 90), (0, 120)].foldl
      (fun (w : World) (p : Int × Int) => onLeftClick w p.1 p.2) initialWorld) 30 0) 90 90

/-- The tie-breaking that takes the entry pushed last among the entries of
minimal key, for queues of up to twelve entries of minimal key. -/
def lastTie : Nat → Nat := fun _ => 27719

/-- The invariant that ties a state of `dijkstra` to the cells `L` popped so
far: a discovered cell has an entry in the queue whose key is at most its
score, or it has been popped. -/
def PopLog (s : PQState) (L : List Vector2i) : Prop :=
  ∀ u, s.score u < INT_MAX → (∃ k, (u, k) ∈ s.pq ∧ k ≤ s.score u) ∨ u ∈ L

/-- The invariant of the relaxation search about `end`: once discovered, `end`
has an entry in the queue whose key is at most its score plus its heuristic. -/
def EndFresh (hf : Vector2i → Vector2i → Int) (e : Vector2i) (s : PQState) : Prop :=
  s.w.end_ = e ∧ (s.score e < INT_MAX → ∃ k, (e, k) ∈ s.pq ∧ k ≤ s.score e + hf e e)

/-- The cells that a search has to pop before it can stop: the cells on routes
from start that are `end` itself or, when `end` can be reached, lie on a
shorter route than any route to `end`. -/
def Nearer (g0 : Vector2i → CellType) (start e c : Vector2i) : Prop :=
  (∃ n, Route g0 start c n) ∧
  (c = e ∨ ∀ m, Route g0 start e m → ∃ n, Route g0 start c n ∧ n < m)

/-! ## Basic facts -/

@[simp] theorem setAt_same {α : Type} (t : Vector2i → α) (c : Vector2i) (v : α) :
    setAt t c v c = v := by
  simp [setAt]

@[simp] theorem setAt_other {α : Type} (t : Vector2i → α) (c p : Vector2i) (v : α)
    (h : p ≠ c) : setAt t c v p = t p := by
  simp [setAt, h]

theorem setAt_apply {α : Type} (t : Vector2i → α) (c p : Vector2i) (v : α) :
    setAt t c v p = if p = c then v else t p := rfl

theorem mem_allCells (c : Vector2i) : c ∈ allCells ↔ inBounds c := by
  have hr : rows.toNat = 20 := rfl
  have hc : cols.toNat = 20 := rfl
  unfold allCells inBounds
  rw [List.mem_flatMap, hr, hc]
  constructor
  · rintro ⟨i, hi, h⟩
    rw [List.mem_map] at h
    obtain ⟨j, hj, rfl⟩ := h
    rw [List.mem_range] at hi hj
    simp only [rows, cols, Int.ofNat_eq_coe]
    omega
  · rintro ⟨h1, h2, h3, h4⟩
    simp only [rows, cols] at h2 h4
    refine ⟨c.x.toNat, List.mem_range.2 (by omega), ?_⟩
    rw [List.mem_map]
    refine ⟨c.y.toNat, List.mem_range.2 (by omega), ?_⟩
    rw [Int.ofNat_eq_coe, Int.ofNat_eq_coe, Int.toNat_of_nonneg h1, Int.toNat_of_nonneg h3]

theorem adjacent_cases {a b : Vector2i} (h : adjacent a b) :
    (b.x = a.x + -1 ∧ b.y = a.y + 0) ∨ (b.x = a.x + 1 ∧ b.y = a.y + 0) ∨
    (b.x = a.x + 0 ∧ b.y = a.y + -1) ∨ (b.x = a.x + 0 ∧ b.y = a.y + 1) := by
  unfold adjacent at h
  omega

theorem adjacent_dirs {a b : Vector2i} (h : adjacent a b) :
    ∃ d ∈ dirs, b = ⟨a.x + d.1, a.y + d.2⟩ := by
  obtain ⟨bx, byy⟩ := b
  rcases adjacent_cases h with h | h | h | h
  · exact ⟨(-1, 0), by simp [dirs], by simp at h; simp [h.1, h.2]⟩
  · exact ⟨(1, 0), by simp [dirs], by simp at h; simp [h.1, h.2]⟩
  · exact ⟨(0, -1), by simp [dirs], by simp at h; simp [h.1, h.2]⟩
  · exact ⟨(0, 1), by simp [dirs], by simp at h; simp [h.1, h.2]⟩

theorem dirs_adjacent {a : Vector2i} {d : Int × Int} (h : d ∈ dirs) :
    adjacent a ⟨a.x + d.1, a.y + d.2⟩ := by
  simp only [dirs, List.mem_cons, List.mem_singleton, List.not_mem_nil, or_false] at h
  rcases h with rfl | rfl | rfl | rfl <;> simp [adjacent]

theorem adjacent_symm {a b : Vector2i} (h : adjacent a b) : adjacent b a := by
  unfold adjacent at *
  omega

theorem adjacent_ne {a b : Vector2i} (h : adjacent a b) : a ≠ b := by
  rintro rfl
  simp [adjacent] at h

theorem inBounds_ne_unset {c : Vector2i} (h : inBounds c) : c ≠ unsetPos := by
  rintro rfl
  simp [inBounds, unsetPos] at h

theorem adjacent_inBounds_ne_unset {p c : Vector2i} (h : adjacent p c) (hc : inBounds c) :
    p ≠ unsetPos := by
  rintro rfl
  simp only [adjacent, unsetPos, inBounds, rows, cols] at h hc
  omega

/-- A route extended by one more move at its far end. -/
theorem Route.snoc {grid : Vector2i → CellType} {a b c : Vector2i} {n : Nat}
    (h : Route grid a b n) (hadj : adjacent b c) (hc : inBounds c)
    (hw : grid c ≠ CellType.Wall) : Route grid a c (n + 1) := by
  induction h with
  | refl a => exact Route.step hadj hc hw (Route.refl c)
  | step h1 h2 h3 _ ih => exact Route.step h1 h2 h3 (ih hadj)

theorem Route.target {grid : Vector2i → CellType} {a b : Vector2i} {n : Nat}
    (h : Route grid a b n) : b = a ∨ (inBounds b ∧ grid b ≠ CellType.Wall) := by
  induction h with
  | refl a => exact Or.inl rfl
  | step _ h2 h3 _ ih =>
    rcases ih with rfl | ih
    · exact Or.inr ⟨h2, h3⟩
    · exact Or.inr ih

/-- Folding a step function over a list, tracking the elements already done. -/
theorem foldl_track {σ δ : Type} (f : σ → δ → σ) (I : List δ → σ → Prop)
    (l : List δ)
    (hstep : ∀ done d s, d ∈ l → I done s → I (done ++ [d]) (f s d)) :
    ∀ (todo done : List δ) (s : σ), (∀ d ∈ todo, d ∈ l) → I done s →
      I (done ++ todo) (todo.foldl f s) := by
  intro todo
  induction todo with
  | nil => intro done s _ h; simpa using h
  | cons d todo ih =>
    intro done s hsub h
    have h1 := hstep done d s (hsub d (by simp)) h
    have h2 := ih (done ++ [d]) (f s d) (fun x hx => hsub x (by simp [hx])) h1
    simpa using h2

/-! ## The priority queue yields an entry of minimal key -/

theorem minKey_le (es : List (Vector2i × Int)) :
    ∀ k : Int, minKey k es ≤ k ∧ ∀ e ∈ es, minKey k es ≤ e.2 := by
  induction es with
  | nil => intro k; simp [minKey]
  | cons a es ih =>
    intro k
    have h := ih (min k a.2)
    have e1 : minKey k (a :: es) = minKey (min k a.2) es := rfl
    rw [e1]
    refine ⟨le_trans h.1 (min_le_left _ _), ?_⟩
    intro e he
    rcases List.mem_cons.1 he with rfl | he
    · exact le_trans h.1 (min_le_right _ _)
    · exact h.2 e he

theorem minKey_attained (es : List (Vector2i × Int)) :
    ∀ k : Int, minKey k es = k ∨ ∃ e ∈ es, e.2 = minKey k es := by
  induction es with
  | nil => intro k; simp [minKey]
  | cons a es ih =>
    intro k
    have e1 : minKey k (a :: es) = minKey (min k a.2) es := rfl
    rw [e1]
    rcases ih (min k a.2) with h | ⟨e, he, h⟩
    · rcases min_choice k a.2 with h2 | h2
      · left; rw [h, h2]
      · right; exact ⟨a, by simp, by rw [h, h2]⟩
    · right; exact ⟨e, by simp [he], h⟩

theorem popTop_none {t : Nat} {pq : List (Vector2i × Int)} (h : popTop t pq = none) :
    pq = [] := by
  cases pq with
  | nil => rfl
  | cons e es => simp [popTop] at h

theorem popTop_some {t : Nat} {pq : List (Vector2i × Int)} {top : Vector2i × Int}
    {rest : List (Vector2i × Int)} (h : popTop t pq = some (top, rest)) :
    top ∈ pq ∧ (∀ e ∈ pq, top.2 ≤ e.2) ∧ rest = pq.erase top := by
  cases pq with
  | nil => simp [popTop] at h
  | cons e es =>
    simp only [popTop, Option.some.injEq, Prod.mk.injEq] at h
    obtain ⟨h1, h2⟩ := h
    have hne : ((e :: es).filter fun c => decide (c.2 ≤ minKey e.2 es)) ≠ [] := by
      intro hnil
      rcases minKey_attained es e.2 with hm | ⟨x, hx, hm⟩
      · have : e ∈ (e :: es).filter fun c => decide (c.2 ≤ minKey e.2 es) := by
          simp [List.mem_filter, hm]
        rw [hnil] at this
        simp at this
      · have : x ∈ (e :: es).filter fun c => decide (c.2 ≤ minKey e.2 es) := by
          simp [List.mem_filter, hx, hm]
        rw [hnil] at this
        simp at this
    have hlt : t % ((e :: es).filter fun c => decide (c.2 ≤ minKey e.2 es)).length <
        ((e :: es).filter fun c => decide (c.2 ≤ minKey e.2 es)).length :=
      Nat.mod_lt _ (List.length_pos.2 hne)
    have hmem : top ∈ (e :: es).filter fun c => decide (c.2 ≤ minKey e.2 es) := by
      rw [← h1, List.getD_eq_getElem _ _ hlt]
      exact List.getElem_mem _
    rw [List.mem_filter] at hmem
    have hk : top.2 ≤ minKey e.2 es := by simpa using hmem.2
    refine ⟨hmem.1, ?_, by rw [← h2, h1]⟩
    intro x hx
    rcases List.mem_cons.1 hx with rfl | hx
    · exact le_trans hk (minKey_le es _).1
    · exact le_trans hk ((minKey_le es _).2 x hx)

/-! ## A* and Dijkstra as one relaxation search

`aStar` and `dijkstra` are the same loop up to the heuristic added to the key
of a pushed entry; the proofs are done once, for an arbitrary heuristic. -/

theorem aStarNeighbor_eq : aStarNeighbor = relaxNeighbor heuristic := rfl

theorem dijkstraNeighbor_eq : dijkstraNeighbor = relaxNeighbor noHeuristic := by
  funext current s d
  simp [dijkstraNeighbor, relaxNeighbor, noHeuristic]

theorem aStarLoop_eq (tie : Nat → Nat) (fuel : Nat) (s : PQState) :
    aStarLoop tie fuel s = relaxLoop heuristic tie fuel s := by
  induction fuel generalizing s with
  | zero => rfl
  | succ n ih =>
    simp only [aStarLoop, relaxLoop, aStarNeighbor_eq]
    split
    · rfl
    · split
      · rfl
      · exact ih _

theorem dijkstraLoop_eq (tie : Nat → Nat) (fuel : Nat) (s : PQState) :
    dijkstraLoop tie fuel s = relaxLoop noHeuristic tie fuel s := by
  induction fuel generalizing s with
  | zero => rfl
  | succ n ih =>
    simp only [dijkstraLoop, relaxLoop, dijkstraNeighbor_eq]
    split
    · rfl
    · split
      · rfl
      · exact ih _

/-- The neighbour step either leaves the state as it is, or it relaxes the
neighbour cell: the cell is in bounds, not a wall, and its score goes down. -/
theorem relaxNeighbor_cases (hf : Vector2i → Vector2i → Int) (u : Vector2i) (s : PQState)
    (d : Int × Int) :
    (relaxNeighbor hf u s d = s ∧
      (inBounds ⟨u.x + d.1, u.y + d.2⟩ → s.w.grid ⟨u.x + d.1, u.y + d.2⟩ ≠ CellType.Wall →
        s.w.visited ⟨u.x + d.1, u.y + d.2⟩ = false →
        s.score ⟨u.x + d.1, u.y + d.2⟩ ≤ s.score u + 1)) ∨
    (inBounds ⟨u.x + d.1, u.y + d.2⟩ ∧ s.w.grid ⟨u.x + d.1, u.y + d.2⟩ ≠ CellType.Wall ∧
      s.score u + 1 < s.score ⟨u.x + d.1, u.y + d.2⟩ ∧
      relaxNeighbor hf u s d =
        { s with
          score := setAt s.score ⟨u.x + d.1, u.y + d.2⟩ (s.score u + 1)
          w := { s.w with
            cameFrom := setAt s.w.cameFrom ⟨u.x + d.1, u.y + d.2⟩ u
            grid := setAt s.w.grid ⟨u.x + d.1, u.y + d.2⟩ CellType.Visited }
          pq := s.pq ++ [(⟨u.x + d.1, u.y + d.2⟩,
            s.score u + 1 + hf ⟨u.x + d.1, u.y + d.2⟩ s.w.end_)] }) := by
  unfold relaxNeighbor
  by_cases hv : isValid s.w (u.x + d.1) (u.y + d.2) = true
  · by_cases hlt : s.score u + 1 < s.score ⟨u.x + d.1, u.y + d.2⟩
    · right
      simp only [isValid, Bool.and_eq_true, decide_eq_true_eq, Bool.not_eq_true'] at hv
      refine ⟨⟨hv.1.1.1.1.1, hv.1.1.1.1.2, hv.1.1.1.2, hv.1.1.2⟩, hv.1.2, hlt, ?_⟩
      simp [isValid, hv, hlt]
    · left
      simp only [hv, hlt, if_true, if_false, true_and]
      intro _ _ _
      omega
  · left
    simp only [hv, if_false, true_and, Bool.false_eq_true]
    intro hb hw hvis
    exfalso
    apply hv
    simp only [isValid, Bool.and_eq_true, decide_eq_true_eq, Bool.not_eq_true']
    exact ⟨⟨⟨⟨⟨hb.1, hb.2.1⟩, hb.2.2.1⟩, hb.2.2.2⟩, hw⟩, hvis⟩

/-! ## Termination of the relaxation search -/

theorem relaxNeighbor_basic (hf : Vector2i → Vector2i → Int) (u : Vector2i) (s : PQState)
    (d : Int × Int) (hs : PQBasic s) :
    PQBasic (relaxNeighbor hf u s d) ∧
      pqPotential (relaxNeighbor hf u s d) ≤ pqPotential s ∧
      (relaxNeighbor hf u s d).w.end_ = s.w.end_ ∧
      (relaxNeighbor hf u s d).w.start = s.w.start ∧
      (relaxNeighbor hf u s d).pops = s.pops := by
  rcases relaxNeighbor_cases hf u s d with ⟨h, _⟩ | ⟨hb, hw, hlt, h⟩
  · rw [h]; exact ⟨hs, le_refl _, rfl, rfl, rfl⟩
  · rw [h]
    refine ⟨⟨?_, ?_, hs.unvisited⟩, ?_, rfl, rfl, rfl⟩
    · intro c
      simp only [setAt_apply]
      split
      · have := hs.score_nonneg u; omega
      · exact hs.score_nonneg c
    · intro e he
      simp only [List.mem_append, List.mem_singleton] at he
      rcases he with he | rfl
      · exact hs.entries e he
      · exact hb
    · have hsum : (allCells.map fun c =>
          (setAt s.score ⟨u.x + d.1, u.y + d.2⟩ (s.score u + 1) c).toNat).sum <
          (allCells.map fun c => (s.score c).toNat).sum := by
        apply List.sum_lt_sum
        · intro c _
          simp only [setAt_apply]
          split
          · next hc => subst hc; omega
          · exact le_refl _
        · refine ⟨⟨u.x + d.1, u.y + d.2⟩, (mem_allCells _).2 hb, ?_⟩
          have := hs.score_nonneg u
          simp only [setAt_same]
          omega
      simp only [pqPotential, List.length_append, List.length_singleton]
      omega

theorem relaxFold_basic (hf : Vector2i → Vector2i → Int) (u : Vector2i) (l : List (Int × Int)) :
    ∀ s : PQState, PQBasic s →
      PQBasic (l.foldl (relaxNeighbor hf u) s) ∧
      pqPotential (l.foldl (relaxNeighbor hf u) s) ≤ pqPotential s ∧
      (l.foldl (relaxNeighbor hf u) s).w.end_ = s.w.end_ ∧
      (l.foldl (relaxNeighbor hf u) s).w.start = s.w.start ∧
      (l.foldl (relaxNeighbor hf u) s).pops = s.pops := by
  induction l with
  | nil => intro s hs; exact ⟨hs, le_refl _, rfl, rfl, rfl⟩
  | cons d l ih =>
    intro s hs
    obtain ⟨h1, h2, h3, h4, h5⟩ := relaxNeighbor_basic hf u s d hs
    obtain ⟨k1, k2, k3, k4, k5⟩ := ih _ h1
    exact ⟨k1, le_trans k2 h2, k3.trans h3, k4.trans h4, k5.trans h5⟩

/-- The relaxation loop ends within the potential of its state, and it can
only pop `end` when `end` is in bounds. -/
theorem relaxLoop_basic (hf : Vector2i → Vector2i → Int) (tie : Nat → Nat) :
    ∀ (fuel : Nat) (s : PQState), PQBasic s → pqPotential s < fuel →
      (relaxLoop hf tie fuel s).1 ≠ Outcome.outOfFuel ∧
      PQBasic (relaxLoop hf tie fuel s).2 ∧
      ((relaxLoop hf tie fuel s).1 = Outcome.reached → inBounds s.w.end_) := by
  intro fuel
  induction fuel with
  | zero => intro s _ h; omega
  | succ n ih =>
    intro s hs hfuel
    unfold relaxLoop
    cases hp : popTop (tie s.pops) s.pq with
    | none => exact ⟨by simp, hs, by simp⟩
    | some r =>
      obtain ⟨top, rest⟩ := r
      obtain ⟨hmem, _, hrest⟩ := popTop_some hp
      have hlen : rest.length + 1 = s.pq.length := by
        rw [hrest, List.length_erase_of_mem hmem]
        have := List.length_pos_of_mem hmem
        omega
      have hs1 : PQBasic { s with pq := rest, pops := s.pops + 1 } :=
        ⟨hs.score_nonneg, fun e he => hs.entries e (by rw [hrest] at he; exact List.mem_of_mem_erase he),
          hs.unvisited⟩
      simp only
      by_cases he : top.1 = s.w.end_
      · simp only [he, if_true]
        exact ⟨by simp, hs1, fun _ => he ▸ hs.entries top hmem⟩
      · simp only [he, if_false]
        obtain ⟨k1, k2, k3, _, _⟩ := relaxFold_basic hf top.1 dirs _ hs1
        have hpot : pqPotential { s with pq := rest, pops := s.pops + 1 } + 1 = pqPotential s := by
          simp only [pqPotential]
          omega
        obtain ⟨r1, r2, r3⟩ := ih _ k1 (by omega)
        refine ⟨r1, r2, fun h => ?_⟩
        have := r3 h
        rw [k3] at this
        exact this

/-! ## Predecessor trees and frontiers

The facts about the final tables that all three searches share, stated for an
abstract set `S` of discovered cells with a level `lvl` on them. -/

theorem TreeCert.walk {g0 : Vector2i → CellType} {w : World} {S : Vector2i → Prop}
    {lvl : Vector2i → Int} (hc : TreeCert g0 w.start S w.cameFrom lvl) :
    ∀ (n : Nat) (c : Vector2i), S c → lvl c ≤ n →
      ∃ path : List Vector2i, GoodWalk g0 w c path ∧ (path.length : Int) ≤ lvl c ∧
        ∀ x ∈ path, x ≠ w.start ∧ lvl x ≤ lvl c := by
  intro n
  induction n with
  | zero =>
    intro c hS hl
    by_cases hcs : c = w.start
    · subst hcs
      refine ⟨[], ⟨?_, Route.refl _, rfl, by simp, by simp, by simp⟩, ?_, by simp⟩
      · intro fuel hfuel
        cases fuel with
        | zero => simp at hfuel
        | succ f => simp [drawPathFrom]
      · simpa using hc.nonneg _ hS
    · obtain ⟨_, _, hp, _, hlt⟩ := hc.parent c hS hcs
      have := hc.nonneg _ hp
      simp only [Nat.cast_zero] at hl
      omega
  | succ n ih =>
    intro c hS hl
    by_cases hcs : c = w.start
    · subst hcs
      refine ⟨[], ⟨?_, Route.refl _, rfl, by simp, by simp, by simp⟩, ?_, by simp⟩
      · intro fuel hfuel
        cases fuel with
        | zero => simp at hfuel
        | succ f => simp [drawPathFrom]
      · simpa using hc.nonneg _ hS
    · obtain ⟨hb, hw, hp, hadj, hlt⟩ := hc.parent c hS hcs
      have hln : lvl (w.cameFrom c) ≤ n := by
        push_cast at hl
        omega
      obtain ⟨path, hg, hlen, hx⟩ := ih (w.cameFrom c) hp hln
      refine ⟨c :: path, ⟨?_, ?_, rfl, ?_, ?_, ?_⟩, ?_, ?_⟩
      · intro fuel hfuel
        cases fuel with
        | zero => simp at hfuel
        | succ f =>
          have hf : path.length < f := by simpa using hfuel
          simp [drawPathFrom, hcs, inBounds_ne_unset hb, hg.walk f hf]
      · exact Route.snoc hg.route hadj hb hw
      · rw [List.cons_append, List.nodup_cons]
        refine ⟨?_, hg.nodup⟩
        intro hmem
        rcases List.mem_append.1 hmem with hm | hm
        · have := (hx c hm).2
          omega
        · exact hcs (by simpa using hm)
      · rw [List.cons_append]
        apply List.Chain'.cons' hg.chain
        intro y hy
        rw [hg.head] at hy
        have : y = w.cameFrom c := by simpa using hy.symm
        rw [this]
        exact adjacent_symm hadj
      · intro x hxm
        rcases List.mem_cons.1 hxm with rfl | hxm
        · exact ⟨hb, hw⟩
        · exact hg.cells x hxm
      · simp only [List.length_cons]
        push_cast
        omega
      · intro x hxm
        rcases List.mem_cons.1 hxm with rfl | hxm
        · exact ⟨hcs, le_refl _⟩
        · exact ⟨(hx x hxm).1, by have := (hx x hxm).2; omega⟩

/-- The walk from a discovered cell, without the bound on the level. -/
theorem TreeCert.goodWalk {g0 : Vector2i → CellType} {w : World} {S : Vector2i → Prop}
    {lvl : Vector2i → Int} (hc : TreeCert g0 w.start S w.cameFrom lvl) (c : Vector2i)
    (hS : S c) :
    ∃ path : List Vector2i, GoodWalk g0 w c path ∧ (path.length : Int) ≤ lvl c := by
  obtain ⟨path, h1, h2, _⟩ := hc.walk (lvl c).toNat c hS
    (by rw [Int.toNat_of_nonneg (hc.nonneg c hS)])
  exact ⟨path, h1, h2⟩

/-- Along a route to `e`, from a discovered cell of level at most `i`: either
`e` is discovered with level at most `i` plus the length, or the frontier holds
a key of at most that value. -/
theorem frontier_route (g0 : Vector2i → CellType) (S : Vector2i → Prop)
    (lvl : Vector2i → Int) (K : Int → Prop) (hfv : Vector2i → Int) (e : Vector2i)
    (hadm : ∀ c m, Route g0 c e m → hfv c ≤ m)
    (hfr : ∀ u, S u → (∃ k, K k ∧ k ≤ lvl u + hfv u) ∨
      (∀ v, adjacent u v → inBounds v → g0 v ≠ CellType.Wall → S v ∧ lvl v ≤ lvl u + 1)) :
    ∀ (c t : Vector2i) (m : Nat), Route g0 c t m → t = e → ∀ i : Int, S c → lvl c ≤ i →
      (S e ∧ lvl e ≤ i + m) ∨ ∃ k, K k ∧ k ≤ i + m := by
  intro c t m h
  induction h with
  | refl a =>
    intro ht i hS hl
    subst ht
    left
    exact ⟨hS, by simpa using hl⟩
  | @step a b c n hadj hb hw hr ih =>
    intro ht i hS hl
    rcases hfr a hS with ⟨k, hk, hle⟩ | hcl
    · right
      refine ⟨k, hk, ?_⟩
      have := hadm a (n + 1) (ht ▸ Route.step hadj hb hw hr)
      push_cast at this ⊢
      omega
    · obtain ⟨hSb, hlb⟩ := hcl b hadj hb hw
      rcases ih ht (i + 1) hSb (by omega) with ⟨h1, h2⟩ | ⟨k, hk, hle⟩
      · left
        refine ⟨h1, ?_⟩
        push_cast
        omega
      · right
        refine ⟨k, hk, ?_⟩
        push_cast
        omega

/-- A set of cells that contains the source of a route and is closed under
moves into open cells contains its target. -/
theorem closed_route {g0 : Vector2i → CellType} {S : Vector2i → Prop}
    (hcl : ∀ u, S u → ∀ v, adjacent u v → inBounds v → g0 v ≠ CellType.Wall → S v) :
    ∀ (c t : Vector2i) (m : Nat), Route g0 c t m → S c → S t := by
  intro c t m h
  induction h with
  | refl a => exact id
  | step hadj hb hw _ ih => exact fun hS => ih (hcl _ hS _ hadj hb hw)

theorem iabs_nonneg (v : Int) : 0 ≤ iabs v := by
  unfold iabs
  split <;> omega

theorem heuristic_nonneg (a b : Vector2i) : 0 ≤ heuristic a b := by
  have h1 := iabs_nonneg (a.x - b.x)
  have h2 := iabs_nonneg (a.y - b.y)
  unfold heuristic
  omega

theorem heuristic_self (a : Vector2i) : heuristic a a = 0 := by
  simp [heuristic, iabs]

theorem heuristic_adjacent {a b : Vector2i} (e : Vector2i) (h : adjacent a b) :
    heuristic a e ≤ heuristic b e + 1 := by
  unfold adjacent at h
  unfold heuristic iabs
  split <;> split <;> split <;> split <;> omega

/-- The Manhattan distance never overestimates the length of a route. -/
theorem heuristic_admissible (g0 : Vector2i → CellType) (e : Vector2i) :
    ∀ (c : Vector2i) (m : Nat), Route g0 c e m → heuristic c e ≤ m := by
  have key : ∀ (c t : Vector2i) (m : Nat), Route g0 c t m → heuristic c t ≤ m := by
    intro c t m h
    induction h with
    | refl a => simp [heuristic_self]
    | @step a b c n hadj _ _ _ ih =>
      have := heuristic_adjacent c hadj
      push_cast
      omega
  exact fun c m h => key c e m h

theorem heuristic_small {a b : Vector2i} (ha : inBounds a) (hb : inBounds b ∨ b = unsetPos) :
    heuristic a b ≤ 40 := by
  unfold heuristic iabs
  rcases hb with hb | rfl
  · simp only [inBounds, rows, cols] at ha hb
    split <;> split <;> omega
  · simp only [inBounds, rows, cols, unsetPos] at ha ⊢
    split <;> split <;> omega

theorem allCells_length : allCells.length = 400 := by
  have hr : rows.toNat = 20 := rfl
  have hc : cols.toNat = 20 := rfl
  simp [allCells, hr, hc, List.length_flatMap, Function.comp_def]

/-! ## The invariant of the relaxation search -/

theorem unsetCount_le_length (score : Vector2i → Int) : unsetCount score ≤ allCells.length := by
  unfold unsetCount
  have h : (allCells.map fun c => if score c < INT_MAX then 0 else 1).sum ≤
      (allCells.map fun _ => 1).sum :=
    List.sum_le_sum (fun c _ => by split <;> omega)
  simpa using h

theorem unsetCount_setAt (score : Vector2i → Int) (v : Vector2i) (t : Int)
    (hv : inBounds v) (ht : t < INT_MAX) :
    unsetCount (setAt score v t) ≤ unsetCount score ∧
      (¬ score v < INT_MAX → unsetCount (setAt score v t) < unsetCount score) := by
  have hle : ∀ c ∈ allCells, (if setAt score v t c < INT_MAX then 0 else 1) ≤
      (if score c < INT_MAX then 0 else 1) := by
    intro c _
    by_cases hc : c = v
    · subst hc
      simp [ht]
    · simp [setAt_other _ _ _ _ hc]
  refine ⟨List.sum_le_sum hle, fun hun => List.sum_lt_sum _ _ hle ⟨v, (mem_allCells v).2 hv, ?_⟩⟩
  simp [ht, hun]

theorem relaxNeighbor_inv {hf : Vector2i → Vector2i → Int} {g0 : Vector2i → CellType}
    {start e u : Vector2i} {s : PQState} {d : Int × Int}
    (hsmall : hf start e + allCells.length + 1 < INT_MAX)
    (hd : d ∈ dirs) (hS : s.score u < INT_MAX)
    (hinv : PQInv hf g0 start e (fun c => c = u) s) :
    PQInv hf g0 start e (fun c => c = u) (relaxNeighbor hf u s d) ∧
      (relaxNeighbor hf u s d).score u = s.score u ∧
      (∀ c, (relaxNeighbor hf u s d).score c ≤ s.score c) ∧
      (inBounds ⟨u.x + d.1, u.y + d.2⟩ → g0 ⟨u.x + d.1, u.y + d.2⟩ ≠ CellType.Wall →
        (relaxNeighbor hf u s d).score ⟨u.x + d.1, u.y + d.2⟩ ≤ s.score u + 1) := by
  have hadj : adjacent u ⟨u.x + d.1, u.y + d.2⟩ := dirs_adjacent hd
  rcases relaxNeighbor_cases hf u s d with ⟨h, hle⟩ | ⟨hb, hw, hlt, h⟩
  · rw [h]
    exact ⟨hinv, rfl, fun c => le_refl _,
      fun hb hw => hle hb (fun hc => hw ((hinv.walls _).1 hc)) (hinv.unvisited _)⟩
  · rw [h]
    clear h
    generalize (⟨u.x + d.1, u.y + d.2⟩ : Vector2i) = v at *
    have huv : u ≠ v := adjacent_ne hadj
    have hw0 : g0 v ≠ CellType.Wall := fun hc => hw ((hinv.walls _).2 hc)
    have hge := hinv.score_ge u
    have hvs : v ≠ start := by
      rintro rfl
      rw [hinv.score_start] at hlt
      omega
    have hbu := hinv.bound u hS
    have htlt : s.score u + 1 < INT_MAX := by omega
    obtain ⟨hc1, hc2⟩ := unsetCount_setAt s.score v (s.score u + 1) hb htlt
    have hmono : ∀ c, setAt s.score v (s.score u + 1) c ≤ s.score c := by
      intro c
      rw [setAt_apply]
      split
      · next hc => subst hc; omega
      · exact le_refl _
    refine ⟨⟨hinv.w_start, hinv.w_end, ?_, ?_, ?_, ?_, ?_, ?_, ?_, hinv.unvisited, ?_, ?_, ?_⟩,
      ?_, hmono, ?_⟩
    · -- score_start
      show setAt s.score v (s.score u + 1) start = hf start e
      rw [setAt_other _ _ _ _ (Ne.symm hvs)]
      exact hinv.score_start
    · -- score_ge
      intro c
      show hf start e ≤ setAt s.score v (s.score u + 1) c
      rw [setAt_apply]
      split
      · omega
      · exact hinv.score_ge c
    · -- bound
      intro c hc
      change setAt s.score v (s.score u + 1) c < INT_MAX at hc
      show setAt s.score v (s.score u + 1) c + unsetCount (setAt s.score v (s.score u + 1)) ≤ _
      by_cases hcv : c = v
      · subst hcv
        rw [setAt_same]
        by_cases hset : s.score c < INT_MAX
        · have := hinv.bound c hset
          omega
        · have := hc2 hset
          omega
      · rw [setAt_other _ _ _ _ hcv] at hc ⊢
        have := hinv.bound c hc
        omega
    · -- tree
      intro c hc hcs
      change setAt s.score v (s.score u + 1) c < INT_MAX at hc
      show inBounds c ∧ g0 c ≠ CellType.Wall ∧ adjacent (setAt s.w.cameFrom v u c) c ∧
        setAt s.score v (s.score u + 1) (setAt s.w.cameFrom v u c) + 1 ≤
          setAt s.score v (s.score u + 1) c
      by_cases hcv : c = v
      · subst hcv
        rw [setAt_same, setAt_same, setAt_other _ _ _ _ huv]
        exact ⟨hb, hw0, hadj, le_refl _⟩
      · rw [setAt_other _ _ _ _ hcv] at hc ⊢
        rw [setAt_other _ _ _ _ hcv]
        obtain ⟨t1, t2, t3, t4⟩ := hinv.tree c hc hcs
        exact ⟨t1, t2, t3, le_trans (by have := hmono (s.w.cameFrom c); omega) t4⟩
    · -- entries
      intro en hen
      change en ∈ s.pq ++ [(v, s.score u + 1 + hf v s.w.end_)] at hen
      show setAt s.score v (s.score u + 1) en.1 < INT_MAX ∧
        (en.1 = start ∨ setAt s.score v (s.score u + 1) en.1 + hf en.1 e ≤ en.2)
      rcases List.mem_append.1 hen with hen | hen
      · obtain ⟨e1, e2⟩ := hinv.entries en hen
        have := hmono en.1
        refine ⟨by omega, ?_⟩
        rcases e2 with e2 | e2
        · exact Or.inl e2
        · exact Or.inr (by omega)
      · have : en = (v, s.score u + 1 + hf v s.w.end_) := by simpa using hen
        subst this
        simp only [setAt_same]
        rw [hinv.w_end]
        exact ⟨htlt, Or.inr (le_refl _)⟩
    · -- frontier
      intro c hc hcu
      change setAt s.score v (s.score u + 1) c < INT_MAX at hc
      show (∃ k, (c, k) ∈ s.pq ++ [(v, s.score u + 1 + hf v s.w.end_)] ∧
          k ≤ setAt s.score v (s.score u + 1) c + hf c e) ∨
        (∀ x, adjacent c x → inBounds x → g0 x ≠ CellType.Wall →
          setAt s.score v (s.score u + 1) x ≤ setAt s.score v (s.score u + 1) c + 1)
      by_cases hcv : c = v
      · subst hcv
        left
        refine ⟨s.score u + 1 + hf c e, ?_, ?_⟩
        · rw [hinv.w_end]
          exact List.mem_append.2 (Or.inr (by simp))
        · rw [setAt_same]
      · rw [setAt_other _ _ _ _ hcv] at hc ⊢
        rcases hinv.frontier c hc hcu with ⟨k, hk, hle⟩ | hcl
        · exact Or.inl ⟨k, List.mem_append.2 (Or.inl hk), hle⟩
        · right
          intro x hx hxb hxw
          exact le_trans (hmono x) (hcl x hx hxb hxw)
    · -- walls
      intro c
      show setAt s.w.grid v CellType.Visited c = CellType.Wall ↔ _
      by_cases hcv : c = v
      · subst hcv
        rw [setAt_same]
        constructor
        · intro h; cases h
        · intro h; exact absurd h hw0
      · rw [setAt_other _ _ _ _ hcv]
        exact hinv.walls c
    · -- end_pending
      intro he
      change setAt s.score v (s.score u + 1) e < INT_MAX at he
      show ∃ k, (e, k) ∈ s.pq ++ [(v, s.score u + 1 + hf v s.w.end_)]
      by_cases hev : e = v
      · exact ⟨s.score u + 1 + hf v s.w.end_, List.mem_append.2 (Or.inr (by rw [hev]; simp))⟩
      · rw [setAt_other _ _ _ _ hev] at he
        obtain ⟨k, hk⟩ := hinv.end_pending he
        exact ⟨k, List.mem_append.2 (Or.inl hk)⟩
    · -- painted
      intro c hcb hcs
      show setAt s.w.grid v CellType.Visited c = CellType.Visited ↔
        setAt s.score v (s.score u + 1) c < INT_MAX
      by_cases hcv : c = v
      · subst hcv
        rw [setAt_same, setAt_same]
        exact ⟨fun _ => htlt, fun _ => rfl⟩
      · rw [setAt_other _ _ _ _ hcv, setAt_other _ _ _ _ hcv]
        exact hinv.painted c hcb hcs
    · -- kept
      intro c hc
      change (¬ setAt s.score v (s.score u + 1) c < INT_MAX ∨ c = start) at hc
      show setAt s.w.cameFrom v u c = unsetPos ∧ setAt s.w.grid v CellType.Visited c = _
      have hcv : c ≠ v := by
        rintro rfl
        rcases hc with hc | hc
        · rw [setAt_same] at hc
          exact hc htlt
        · exact hvs hc
      rw [setAt_other _ _ _ _ hcv, setAt_other _ _ _ _ hcv]
      rw [setAt_other _ _ _ _ hcv] at hc
      exact hinv.kept c hc
    · -- score of u
      show setAt s.score v (s.score u + 1) u = s.score u
      rw [setAt_other _ _ _ _ huv]
    · -- closedness at v
      intro _ _
      show setAt s.score v (s.score u + 1) v ≤ s.score u + 1
      rw [setAt_same]

theorem relaxFold_inv {hf : Vector2i → Vector2i → Int} {g0 : Vector2i → CellType}
    {start e u : Vector2i} (s : PQState)
    (hsmall : hf start e + allCells.length + 1 < INT_MAX) (hS : s.score u < INT_MAX)
    (hinv : PQInv hf g0 start e (fun c => c = u) s) :
    PQInv hf g0 start e (fun _ => False) (dirs.foldl (relaxNeighbor hf u) s) := by
  have key := foldl_track (relaxNeighbor hf u)
    (fun done s' => PQInv hf g0 start e (fun c => c = u) s' ∧ s'.score u = s.score u ∧
      ∀ d ∈ done, inBounds ⟨u.x + d.1, u.y + d.2⟩ → g0 ⟨u.x + d.1, u.y + d.2⟩ ≠ CellType.Wall →
        s'.score ⟨u.x + d.1, u.y + d.2⟩ ≤ s.score u + 1)
    dirs
    (by
      intro done d s' hd ⟨h1, h2, h3⟩
      obtain ⟨k1, k2, k3, k4⟩ := relaxNeighbor_inv hsmall hd (by rw [h2]; exact hS) h1
      refine ⟨k1, k2.trans h2, ?_⟩
      intro d' hd' hb hw
      rcases List.mem_append.1 hd' with hd' | hd'
      · exact le_trans (k3 _) (h3 d' hd' hb hw)
      · have : d' = d := by simpa using hd'
        subst this
        rw [← h2]
        exact k4 hb hw)
    dirs [] s (fun _ h => h) ⟨hinv, rfl, by simp⟩
  simp only [List.nil_append] at key
  obtain ⟨h1, h2, h3⟩ := key
  refine { h1 with frontier := ?_ }
  intro c hc _
  by_cases hcu : c = u
  · subst hcu
    right
    intro v hadj hb hw
    obtain ⟨d, hd, rfl⟩ := adjacent_dirs hadj
    rw [h2]
    exact h3 d hd hb hw
  · exact h1.frontier c hc hcu

theorem pop_inv {hf : Vector2i → Vector2i → Int} {g0 : Vector2i → CellType}
    {start e : Vector2i} {s : PQState} {t : Nat} {top : Vector2i × Int}
    {rest : List (Vector2i × Int)}
    (hinv : PQInv hf g0 start e (fun _ => False) s)
    (hp : popTop t s.pq = some (top, rest)) (hne : top.1 ≠ e) :
    PQInv hf g0 start e (fun c => c = top.1) { s with pq := rest, pops := s.pops + 1 } := by
  obtain ⟨_, _, hrest⟩ := popTop_some hp
  have hkeep : ∀ c k, c ≠ top.1 → (c, k) ∈ s.pq → (c, k) ∈ rest := by
    intro c k hc hk
    rw [hrest]
    exact (List.mem_erase_of_ne (by rintro rfl; exact hc rfl)).2 hk
  refine ⟨hinv.w_start, hinv.w_end, hinv.score_start, hinv.score_ge, hinv.bound, hinv.tree,
    ?_, ?_, hinv.walls, hinv.unvisited, ?_, hinv.painted, hinv.kept⟩
  · intro en hen
    exact hinv.entries en (by rw [hrest] at hen; exact List.mem_of_mem_erase hen)
  · intro c hc hcu
    rcases hinv.frontier c hc (fun h => h) with ⟨k, hk, hle⟩ | hcl
    · exact Or.inl ⟨k, hkeep c k hcu hk, hle⟩
    · exact Or.inr hcl
  · intro he
    obtain ⟨k, hk⟩ := hinv.end_pending he
    exact ⟨k, hkeep e k (Ne.symm hne) hk⟩

theorem PQInv.toTables {hf : Vector2i → Vector2i → Int} {g0 : Vector2i → CellType}
    {start e : Vector2i} {ex : Vector2i → Prop} {s : PQState}
    (hsmall : hf start e + allCells.length + 1 < INT_MAX)
    (hinv : PQInv hf g0 start e ex s) : PQTables hf g0 start e s := by
  refine ⟨hinv.w_start, hinv.w_end, hinv.score_start, ?_, ⟨?_, ?_⟩, hinv.unvisited,
    hinv.painted, hinv.kept⟩
  · rw [hinv.score_start]; omega
  · intro c _
    have := hinv.score_ge c
    omega
  · intro c hc hcs
    obtain ⟨t1, t2, t3, t4⟩ := hinv.tree c hc hcs
    exact ⟨t1, t2, by omega, t3, by omega⟩

/-- The outcome of the relaxation loop from a state that satisfies the
invariant: when `end` is popped its score is at most the length of any route,
and when the queue runs empty the discovered cells are closed under moves and
`end` is not among them. -/
theorem relaxLoop_inv {hf : Vector2i → Vector2i → Int} {g0 : Vector2i → CellType}
    {start e : Vector2i} (tie : Nat → Nat)
    (hnn : ∀ c, 0 ≤ hf c e) (hadm : ∀ c m, Route g0 c e m → hf c e ≤ m)
    (hsmall : hf start e + allCells.length + 1 < INT_MAX) :
    ∀ (fuel : Nat) (s : PQState), PQInv hf g0 start e (fun _ => False) s →
      (relaxLoop hf tie fuel s).1 ≠ Outcome.outOfFuel →
      PQTables hf g0 start e (relaxLoop hf tie fuel s).2 ∧
      ((relaxLoop hf tie fuel s).1 = Outcome.reached →
        (relaxLoop hf tie fuel s).2.score e < INT_MAX ∧
        ∀ m, Route g0 start e m → (relaxLoop hf tie fuel s).2.score e ≤ hf start e + m) ∧
      ((relaxLoop hf tie fuel s).1 = Outcome.exhausted →
        ¬ (relaxLoop hf tie fuel s).2.score e < INT_MAX ∧
        ∀ u, (relaxLoop hf tie fuel s).2.score u < INT_MAX → ∀ v, adjacent u v → inBounds v →
          g0 v ≠ CellType.Wall → (relaxLoop hf tie fuel s).2.score v < INT_MAX) := by
  intro fuel
  induction fuel with
  | zero => intro s _ h; simp [relaxLoop] at h
  | succ n ih =>
    intro s hinv
    have hclosed : ∀ u, s.score u < INT_MAX →
        (∀ v, adjacent u v → inBounds v → g0 v ≠ CellType.Wall → s.score v ≤ s.score u + 1) →
        ∀ v, adjacent u v → inBounds v → g0 v ≠ CellType.Wall → s.score v < INT_MAX := by
      intro u hu hcl v hadj hb hw
      have h1 := hcl v hadj hb hw
      have h2 := hinv.bound u hu
      omega
    unfold relaxLoop
    cases hp : popTop (tie s.pops) s.pq with
    | none =>
      intro _
      have hnil := popTop_none hp
      refine ⟨hinv.toTables hsmall, by simp, fun _ => ⟨?_, ?_⟩⟩
      · intro he
        obtain ⟨k, hk⟩ := hinv.end_pending he
        rw [hnil] at hk
        simp at hk
      · intro u hu
        rcases hinv.frontier u hu (fun h => h) with ⟨k, hk, _⟩ | hcl
        · rw [hnil] at hk
          simp at hk
        · exact hclosed u hu hcl
    | some r =>
      obtain ⟨top, rest⟩ := r
      obtain ⟨hmem, hmin, hrest⟩ := popTop_some hp
      simp only
      by_cases he : top.1 = s.w.end_
      · simp only [he, if_true]
        intro _
        have ht := hinv.toTables hsmall
        have hee : top.1 = e := he.trans hinv.w_end
        obtain ⟨hSe, hkey⟩ := hinv.entries top hmem
        rw [hee] at hSe hkey
        refine ⟨⟨ht.w_start, ht.w_end, ht.score_start, ht.start_found, ht.cert, ht.unvisited,
          ht.painted, ht.kept⟩, fun _ => ⟨hSe, ?_⟩, by simp⟩
        intro m hr
        show s.score e ≤ hf start e + m
        have hfr := frontier_route g0 (fun c => s.score c < INT_MAX)
          s.score (fun k => ∃ en ∈ s.pq, en.2 = k) (fun c => hf c e) e hadm
          (by
            intro u hu
            rcases hinv.frontier u hu (fun h => h) with ⟨k, hk, hle⟩ | hcl
            · exact Or.inl ⟨k, ⟨(u, k), hk, rfl⟩, hle⟩
            · exact Or.inr fun v hadj hb hw =>
                ⟨hclosed u hu hcl v hadj hb hw, hcl v hadj hb hw⟩)
          start e m hr rfl (hf start e) ht.start_found (le_of_eq hinv.score_start)
        rcases hfr with ⟨_, h2⟩ | ⟨k, ⟨en, hen, rfl⟩, hle⟩
        · exact h2
        · have h1 := hmin en hen
          rcases hkey with hk | hk
          · have h3 : s.score e = s.score start := by rw [hk]
            rw [h3, hinv.score_start]
            omega
          · have := hnn e
            omega
      · simp only [he, if_false]
        have hne : top.1 ≠ e := fun h => he (h.trans hinv.w_end.symm)
        have h1 := pop_inv hinv hp hne
        have h2 := relaxFold_inv { s with pq := rest, pops := s.pops + 1 } hsmall
          (hinv.entries top hmem).1 h1
        exact ih _ h2

/-! ## The relaxation search from its initial state -/

theorem aStar_eq (tie : Nat → Nat) (w : World) : aStar tie w = relaxRun heuristic tie w := by
  have h : aStarInit w = relaxInit heuristic w := by
    simp [aStarInit, relaxInit]
  unfold aStar relaxRun
  rw [aStarLoop_eq, h]

theorem dijkstra_eq (tie : Nat → Nat) (w : World) :
    dijkstra tie w = relaxRun noHeuristic tie w := by
  have h : dijkstraInit w = relaxInit noHeuristic w := rfl
  unfold dijkstra relaxRun
  rw [dijkstraLoop_eq, h]

theorem relaxInit_basic (hf : Vector2i → Vector2i → Int) (w : World) (hs : inBounds w.start)
    (hnn : 0 ≤ hf w.start w.end_) : PQBasic (relaxInit hf w) := by
  refine ⟨?_, ?_, fun _ => rfl⟩
  · intro c
    show 0 ≤ setAt (fun _ => INT_MAX) w.start (hf w.start w.end_) c
    rw [setAt_apply]
    split
    · exact hnn
    · simp [INT_MAX]
  · intro en hen
    have : en = (w.start, hf w.start w.end_) := by simpa [relaxInit, resetGrid] using hen
    rw [this]
    exact hs

theorem relaxInit_inv (hf : Vector2i → Vector2i → Int) (w : World)
    (hnn : ∀ c, 0 ≤ hf c w.end_)
    (hsmall : hf w.start w.end_ + allCells.length + 1 < INT_MAX) :
    PQInv hf w.grid w.start w.end_ (fun _ => False) (relaxInit hf w) := by
  have hset : ∀ c, setAt (fun _ => INT_MAX) w.start (hf w.start w.end_) c < INT_MAX →
      c = w.start := by
    intro c hc
    by_contra hne
    rw [setAt_other _ _ _ _ hne] at hc
    exact lt_irrefl _ hc
  have hst : setAt (fun _ => INT_MAX) w.start (hf w.start w.end_) w.start =
      hf w.start w.end_ := setAt_same _ _ _
  refine ⟨rfl, rfl, hst, ?_, ?_, ?_, ?_, ?_, ?_, fun _ => rfl, ?_, ?_, ?_⟩
  · intro c
    show hf w.start w.end_ ≤ setAt (fun _ => INT_MAX) w.start (hf w.start w.end_) c
    rw [setAt_apply]
    split
    · exact le_refl _
    · omega
  · intro c hc
    change setAt (fun _ => INT_MAX) w.start (hf w.start w.end_) c < INT_MAX at hc
    show setAt (fun _ => INT_MAX) w.start (hf w.start w.end_) c + _ ≤ _
    rw [hset c hc, hst]
    have := unsetCount_le_length (setAt (fun _ => INT_MAX) w.start (hf w.start w.end_))
    have h2 : (relaxInit hf w).score = setAt (fun _ => INT_MAX) w.start (hf w.start w.end_) := rfl
    rw [h2]
    omega
  · intro c hc hcs
    exact absurd (hset c hc) hcs
  · intro en hen
    have : en = (w.start, hf w.start w.end_) := by simpa [relaxInit, resetGrid] using hen
    rw [this]
    refine ⟨?_, Or.inl rfl⟩
    show setAt (fun _ => INT_MAX) w.start (hf w.start w.end_) w.start < INT_MAX
    rw [hst]
    omega
  · intro u hu _
    left
    have hu' := hset u hu
    subst hu'
    refine ⟨hf w.start w.end_, by simp [relaxInit, resetGrid], ?_⟩
    show hf w.start w.end_ ≤ setAt (fun _ => INT_MAX) w.start (hf w.start w.end_) w.start + _
    rw [hst]
    have := hnn w.start
    omega
  · intro c
    show (if inBounds c ∧ (w.grid c = CellType.Visited ∨ w.grid c = CellType.Path)
      then CellType.Empty else w.grid c) = CellType.Wall ↔ _
    split
    · next h =>
      constructor
      · intro h'; cases h'
      · intro h'
        rcases h.2 with h2 | h2 <;> rw [h'] at h2 <;> cases h2
    · exact Iff.rfl
  · intro he
    have := hset _ he
    exact ⟨hf w.start w.end_, by simp [relaxInit, resetGrid, this]⟩
  · intro c hcb hcs
    show (if inBounds c ∧ (w.grid c = CellType.Visited ∨ w.grid c = CellType.Path)
      then CellType.Empty else w.grid c) = CellType.Visited ↔
      setAt (fun _ => INT_MAX) w.start (hf w.start w.end_) c < INT_MAX
    constructor
    · intro h
      exfalso
      split at h
      · cases h
      · next hn => exact hn ⟨hcb, Or.inl h⟩
    · intro h
      exact absurd (hset c h) hcs
  · intro c _
    exact ⟨rfl, rfl⟩

/-- Every run of the relaxation search from an in-bounds start terminates,
never writes the table `visited`, and pops `end` only when `end` is in bounds. -/
theorem relaxRun_total (hf : Vector2i → Vector2i → Int) (tie : Nat → Nat) (w : World)
    (hs : inBounds w.start) (hnn : 0 ≤ hf w.start w.end_) :
    (relaxRun hf tie w).1 ≠ Outcome.outOfFuel ∧
      (∀ c, (relaxRun hf tie w).2.w.visited c = false) ∧
      ((relaxRun hf tie w).1 = Outcome.reached → inBounds w.end_) := by
  obtain ⟨h1, h2, h3⟩ := relaxLoop_basic hf tie (pqPotential (relaxInit hf w) + 1)
    (relaxInit hf w) (relaxInit_basic hf w hs hnn) (Nat.lt_succ_self _)
  exact ⟨h1, h2.unvisited, h3⟩

/-- The final tables of a run of the relaxation search. -/
theorem relaxRun_inv (hf : Vector2i → Vector2i → Int) (tie : Nat → Nat) (w : World)
    (hs : inBounds w.start) (hnn : ∀ c, 0 ≤ hf c w.end_)
    (hadm : ∀ c m, Route w.grid c w.end_ m → hf c w.end_ ≤ m)
    (hsmall : hf w.start w.end_ + allCells.length + 1 < INT_MAX) :
    PQTables hf w.grid w.start w.end_ (relaxRun hf tie w).2 ∧
      ((relaxRun hf tie w).1 = Outcome.reached →
        (relaxRun hf tie w).2.score w.end_ < INT_MAX ∧
        ∀ m, Route w.grid w.start w.end_ m →
          (relaxRun hf tie w).2.score w.end_ ≤ hf w.start w.end_ + m) ∧
      ((relaxRun hf tie w).1 = Outcome.exhausted →
        ¬ (relaxRun hf tie w).2.score w.end_ < INT_MAX ∧
        ∀ u, (relaxRun hf tie w).2.score u < INT_MAX → ∀ v, adjacent u v → inBounds v →
          w.grid v ≠ CellType.Wall → (relaxRun hf tie w).2.score v < INT_MAX) :=
  relaxLoop_inv tie hnn hadm hsmall _ _ (relaxInit_inv hf w hnn hsmall)
    (relaxRun_total hf tie w hs (hnn _)).1

/-- A route followed by a route. -/
theorem Route.trans {grid : Vector2i → CellType} {a b c : Vector2i} {n m : Nat}
    (h1 : Route grid a b n) (h2 : Route grid b c m) : Route grid a c (n + m) := by
  induction h1 with
  | refl a => simpa using h2
  | @step a b' c' n hadj hb hw _ ih =>
    have := Route.step hadj hb hw (ih h2)
    have e : n + 1 + m = n + m + 1 := by omega
    rw [e]
    exact this

/-- The discovered cells of a finished run all lie on routes from `start`. -/
theorem PQTables.walkTo {hf : Vector2i → Vector2i → Int} {g0 : Vector2i → CellType}
    {start e : Vector2i} {s : PQState} (ht : PQTables hf g0 start e s) (c : Vector2i)
    (hc : s.score c < INT_MAX) :
    ∃ path : List Vector2i, GoodWalk g0 s.w c path ∧
      (path.length : Int) ≤ s.score c - hf start e := by
  have hcert := ht.cert
  rw [← ht.w_start] at hcert
  obtain ⟨path, h1, h2⟩ := hcert.goodWalk c hc
  exact ⟨path, h1, by rw [← ht.w_start]; exact h2⟩

/-- When `end` can be reached, the relaxation search pops it, and the walk of
`drawPath` over the final `cameFrom` is a shortest route. -/
theorem relaxRun_shortest (hf : Vector2i → Vector2i → Int) (tie : Nat → Nat) (w : World)
    (hs : inBounds w.start) (hnn : ∀ c, 0 ≤ hf c w.end_)
    (hadm : ∀ c m, Route w.grid c w.end_ m → hf c w.end_ ≤ m)
    (hsmall : hf w.start w.end_ + allCells.length + 1 < INT_MAX)
    (hr : ∃ n, Route w.grid w.start w.end_ n) :
    (relaxRun hf tie w).1 = Outcome.reached ∧
    ∃ path : List Vector2i,
      GoodWalk w.grid (relaxRun hf tie w).2.w w.end_ path ∧
      (relaxRun hf tie w).2.score w.end_ = hf w.start w.end_ + path.length ∧
      ∀ m, Route w.grid w.start w.end_ m → path.length ≤ m := by
  obtain ⟨ht, hreach, hexh⟩ := relaxRun_inv hf tie w hs hnn hadm hsmall
  have hfuel := (relaxRun_total hf tie w hs (hnn _)).1
  have hout : (relaxRun hf tie w).1 = Outcome.reached := by
    cases ho : (relaxRun hf tie w).1 with
    | reached => rfl
    | outOfFuel => exact absurd ho hfuel
    | exhausted =>
      exfalso
      obtain ⟨hne, hcl⟩ := hexh ho
      obtain ⟨n, hn⟩ := hr
      exact hne (closed_route (S := fun c => (relaxRun hf tie w).2.score c < INT_MAX) hcl _ _ _ hn
        ht.start_found)
  obtain ⟨hSe, hopt⟩ := hreach hout
  obtain ⟨path, hw, hlen⟩ := ht.walkTo _ hSe
  have hroute := hw.route
  rw [ht.w_start] at hroute
  have hup := hopt _ hroute
  refine ⟨hout, path, hw, by omega, ?_⟩
  intro m hm
  have := hopt m hm
  omega

/-! ## Breadth-first search: termination -/

/-- The neighbour step of `bfs` either leaves the state as it is, or it
discovers the neighbour cell, which is in bounds, not a wall and unvisited. -/
theorem bfsNeighbor_cases (u : Vector2i) (s : BfsState) (d : Int × Int) :
    (bfsNeighbor u s d = s ∧
      (inBounds ⟨u.x + d.1, u.y + d.2⟩ → s.w.grid ⟨u.x + d.1, u.y + d.2⟩ ≠ CellType.Wall →
        s.w.visited ⟨u.x + d.1, u.y + d.2⟩ = true)) ∨
    (inBounds ⟨u.x + d.1, u.y + d.2⟩ ∧ s.w.grid ⟨u.x + d.1, u.y + d.2⟩ ≠ CellType.Wall ∧
      s.w.visited ⟨u.x + d.1, u.y + d.2⟩ = false ∧
      bfsNeighbor u s d =
        { s with
          w := { s.w with
            visited := setAt s.w.visited ⟨u.x + d.1, u.y + d.2⟩ true
            cameFrom := setAt s.w.cameFrom ⟨u.x + d.1, u.y + d.2⟩ u
            grid := setAt s.w.grid ⟨u.x + d.1, u.y + d.2⟩ CellType.Visited }
          q := s.q ++ [⟨u.x + d.1, u.y + d.2⟩] }) := by
  unfold bfsNeighbor
  by_cases hv : isValid s.w (u.x + d.1) (u.y + d.2) = true
  · right
    have hv' := hv
    simp only [isValid, Bool.and_eq_true, decide_eq_true_eq, Bool.not_eq_true'] at hv'
    refine ⟨⟨hv'.1.1.1.1.1, hv'.1.1.1.1.2, hv'.1.1.1.2, hv'.1.1.2⟩, hv'.1.2, hv'.2, ?_⟩
    simp [hv]
  · left
    simp only [hv, if_false, true_and, Bool.false_eq_true]
    intro hb hw
    by_contra hvis
    apply hv
    simp only [isValid, Bool.and_eq_true, decide_eq_true_eq, Bool.not_eq_true']
    exact ⟨⟨⟨⟨⟨hb.1, hb.2.1⟩, hb.2.2.1⟩, hb.2.2.2⟩, hw⟩, by simpa using hvis⟩

theorem bfsNeighbor_basic (u : Vector2i) (s : BfsState) (d : Int × Int)
    (hs : ∀ c ∈ s.q, inBounds c) :
    (∀ c ∈ (bfsNeighbor u s d).q, inBounds c) ∧
      bfsPotential (bfsNeighbor u s d) ≤ bfsPotential s ∧
      (bfsNeighbor u s d).w.end_ = s.w.end_ := by
  rcases bfsNeighbor_cases u s d with ⟨h, _⟩ | ⟨hb, hw, hvis, h⟩
  · rw [h]; exact ⟨hs, le_refl _, rfl⟩
  · rw [h]
    refine ⟨?_, ?_, rfl⟩
    · intro c hc
      simp only [List.mem_append, List.mem_singleton] at hc
      rcases hc with hc | rfl
      · exact hs c hc
      · exact hb
    · have hsum : (allCells.map fun c =>
          if setAt s.w.visited ⟨u.x + d.1, u.y + d.2⟩ true c = true then 0 else 1).sum <
          (allCells.map fun c => if s.w.visited c = true then 0 else 1).sum := by
        apply List.sum_lt_sum
        · intro c _
          by_cases hc : c = ⟨u.x + d.1, u.y + d.2⟩
          · subst hc; simp
          · rw [setAt_other _ _ _ _ hc]
        · exact ⟨⟨u.x + d.1, u.y + d.2⟩, (mem_allCells _).2 hb, by simp [hvis]⟩
      simp only [bfsPotential, List.length_append, List.length_singleton]
      omega

theorem bfsFold_basic (u : Vector2i) (l : List (Int × Int)) :
    ∀ s : BfsState, (∀ c ∈ s.q, inBounds c) →
      (∀ c ∈ (l.foldl (bfsNeighbor u) s).q, inBounds c) ∧
      bfsPotential (l.foldl (bfsNeighbor u) s) ≤ bfsPotential s ∧
      (l.foldl (bfsNeighbor u) s).w.end_ = s.w.end_ := by
  induction l with
  | nil => intro s hs; exact ⟨hs, le_refl _, rfl⟩
  | cons d l ih =>
    intro s hs
    obtain ⟨h1, h2, h3⟩ := bfsNeighbor_basic u s d hs
    obtain ⟨k1, k2, k3⟩ := ih _ h1
    exact ⟨k1, le_trans k2 h2, k3.trans h3⟩

/-- The loop of `bfs` ends within the potential of its state, and it can only
pop `end` when `end` is in bounds. -/
theorem bfsLoop_basic :
    ∀ (fuel : Nat) (s : BfsState), (∀ c ∈ s.q, inBounds c) → bfsPotential s < fuel →
      (bfsLoop fuel s).1 ≠ Outcome.outOfFuel ∧
      ((bfsLoop fuel s).1 = Outcome.reached → inBounds s.w.end_) := by
  intro fuel
  induction fuel with
  | zero => intro s _ h; omega
  | succ n ih =>
    intro s hs hfuel
    unfold bfsLoop
    cases hq : s.q with
    | nil => exact ⟨by simp, by simp⟩
    | cons cur rest =>
      simp only
      have hs1 : ∀ c ∈ rest, inBounds c := fun c hc => hs c (by rw [hq]; simp [hc])
      by_cases he : cur = s.w.end_
      · simp only [he, if_true]
        exact ⟨by simp, fun _ => he ▸ hs cur (by rw [hq]; simp)⟩
      · simp only [he, if_false]
        obtain ⟨k1, k2, k3⟩ := bfsFold_basic cur dirs
          { s with q := rest, pops := s.pops + 1 } hs1
        have hpot : bfsPotential { s with q := rest, pops := s.pops + 1 } + 1 =
            bfsPotential s := by
          simp only [bfsPotential, hq, List.length_cons]
          omega
        obtain ⟨r1, r2⟩ := ih _ k1 (by omega)
        refine ⟨r1, fun h => ?_⟩
        have := r2 h
        rw [k3] at this
        exact this

/-- Every run of `bfs` from an in-bounds start terminates, and it pops `end`
only when `end` is in bounds. -/
theorem bfs_total (w : World) (hs : inBounds w.start) :
    (bfs w).1 ≠ Outcome.outOfFuel ∧ ((bfs w).1 = Outcome.reached → inBounds w.end_) := by
  refine bfsLoop_basic _ (bfsInit w) ?_ (Nat.lt_succ_self _)
  intro c hc
  have : c = w.start := by simpa [bfsInit, resetGrid] using hc
  rw [this]
  exact hs

/-! ## Breadth-first search: the invariant

The level of a visited cell is a ghost value: the number of moves on the
route by which the cell was discovered. -/

theorem bfsNeighbor_inv {g0 : Vector2i → CellType} {start e u : Vector2i}
    {lvl : Vector2i → Int} {s : BfsState} {d : Int × Int} (hd : d ∈ dirs)
    (hm : BfsMid g0 start e lvl u s) :
    ∃ lvl2 : Vector2i → Int, BfsMid g0 start e lvl2 u (bfsNeighbor u s d) ∧
      (∀ c, s.w.visited c = true →
        (bfsNeighbor u s d).w.visited c = true ∧ lvl2 c = lvl c) ∧
      (inBounds ⟨u.x + d.1, u.y + d.2⟩ → g0 ⟨u.x + d.1, u.y + d.2⟩ ≠ CellType.Wall →
        (bfsNeighbor u s d).w.visited ⟨u.x + d.1, u.y + d.2⟩ = true ∧
          lvl2 ⟨u.x + d.1, u.y + d.2⟩ ≤ lvl2 u + 1) := by
  have hadj : adjacent u ⟨u.x + d.1, u.y + d.2⟩ := dirs_adjacent hd
  have hinv := hm.core
  rcases bfsNeighbor_cases u s d with ⟨h, hvis⟩ | ⟨hb, hw, hvis, h⟩
  · rw [h]
    refine ⟨lvl, hm, fun c hc => ⟨hc, rfl⟩, fun hb hw => ?_⟩
    have := hvis hb (fun hc => hw ((hinv.walls _).1 hc))
    exact ⟨this, hm.above _ this⟩
  · rw [h]
    clear h
    generalize (⟨u.x + d.1, u.y + d.2⟩ : Vector2i) = v at *
    have huv : u ≠ v := adjacent_ne hadj
    have hw0 : g0 v ≠ CellType.Wall := fun hc => hw ((hinv.walls _).2 hc)
    have hne : ∀ c, s.w.visited c = true → c ≠ v := by
      rintro c hc rfl
      rw [hvis] at hc
      cases hc
    have hvs : v ≠ start := fun h => hne start hinv.vis_start h.symm
    have hl : ∀ c, s.w.visited c = true → setAt lvl v (lvl u + 1) c = lvl c :=
      fun c hc => setAt_other _ _ _ _ (hne c hc)
    have hvv : ∀ c, s.w.visited c = true → setAt s.w.visited v true c = true :=
      fun c hc => by rw [setAt_other _ _ _ _ (hne c hc)]; exact hc
    have hcase : ∀ c, setAt s.w.visited v true c = true → c = v ∨ (c ≠ v ∧ s.w.visited c = true) := by
      intro c hc
      by_cases hcv : c = v
      · exact Or.inl hcv
      · rw [setAt_other _ _ _ _ hcv] at hc
        exact Or.inr ⟨hcv, hc⟩
    have hlu : setAt lvl v (lvl u + 1) u = lvl u := hl u hm.vis_cur
    have hlv : setAt lvl v (lvl u + 1) v = lvl u + 1 := setAt_same _ _ _
    refine ⟨setAt lvl v (lvl u + 1), ⟨⟨hinv.w_start, hinv.w_end, ?_, ?_, ?_, ?_, ?_, ?_, ?_, ?_,
      ?_, ?_, ?_⟩, ?_, ?_, ?_⟩, fun c hc => ⟨hvv c hc, hl c hc⟩, fun _ _ => ⟨setAt_same _ _ _, ?_⟩⟩
    · -- vis_start
      exact hvv start hinv.vis_start
    · -- lvl_start
      rw [hl start hinv.vis_start]
      exact hinv.lvl_start
    · -- lvl_nonneg
      intro c hc
      rcases hcase c hc with rfl | ⟨_, hc'⟩
      · rw [hlv]
        have := hinv.lvl_nonneg u hm.vis_cur
        omega
      · rw [hl c hc']
        exact hinv.lvl_nonneg c hc'
    · -- tree
      intro c hc hcs
      show inBounds c ∧ g0 c ≠ CellType.Wall ∧
        setAt s.w.visited v true (setAt s.w.cameFrom v u c) = true ∧
        adjacent (setAt s.w.cameFrom v u c) c ∧
        setAt lvl v (lvl u + 1) (setAt s.w.cameFrom v u c) + 1 ≤ setAt lvl v (lvl u + 1) c
      rcases hcase c hc with rfl | ⟨hcv, hc'⟩
      · rw [setAt_same, hlu, hlv]
        exact ⟨hb, hw0, hvv u hm.vis_cur, hadj, le_refl _⟩
      · rw [setAt_other _ _ _ _ hcv]
        obtain ⟨t1, t2, t3, t4, t5⟩ := hinv.tree c hc' hcs
        rw [hl _ t3, hl c hc']
        exact ⟨t1, t2, hvv _ t3, t4, t5⟩
    · -- queued
      intro c hc
      rcases List.mem_append.1 hc with hc | hc
      · exact hvv c (hinv.queued c hc)
      · have : c = v := by simpa using hc
        rw [this]
        exact setAt_same _ _ _
    · -- sorted
      show (s.q ++ [v]).Pairwise _
      rw [List.pairwise_append]
      refine ⟨?_, by simp, ?_⟩
      · refine List.Pairwise.imp_of_mem ?_ hinv.sorted
        intro a b ha hb' hab
        rw [hl a (hinv.queued a ha), hl b (hinv.queued b hb')]
        exact hab
      · intro a ha b hb'
        have : b = v := by simpa using hb'
        rw [this, hlv, hl a (hinv.queued a ha)]
        exact hm.above a (hinv.queued a ha)
    · -- closed
      intro c hc hcq hcu x hx hxb hxw
      have hcv : c ≠ v := by
        rintro rfl
        exact hcq (List.mem_append.2 (Or.inr (by simp)))
      have hc' : s.w.visited c = true := by
        rcases hcase c hc with h | ⟨_, h⟩
        · exact absurd h hcv
        · exact h
      obtain ⟨c1, c2⟩ := hinv.closed c hc'
        (fun h => hcq (List.mem_append.2 (Or.inl h))) hcu x hx hxb hxw
      refine ⟨hvv x c1, ?_⟩
      rw [hl x c1, hl c hc']
      exact c2
    · -- walls
      intro c
      show setAt s.w.grid v CellType.Visited c = CellType.Wall ↔ _
      by_cases hcv : c = v
      · subst hcv
        rw [setAt_same]
        constructor
        · intro h; cases h
        · intro h; exact absurd h hw0
      · rw [setAt_other _ _ _ _ hcv]
        exact hinv.walls c
    · -- end_pending
      intro he
      rcases hcase e he with h | ⟨_, h⟩
      · exact List.mem_append.2 (Or.inr (by rw [h]; simp))
      · exact List.mem_append.2 (Or.inl (hinv.end_pending h))
    · -- painted
      intro c hcs hc
      show setAt s.w.grid v CellType.Visited c = CellType.Visited
      rcases hcase c hc with rfl | ⟨hcv, hc'⟩
      · exact setAt_same _ _ _
      · rw [setAt_other _ _ _ _ hcv]
        exact hinv.painted c hcs hc'
    · -- kept
      intro c hc
      show setAt s.w.cameFrom v u c = unsetPos ∧ setAt s.w.grid v CellType.Visited c = _
      have hcv : c ≠ v := by
        rintro rfl
        rcases hc with hc | hc
        · change setAt s.w.visited c true c = false at hc
          rw [setAt_same] at hc
          cases hc
        · exact hvs hc
      rw [setAt_other _ _ _ _ hcv, setAt_other _ _ _ _ hcv]
      refine hinv.kept c ?_
      rcases hc with hc | hc
      · change setAt s.w.visited v true c = false at hc
        rw [setAt_other _ _ _ _ hcv] at hc
        exact Or.inl hc
      · exact Or.inr hc
    · -- vis_cur
      exact hvv u hm.vis_cur
    · -- above
      intro c hc
      rw [hlu]
      rcases hcase c hc with rfl | ⟨_, hc'⟩
      · rw [hlv]
      · rw [hl c hc']
        exact hm.above c hc'
    · -- below
      intro h hh
      rw [hlu]
      rcases List.mem_append.1 hh with hh | hh
      · rw [hl h (hinv.queued h hh)]
        exact hm.below h hh
      · have : h = v := by simpa using hh
        rw [this, hlv]
        omega
    · -- closedness at v
      rw [hlu, hlv]

theorem bfsFold_inv {g0 : Vector2i → CellType} {start e u : Vector2i}
    {lvl : Vector2i → Int} (s : BfsState) (hm : BfsMid g0 start e lvl u s) :
    ∃ lvl2 : Vector2i → Int, BfsInv g0 start e lvl2 (dirs.foldl (bfsNeighbor u) s) := by
  have key := foldl_track (bfsNeighbor u)
    (fun done s' => ∃ lvl1 : Vector2i → Int, BfsMid g0 start e lvl1 u s' ∧
      ∀ d ∈ done, inBounds ⟨u.x + d.1, u.y + d.2⟩ → g0 ⟨u.x + d.1, u.y + d.2⟩ ≠ CellType.Wall →
        s'.w.visited ⟨u.x + d.1, u.y + d.2⟩ = true ∧ lvl1 ⟨u.x + d.1, u.y + d.2⟩ ≤ lvl1 u + 1)
    dirs
    (by
      intro done d s' hd ⟨lvl1, h1, h2⟩
      obtain ⟨lvl2, k1, k2, k3⟩ := bfsNeighbor_inv hd h1
      refine ⟨lvl2, k1, ?_⟩
      intro d' hd' hb hw
      rcases List.mem_append.1 hd' with hd' | hd'
      · obtain ⟨a1, a2⟩ := h2 d' hd' hb hw
        obtain ⟨b1, b2⟩ := k2 _ a1
        obtain ⟨_, b4⟩ := k2 u h1.vis_cur
        exact ⟨b1, by rw [b2, b4]; exact a2⟩
      · have : d' = d := by simpa using hd'
        subst this
        exact k3 hb hw)
    dirs [] s (fun _ h => h) ⟨lvl, hm, by simp⟩
  simp only [List.nil_append] at key
  obtain ⟨lvl2, h1, h2⟩ := key
  refine ⟨lvl2, ⟨{ h1.core with closed := ?_ }, ?_⟩⟩
  · intro c hc hcq _ v hadj hb hw
    by_cases hcu : c = u
    · subst hcu
      obtain ⟨d, hd, rfl⟩ := adjacent_dirs hadj
      exact h2 d hd hb hw
    · exact h1.core.closed c hc hcq hcu v hadj hb hw
  · intro h hh c hc
    have := h1.above c hc
    have := h1.below h hh
    omega

theorem bfsPop_inv {g0 : Vector2i → CellType} {start e u : Vector2i}
    {lvl : Vector2i → Int} {s : BfsState} {rest : List Vector2i}
    (hinv : BfsInv g0 start e lvl s) (hq : s.q = u :: rest) (hne : u ≠ e) :
    BfsMid g0 start e lvl u { s with q := rest, pops := s.pops + 1 } := by
  have hc := hinv.core
  have hsorted := hc.sorted
  rw [hq, List.pairwise_cons] at hsorted
  have hu : s.w.visited u = true := hc.queued u (by rw [hq]; simp)
  refine ⟨⟨hc.w_start, hc.w_end, hc.vis_start, hc.lvl_start, hc.lvl_nonneg, hc.tree, ?_,
    hsorted.2, ?_, hc.walls, ?_, hc.painted, hc.kept⟩, hu, ?_, hsorted.1⟩
  · intro c hcr
    exact hc.queued c (by rw [hq]; simp [hcr])
  · intro c hcv hcq hcu
    refine hc.closed c hcv ?_ (fun h => h)
    rw [hq]
    intro hmem
    rcases List.mem_cons.1 hmem with h | h
    · exact hcu h
    · exact hcq h
  · intro he
    have := hc.end_pending he
    rw [hq] at this
    rcases List.mem_cons.1 this with h | h
    · exact absurd h.symm hne
    · exact h
  · intro c hcv
    exact hinv.window u (by rw [hq]; simp) c hcv

theorem BfsCore.toBfsTables {g0 : Vector2i → CellType} {start e : Vector2i}
    {lvl : Vector2i → Int} {ex : Vector2i → Prop} {s : BfsState}
    (h : BfsCore g0 start e lvl ex s) : BfsTables g0 start e lvl s :=
  ⟨h.w_start, h.w_end, h.vis_start, h.lvl_start, ⟨h.lvl_nonneg, h.tree⟩, h.painted, h.kept⟩

/-- The outcome of the loop of `bfs` from a state that satisfies the
invariant: when `end` is popped its level is at most the length of any route,
and when the queue runs empty the visited cells are closed under moves and
`end` is not among them. -/
theorem bfsLoop_inv {g0 : Vector2i → CellType} {start e : Vector2i} :
    ∀ (fuel : Nat) (s : BfsState), (∃ lvl, BfsInv g0 start e lvl s) →
      (bfsLoop fuel s).1 ≠ Outcome.outOfFuel →
      ∃ lvl : Vector2i → Int, BfsTables g0 start e lvl (bfsLoop fuel s).2 ∧
      ((bfsLoop fuel s).1 = Outcome.reached →
        (bfsLoop fuel s).2.w.visited e = true ∧ ∀ m, Route g0 start e m → lvl e ≤ m) ∧
      ((bfsLoop fuel s).1 = Outcome.exhausted →
        (bfsLoop fuel s).2.w.visited e = false ∧
        ∀ u, (bfsLoop fuel s).2.w.visited u = true → ∀ v, adjacent u v → inBounds v →
          g0 v ≠ CellType.Wall → (bfsLoop fuel s).2.w.visited v = true) := by
  intro fuel
  induction fuel with
  | zero => intro s _ h; simp [bfsLoop] at h
  | succ n ih =>
    intro s ⟨lvl, hinv⟩
    have hc := hinv.core
    unfold bfsLoop
    cases hq : s.q with
    | nil =>
      intro _
      refine ⟨lvl, hc.toBfsTables, by simp, fun _ => ⟨?_, ?_⟩⟩
      · cases hv : s.w.visited e with
        | false => rfl
        | true =>
          have := hc.end_pending hv
          rw [hq] at this
          simp at this
      · intro u hu v hadj hb hw
        exact (hc.closed u hu (by rw [hq]; simp) (fun h => h) v hadj hb hw).1
    | cons cur rest =>
      simp only
      by_cases he : cur = s.w.end_
      · simp only [he, if_true]
        intro _
        have hee : cur = e := he.trans hc.w_end
        have hmem : e ∈ s.q := by rw [hq, hee]; simp
        have hSe := hc.queued e hmem
        have ht := hc.toBfsTables
        refine ⟨lvl, ⟨ht.w_start, ht.w_end, ht.vis_start, ht.lvl_start, ht.cert, ht.painted,
          ht.kept⟩, fun _ => ⟨hSe, ?_⟩, by simp⟩
        intro m hr
        have hfr := frontier_route g0 (fun c => s.w.visited c = true) lvl
          (fun k => ∃ h ∈ s.q, lvl h = k) (fun _ => 0) e (fun _ m _ => by simp)
          (by
            intro u hu
            by_cases huq : u ∈ s.q
            · exact Or.inl ⟨lvl u, ⟨u, huq, rfl⟩, by simp⟩
            · exact Or.inr (hc.closed u hu huq (fun h => h)))
          start e m hr rfl 0 hc.vis_start (le_of_eq hc.lvl_start)
        rcases hfr with ⟨_, h2⟩ | ⟨k, ⟨h, hh, rfl⟩, hle⟩
        · simpa using h2
        · have hsorted := hc.sorted
          rw [hq, List.pairwise_cons] at hsorted
          rw [hq] at hh
          rcases List.mem_cons.1 hh with h1 | h1
          · rw [h1, hee] at hle
            simpa using hle
          · have := hsorted.1 h h1
            rw [hee] at this
            omega
      · simp only [he, if_false]
        have hne : cur ≠ e := fun h => he (h.trans hc.w_end.symm)
        have h1 := bfsPop_inv hinv hq hne
        have h2 := bfsFold_inv { s with q := rest, pops := s.pops + 1 } h1
        exact ih _ h2

theorem bfsInit_inv (w : World) :
    BfsInv w.grid w.start w.end_ (fun _ => 0) (bfsInit w) := by
  have hvis : ∀ c, (bfsInit w).w.visited c = true → c = w.start := by
    intro c hc
    change setAt (fun _ => false) w.start true c = true at hc
    by_contra hne
    rw [setAt_other _ _ _ _ hne] at hc
    cases hc
  have hq : (bfsInit w).q = [w.start] := rfl
  refine ⟨⟨rfl, rfl, setAt_same _ _ _, rfl, fun _ _ => le_refl _, ?_, ?_, ?_, ?_, ?_, ?_, ?_,
    ?_⟩, ?_⟩
  · intro c hc hcs
    exact absurd (hvis c hc) hcs
  · intro c hc
    rw [hq] at hc
    have : c = w.start := by simpa using hc
    rw [this]
    exact setAt_same _ _ _
  · rw [hq]
    simp
  · intro u hu huq
    rw [hq, hvis u hu] at huq
    simp at huq
  · intro c
    show (if inBounds c ∧ (w.grid c = CellType.Visited ∨ w.grid c = CellType.Path)
      then CellType.Empty else w.grid c) = CellType.Wall ↔ _
    split
    · next h =>
      constructor
      · intro h'; cases h'
      · intro h'
        rcases h.2 with h2 | h2 <;> rw [h'] at h2 <;> cases h2
    · exact Iff.rfl
  · intro he
    rw [hq, hvis _ he]
    simp
  · intro c hcs hc
    exact absurd (hvis c hc) hcs
  · intro c _
    exact ⟨rfl, rfl⟩
  · intro h _ c _
    simp

/-- The final tables of a run of `bfs`. -/
theorem bfs_inv (w : World) (hs : inBounds w.start) :
    ∃ lvl : Vector2i → Int, BfsTables w.grid w.start w.end_ lvl (bfs w).2 ∧
      ((bfs w).1 = Outcome.reached →
        (bfs w).2.w.visited w.end_ = true ∧ ∀ m, Route w.grid w.start w.end_ m → lvl w.end_ ≤ m) ∧
      ((bfs w).1 = Outcome.exhausted →
        (bfs w).2.w.visited w.end_ = false ∧
        ∀ u, (bfs w).2.w.visited u = true → ∀ v, adjacent u v → inBounds v →
          w.grid v ≠ CellType.Wall → (bfs w).2.w.visited v = true) :=
  bfsLoop_inv _ _ ⟨_, bfsInit_inv w⟩ (bfs_total w hs).1

/-- The visited cells of a finished run of `bfs` all lie on routes from
`start`. -/
theorem BfsTables.bfsWalkTo {g0 : Vector2i → CellType} {start e : Vector2i}
    {lvl : Vector2i → Int} {s : BfsState} (ht : BfsTables g0 start e lvl s) (c : Vector2i)
    (hc : s.w.visited c = true) :
    ∃ path : List Vector2i, GoodWalk g0 s.w c path ∧ (path.length : Int) ≤ lvl c := by
  have hcert := ht.cert
  rw [← ht.w_start] at hcert
  exact hcert.goodWalk c hc

/-- When `end` can be reached, `bfs` pops it, and the walk of `drawPath` over
the final `cameFrom` is a shortest route. -/
theorem bfs_shortest (w : World) (hs : inBounds w.start)
    (hr : ∃ n, Route w.grid w.start w.end_ n) :
    (bfs w).1 = Outcome.reached ∧
    ∃ path : List Vector2i,
      GoodWalk w.grid (bfs w).2.w w.end_ path ∧
      ∀ m, Route w.grid w.start w.end_ m → path.length ≤ m := by
  obtain ⟨lvl, ht, hreach, hexh⟩ := bfs_inv w hs
  have hfuel := (bfs_total w hs).1
  have hout : (bfs w).1 = Outcome.reached := by
    cases ho : (bfs w).1 with
    | reached => rfl
    | outOfFuel => exact absurd ho hfuel
    | exhausted =>
      exfalso
      obtain ⟨hne, hcl⟩ := hexh ho
      obtain ⟨n, hn⟩ := hr
      have hv : (bfs w).2.w.visited w.end_ = true :=
        closed_route (S := fun c => (bfs w).2.w.visited c = true) hcl _ _ _ hn ht.vis_start
      rw [hne] at hv
      cases hv
  obtain ⟨hSe, hopt⟩ := hreach hout
  obtain ⟨path, hw, hlen⟩ := ht.bfsWalkTo _ hSe
  refine ⟨hout, path, hw, ?_⟩
  intro m hm
  have := hopt m hm
  omega

/-! ## Unreachable `end`: the search exhausts the component of `start` -/

/-- When `end` cannot be reached, the relaxation search empties its queue, and
the discovered cells are exactly the cells on routes from `start`. -/
theorem relaxRun_unreachable (hf : Vector2i → Vector2i → Int) (tie : Nat → Nat) (w : World)
    (hs : inBounds w.start) (hnn : ∀ c, 0 ≤ hf c w.end_)
    (hadm : ∀ c m, Route w.grid c w.end_ m → hf c w.end_ ≤ m)
    (hsmall : hf w.start w.end_ + allCells.length + 1 < INT_MAX)
    (hno : ∀ n, ¬ Route w.grid w.start w.end_ n) :
    (relaxRun hf tie w).1 = Outcome.exhausted ∧
    PQTables hf w.grid w.start w.end_ (relaxRun hf tie w).2 ∧
    ∀ c, (relaxRun hf tie w).2.score c < INT_MAX ↔ ∃ n, Route w.grid w.start c n := by
  obtain ⟨ht, hreach, hexh⟩ := relaxRun_inv hf tie w hs hnn hadm hsmall
  have hfuel := (relaxRun_total hf tie w hs (hnn _)).1
  have hroute : ∀ c, (relaxRun hf tie w).2.score c < INT_MAX → ∃ n, Route w.grid w.start c n := by
    intro c hc
    obtain ⟨path, hw, _⟩ := ht.walkTo c hc
    have := hw.route
    rw [ht.w_start] at this
    exact ⟨_, this⟩
  have hout : (relaxRun hf tie w).1 = Outcome.exhausted := by
    cases ho : (relaxRun hf tie w).1 with
    | exhausted => rfl
    | outOfFuel => exact absurd ho hfuel
    | reached =>
      exfalso
      obtain ⟨n, hn⟩ := hroute _ (hreach ho).1
      exact hno n hn
  refine ⟨hout, ht, fun c => ⟨hroute c, ?_⟩⟩
  rintro ⟨n, hn⟩
  exact closed_route (S := fun c => (relaxRun hf tie w).2.score c < INT_MAX) (hexh hout).2 _ _ _ hn
    ht.start_found

/-- When `end` cannot be reached, `bfs` empties its queue, and the visited
cells are exactly the cells on routes from `start`. -/
theorem bfs_unreachable (w : World) (hs : inBounds w.start)
    (hno : ∀ n, ¬ Route w.grid w.start w.end_ n) :
    (bfs w).1 = Outcome.exhausted ∧
    (∃ lvl, BfsTables w.grid w.start w.end_ lvl (bfs w).2) ∧
    ∀ c, (bfs w).2.w.visited c = true ↔ ∃ n, Route w.grid w.start c n := by
  obtain ⟨lvl, ht, hreach, hexh⟩ := bfs_inv w hs
  have hfuel := (bfs_total w hs).1
  have hroute : ∀ c, (bfs w).2.w.visited c = true → ∃ n, Route w.grid w.start c n := by
    intro c hc
    obtain ⟨path, hw, _⟩ := ht.bfsWalkTo c hc
    have := hw.route
    rw [ht.w_start] at this
    exact ⟨_, this⟩
  have hout : (bfs w).1 = Outcome.exhausted := by
    cases ho : (bfs w).1 with
    | exhausted => rfl
    | outOfFuel => exact absurd ho hfuel
    | reached =>
      exfalso
      obtain ⟨n, hn⟩ := hroute _ (hreach ho).1
      exact hno n hn
  refine ⟨hout, ⟨lvl, ht⟩, fun c => ⟨hroute c, ?_⟩⟩
  rintro ⟨n, hn⟩
  exact closed_route (S := fun c => (bfs w).2.w.visited c = true) (hexh hout).2 _ _ _ hn
    ht.vis_start

/-- After a relaxation search that exhausted its queue, the in-bounds cells of
kind `Visited` are the discovered cells other than `start`. -/
theorem PQTables.visited_kind {hf : Vector2i → Vector2i → Int} {g0 : Vector2i → CellType}
    {start e : Vector2i} {s : PQState} (ht : PQTables hf g0 start e s) (c : Vector2i)
    (hc : inBounds c) :
    s.w.grid c = CellType.Visited ↔ c ≠ start ∧ s.score c < INT_MAX := by
  by_cases hcs : c = start
  · constructor
    · intro h
      exfalso
      rw [(ht.kept c (Or.inr hcs)).2] at h
      split at h
      · cases h
      · next hn => exact hn ⟨hc, Or.inl h⟩
    · intro h
      exact absurd hcs h.1
  · rw [ht.painted c hc hcs]
    exact ⟨fun h => ⟨hcs, h⟩, fun h => h.2⟩

theorem noHeuristic_small (w : World) :
    noHeuristic w.start w.end_ + allCells.length + 1 < INT_MAX := by
  rw [allCells_length]
  simp [noHeuristic, INT_MAX]

theorem heuristic_start_small (w : World) (hs : inBounds w.start)
    (he : inBounds w.end_ ∨ w.end_ = unsetPos) :
    heuristic w.start w.end_ + allCells.length + 1 < INT_MAX := by
  have := heuristic_small hs he
  rw [allCells_length]
  simp only [INT_MAX]
  push_cast
  omega

theorem no_route_to_unset (w : World) (hs : inBounds w.start) (he : w.end_ = unsetPos) :
    ∀ n, ¬ Route w.grid w.start w.end_ n := by
  intro n h
  rcases h.target with h1 | ⟨h1, _⟩
  · rw [he] at h1
    exact inBounds_ne_unset hs h1.symm
  · rw [he] at h1
    exact inBounds_ne_unset h1 rfl

/-- The walk of `drawPath` in the terms of a claim: the cells painted, the
exit at `start`, and the chain they form. -/
theorem GoodWalk.drawPath_eq {g0 : Vector2i → CellType} {w1 : World} {start e : Vector2i}
    {path : List Vector2i} (h : GoodWalk g0 w1 e path) (h1 : w1.start = start)
    (h2 : w1.end_ = e) :
    ∀ fuel, path.length < fuel → drawPath w1 fuel = some (path, start) := by
  intro fuel hfuel
  unfold drawPath
  rw [h2, h.walk fuel hfuel, h1]

/-! ## The claims: shortest routes (C1, C2, C3) -/

/-- C1: for every wall layout and every in-bounds start (and end) such that end
can be reached from start by moves into in-bounds non-wall cells, `bfs` stops
by popping end, and the walk of `drawPath` along `cameFrom` from end arrives at
start after exactly `path.length` steps, which is the minimum number of moves
of any such route. -/
theorem bfs_finds_shortest_route (w : World) (hs : inBounds w.start)
    (hr : ∃ n, Route w.grid w.start w.end_ n) :
    (bfs w).1 = Outcome.reached ∧
    ∃ path : List Vector2i,
      (∀ fuel, path.length < fuel → drawPath (bfs w).2.w fuel = some (path, w.start)) ∧
      Route w.grid w.start w.end_ path.length ∧
      ∀ m, Route w.grid w.start w.end_ m → path.length ≤ m := by
  obtain ⟨hout, path, hw, hmin⟩ := bfs_shortest w hs hr
  obtain ⟨lvl, ht, _⟩ := bfs_inv w hs
  have hroute := hw.route
  rw [ht.w_start] at hroute
  exact ⟨hout, path, hw.drawPath_eq ht.w_start ht.w_end, hroute, hmin⟩

/-- Witness of C1 on the empty grid with start `(0,0)` and end `(0,1)`. -/
theorem bfs_finds_shortest_route_witness :
    inBounds twoCellWorld.start ∧
    (∃ n, Route twoCellWorld.grid twoCellWorld.start twoCellWorld.end_ n) ∧
    ((bfs twoCellWorld).1 = Outcome.reached ∧
      ∃ path : List Vector2i,
        (∀ fuel, path.length < fuel →
          drawPath (bfs twoCellWorld).2.w fuel = some (path, twoCellWorld.start)) ∧
        Route twoCellWorld.grid twoCellWorld.start twoCellWorld.end_ path.length ∧
        ∀ m, Route twoCellWorld.grid twoCellWorld.start twoCellWorld.end_ m →
          path.length ≤ m) :=
  ⟨by decide,
    ⟨1, Route.step (by decide) (by decide) (by decide) (Route.refl _)⟩,
    bfs_finds_shortest_route twoCellWorld (by decide)
      ⟨1, Route.step (by decide) (by decide) (by decide) (Route.refl _)⟩⟩

/-- C2: for every wall layout, every tie-breaking of the priority queue and
every in-bounds start (and end) such that end can be reached from start,
`dijkstra` stops by popping end, the walk of `drawPath` along `cameFrom` from
end arrives at start after exactly `path.length` steps, which is the minimum
number of moves of any such route, and `dist[end]` is that number. -/
theorem dijkstra_finds_shortest_route (tie : Nat → Nat) (w : World) (hs : inBounds w.start)
    (hr : ∃ n, Route w.grid w.start w.end_ n) :
    (dijkstra tie w).1 = Outcome.reached ∧
    ∃ path : List Vector2i,
      (∀ fuel, path.length < fuel →
        drawPath (dijkstra tie w).2.w fuel = some (path, w.start)) ∧
      Route w.grid w.start w.end_ path.length ∧
      (∀ m, Route w.grid w.start w.end_ m → path.length ≤ m) ∧
      (dijkstra tie w).2.score w.end_ = path.length := by
  rw [dijkstra_eq]
  have hnn : ∀ c, 0 ≤ noHeuristic c w.end_ := fun _ => le_refl _
  have hadm : ∀ c m, Route w.grid c w.end_ m → noHeuristic c w.end_ ≤ m :=
    fun _ m _ => by simp [noHeuristic]
  obtain ⟨hout, path, hw, hscore, hmin⟩ :=
    relaxRun_shortest noHeuristic tie w hs hnn hadm (noHeuristic_small w) hr
  obtain ⟨ht, _⟩ := relaxRun_inv noHeuristic tie w hs hnn hadm (noHeuristic_small w)
  have hroute := hw.route
  rw [ht.w_start] at hroute
  refine ⟨hout, path, hw.drawPath_eq ht.w_start ht.w_end, hroute, hmin, ?_⟩
  rw [hscore]
  simp [noHeuristic]

/-- Witness of C2 on the empty grid with start `(0,0)` and end `(0,1)`. -/
theorem dijkstra_finds_shortest_route_witness :
    inBounds twoCellWorld.start ∧
    (∃ n, Route twoCellWorld.grid twoCellWorld.start twoCellWorld.end_ n) ∧
    ((dijkstra firstTie twoCellWorld).1 = Outcome.reached ∧
      ∃ path : List Vector2i,
        (∀ fuel, path.length < fuel →
          drawPath (dijkstra firstTie twoCellWorld).2.w fuel =
            some (path, twoCellWorld.start)) ∧
        Route twoCellWorld.grid twoCellWorld.start twoCellWorld.end_ path.length ∧
        (∀ m, Route twoCellWorld.grid twoCellWorld.start twoCellWorld.end_ m →
          path.length ≤ m) ∧
        (dijkstra firstTie twoCellWorld).2.score twoCellWorld.end_ = path.length) :=
  ⟨by decide,
    ⟨1, Route.step (by decide) (by decide) (by decide) (Route.refl _)⟩,
    dijkstra_finds_shortest_route firstTie twoCellWorld (by decide)
      ⟨1, Route.step (by decide) (by decide) (by decide) (Route.refl _)⟩⟩

/-- C3: for every wall layout, every tie-breaking of the priority queue and
every in-bounds start and end such that end can be reached from start, `aStar`
(which keeps no closed set and seeds `fScore[start]` with
`heuristic(start, end)`) stops by popping end, and the walk of `drawPath` along
`cameFrom` from end arrives at start after exactly `path.length` steps, which
is the minimum number of moves of any such route. -/
theorem aStar_finds_shortest_route (tie : Nat → Nat) (w : World) (hs : inBounds w.start)
    (he : inBounds w.end_) (hr : ∃ n, Route w.grid w.start w.end_ n) :
    (aStar tie w).1 = Outcome.reached ∧
    ∃ path : List Vector2i,
      (∀ fuel, path.length < fuel → drawPath (aStar tie w).2.w fuel = some (path, w.start)) ∧
      Route w.grid w.start w.end_ path.length ∧
      ∀ m, Route w.grid w.start w.end_ m → path.length ≤ m := by
  rw [aStar_eq]
  have hnn : ∀ c, 0 ≤ heuristic c w.end_ := fun c => heuristic_nonneg c _
  have hadm := heuristic_admissible w.grid w.end_
  have hsmall := heuristic_start_small w hs (Or.inl he)
  obtain ⟨hout, path, hw, _, hmin⟩ := relaxRun_shortest heuristic tie w hs hnn hadm hsmall hr
  obtain ⟨ht, _⟩ := relaxRun_inv heuristic tie w hs hnn hadm hsmall
  have hroute := hw.route
  rw [ht.w_start] at hroute
  exact ⟨hout, path, hw.drawPath_eq ht.w_start ht.w_end, hroute, hmin⟩

/-- Witness of C3 on the empty grid with start `(0,0)` and end `(0,1)`. -/
theorem aStar_finds_shortest_route_witness :
    inBounds twoCellWorld.start ∧ inBounds twoCellWorld.end_ ∧
    (∃ n, Route twoCellWorld.grid twoCellWorld.start twoCellWorld.end_ n) ∧
    ((aStar firstTie twoCellWorld).1 = Outcome.reached ∧
      ∃ path : List Vector2i,
        (∀ fuel, path.length < fuel →
          drawPath (aStar firstTie twoCellWorld).2.w fuel =
            some (path, twoCellWorld.start)) ∧
        Route twoCellWorld.grid twoCellWorld.start twoCellWorld.end_ path.length ∧
        ∀ m, Route twoCellWorld.grid twoCellWorld.start twoCellWorld.end_ m →
          path.length ≤ m) :=
  ⟨by decide, by decide,
    ⟨1, Route.step (by decide) (by decide) (by decide) (Route.refl _)⟩,
    aStar_finds_shortest_route firstTie twoCellWorld (by decide) (by decide)
      ⟨1, Route.step (by decide) (by decide) (by decide) (Route.refl _)⟩⟩

/-! ## The claims: the reconstructed chain (C4) -/

theorem GoodWalk.simpleOpenChain {w w1 : World} {path : List Vector2i}
    (h : GoodWalk w.grid w1 w.end_ path) (h1 : w1.start = w.start) (h2 : w1.end_ = w.end_) :
    SimpleOpenChain w w1 := by
  refine ⟨path, h.drawPath_eq h1 h2, ?_, ?_, ?_, h.cells⟩
  · rw [← h1]; exact h.nodup
  · rw [← h1]; exact h.chain
  · rw [← h1]; exact h.head

/-- C4: whenever `bfs`, `dijkstra` or `aStar` (started in bounds) stops by
popping end, the chain obtained by following `cameFrom` from end reaches start
after finitely many steps, contains no cell twice, has 4-adjacent consecutive
cells, and every cell of it other than start is in bounds and not a wall of the
wall layout the run started from. -/
theorem reached_chain_is_simple_open (tie : Nat → Nat) (w : World) (hs : inBounds w.start) :
    ((bfs w).1 = Outcome.reached → SimpleOpenChain w (bfs w).2.w) ∧
    ((dijkstra tie w).1 = Outcome.reached → SimpleOpenChain w (dijkstra tie w).2.w) ∧
    ((aStar tie w).1 = Outcome.reached → SimpleOpenChain w (aStar tie w).2.w) := by
  refine ⟨?_, ?_, ?_⟩
  · intro hout
    obtain ⟨lvl, ht, hreach, _⟩ := bfs_inv w hs
    obtain ⟨path, hw, _⟩ := ht.bfsWalkTo _ (hreach hout).1
    exact hw.simpleOpenChain ht.w_start ht.w_end
  · rw [dijkstra_eq]
    intro hout
    have hnn : ∀ c, 0 ≤ noHeuristic c w.end_ := fun _ => le_refl _
    have hadm : ∀ c m, Route w.grid c w.end_ m → noHeuristic c w.end_ ≤ m :=
      fun _ m _ => by simp [noHeuristic]
    obtain ⟨ht, hreach, _⟩ := relaxRun_inv noHeuristic tie w hs hnn hadm (noHeuristic_small w)
    obtain ⟨path, hw, _⟩ := ht.walkTo _ (hreach hout).1
    exact hw.simpleOpenChain ht.w_start ht.w_end
  · rw [aStar_eq]
    intro hout
    have hnn : ∀ c, 0 ≤ heuristic c w.end_ := fun c => heuristic_nonneg c _
    have he := (relaxRun_total heuristic tie w hs (hnn _)).2.2 hout
    obtain ⟨ht, hreach, _⟩ := relaxRun_inv heuristic tie w hs hnn
      (heuristic_admissible w.grid w.end_) (heuristic_start_small w hs (Or.inl he))
    obtain ⟨path, hw, _⟩ := ht.walkTo _ (hreach hout).1
    exact hw.simpleOpenChain ht.w_start ht.w_end

set_option maxRecDepth 100000 in
/-- Witness of C4 on the empty grid with start `(0,0)` and end `(0,1)`, where
all three searches pop end. -/
theorem reached_chain_is_simple_open_witness :
    inBounds twoCellWorld.start ∧
    (bfs twoCellWorld).1 = Outcome.reached ∧
    (dijkstra firstTie twoCellWorld).1 = Outcome.reached ∧
    (aStar firstTie twoCellWorld).1 = Outcome.reached ∧
    (((bfs twoCellWorld).1 = Outcome.reached →
        SimpleOpenChain twoCellWorld (bfs twoCellWorld).2.w) ∧
      ((dijkstra firstTie twoCellWorld).1 = Outcome.reached →
        SimpleOpenChain twoCellWorld (dijkstra firstTie twoCellWorld).2.w) ∧
      ((aStar firstTie twoCellWorld).1 = Outcome.reached →
        SimpleOpenChain twoCellWorld (aStar firstTie twoCellWorld).2.w)) :=
  ⟨by decide, by decide, by decide, by decide,
    reached_chain_is_simple_open firstTie twoCellWorld (by decide)⟩

/-! ## The claims: unreachable end (C5) -/

theorem Route.first_step {grid : Vector2i → CellType} {a b : Vector2i} {n : Nat}
    (h : Route grid a b n) (hne : a ≠ b) :
    ∃ c, adjacent a c ∧ inBounds c ∧ grid c ≠ CellType.Wall := by
  cases h with
  | refl => exact absurd rfl hne
  | step hadj hb hw _ => exact ⟨_, hadj, hb, hw⟩

theorem isolatedStartWorld_no_route (b : Vector2i) (hb : b ≠ ⟨0, 0⟩) :
    ∀ n, ¬ Route isolatedStartWorld.grid ⟨0, 0⟩ b n := by
  intro n h
  obtain ⟨c, hadj, hcb, hcw⟩ := h.first_step (Ne.symm hb)
  obtain ⟨cx, cy⟩ := c
  rcases adjacent_cases hadj with h1 | h1 | h1 | h1
  · obtain ⟨rfl, rfl⟩ : cx = -1 ∧ cy = 0 := by simpa using h1
    exact absurd hcb (by decide)
  · obtain ⟨rfl, rfl⟩ : cx = 1 ∧ cy = 0 := by simpa using h1
    exact hcw (by decide)
  · obtain ⟨rfl, rfl⟩ : cx = 0 ∧ cy = -1 := by simpa using h1
    exact absurd hcb (by decide)
  · obtain ⟨rfl, rfl⟩ : cx = 0 ∧ cy = 1 := by simpa using h1
    exact hcw (by decide)

set_option maxRecDepth 100000 in
/-- Counterexample to C5 as stated: with start `(0,0)` walled in and end
`(5,5)` out of reach, `dijkstra` and `aStar` empty their frontier, yet the
table `visited` is false at start, a cell of start's component. -/
theorem unreachable_end_visited_false_at_start :
    inBounds isolatedStartWorld.start ∧ inBounds isolatedStartWorld.end_ ∧
    (∀ n, ¬ Route isolatedStartWorld.grid isolatedStartWorld.start isolatedStartWorld.end_ n) ∧
    Route isolatedStartWorld.grid isolatedStartWorld.start isolatedStartWorld.start 0 ∧
    (dijkstra firstTie isolatedStartWorld).1 = Outcome.exhausted ∧
    (dijkstra firstTie isolatedStartWorld).2.w.visited isolatedStartWorld.start = false ∧
    (aStar firstTie isolatedStartWorld).1 = Outcome.exhausted ∧
    (aStar firstTie isolatedStartWorld).2.w.visited isolatedStartWorld.start = false :=
  ⟨by decide, by decide, isolatedStartWorld_no_route ⟨5, 5⟩ (by decide), Route.refl _,
    by decide, by decide, by decide, by decide⟩

/-- C5, amended: for every wall layout and in-bounds start and end where end
cannot be reached from start, each of `bfs`, `dijkstra` and `aStar` terminates
by emptying its frontier without popping end. After `bfs` the table `visited`
is true exactly at the cells of start's component (start included), hence
false at every cell from which end can be reached. `dijkstra` and `aStar` never
write `visited`, which is false everywhere; the cells they discovered are
marked by their kind: an in-bounds cell has kind `Visited` exactly when it is a
cell of start's component other than start. -/
theorem unreachable_end_exhausts_component (tie : Nat → Nat) (w : World)
    (hs : inBounds w.start) (he : inBounds w.end_)
    (hno : ∀ n, ¬ Route w.grid w.start w.end_ n) :
    ((bfs w).1 = Outcome.exhausted ∧
      (∀ c, (bfs w).2.w.visited c = true ↔ ∃ n, Route w.grid w.start c n) ∧
      (∀ c, (∃ n, Route w.grid c w.end_ n) → (bfs w).2.w.visited c = false)) ∧
    ((dijkstra tie w).1 = Outcome.exhausted ∧
      (∀ c, (dijkstra tie w).2.w.visited c = false) ∧
      (∀ c, inBounds c → ((dijkstra tie w).2.w.grid c = CellType.Visited ↔
        c ≠ w.start ∧ ∃ n, Route w.grid w.start c n))) ∧
    ((aStar tie w).1 = Outcome.exhausted ∧
      (∀ c, (aStar tie w).2.w.visited c = false) ∧
      (∀ c, inBounds c → ((aStar tie w).2.w.grid c = CellType.Visited ↔
        c ≠ w.start ∧ ∃ n, Route w.grid w.start c n))) := by
  refine ⟨?_, ?_, ?_⟩
  · obtain ⟨hout, _, hiff⟩ := bfs_unreachable w hs hno
    refine ⟨hout, hiff, ?_⟩
    rintro c ⟨m, hm⟩
    cases hv : (bfs w).2.w.visited c with
    | false => rfl
    | true =>
      obtain ⟨n, hn⟩ := (hiff c).1 hv
      exact absurd (hn.trans hm) (hno _)
  · rw [dijkstra_eq]
    have hnn : ∀ c, 0 ≤ noHeuristic c w.end_ := fun _ => le_refl _
    have hadm : ∀ c m, Route w.grid c w.end_ m → noHeuristic c w.end_ ≤ m :=
      fun _ m _ => by simp [noHeuristic]
    obtain ⟨hout, ht, hiff⟩ :=
      relaxRun_unreachable noHeuristic tie w hs hnn hadm (noHeuristic_small w) hno
    refine ⟨hout, ht.unvisited, fun c hc => ?_⟩
    rw [ht.visited_kind c hc, hiff c]
  · rw [aStar_eq]
    have hnn : ∀ c, 0 ≤ heuristic c w.end_ := fun c => heuristic_nonneg c _
    obtain ⟨hout, ht, hiff⟩ :=
      relaxRun_unreachable heuristic tie w hs hnn (heuristic_admissible w.grid w.end_)
        (heuristic_start_small w hs (Or.inl he)) hno
    refine ⟨hout, ht.unvisited, fun c hc => ?_⟩
    rw [ht.visited_kind c hc, hiff c]

/-- Witness of amended C5 on the grid with start `(0,0)` walled in and end
`(5,5)`. -/
theorem unreachable_end_exhausts_component_witness :
    inBounds isolatedStartWorld.start ∧ inBounds isolatedStartWorld.end_ ∧
    (∀ n, ¬ Route isolatedStartWorld.grid isolatedStartWorld.start isolatedStartWorld.end_ n) ∧
    (((bfs isolatedStartWorld).1 = Outcome.exhausted ∧
      (∀ c, (bfs isolatedStartWorld).2.w.visited c = true ↔
        ∃ n, Route isolatedStartWorld.grid isolatedStartWorld.start c n) ∧
      (∀ c, (∃ n, Route isolatedStartWorld.grid c isolatedStartWorld.end_ n) →
        (bfs isolatedStartWorld).2.w.visited c = false)) ∧
    ((dijkstra firstTie isolatedStartWorld).1 = Outcome.exhausted ∧
      (∀ c, (dijkstra firstTie isolatedStartWorld).2.w.visited c = false) ∧
      (∀ c, inBounds c →
        ((dijkstra firstTie isolatedStartWorld).2.w.grid c = CellType.Visited ↔
          c ≠ isolatedStartWorld.start ∧
            ∃ n, Route isolatedStartWorld.grid isolatedStartWorld.start c n))) ∧
    ((aStar firstTie isolatedStartWorld).1 = Outcome.exhausted ∧
      (∀ c, (aStar firstTie isolatedStartWorld).2.w.visited c = false) ∧
      (∀ c, inBounds c →
        ((aStar firstTie isolatedStartWorld).2.w.grid c = CellType.Visited ↔
          c ≠ isolatedStartWorld.start ∧
            ∃ n, Route isolatedStartWorld.grid isolatedStartWorld.start c n)))) :=
  ⟨by decide, by decide, isolatedStartWorld_no_route ⟨5, 5⟩ (by decide),
    unreachable_end_exhausts_component firstTie isolatedStartWorld (by decide) (by decide)
      (isolatedStartWorld_no_route ⟨5, 5⟩ (by decide))⟩

/-! ## The claims: unset end (C6) -/

set_option maxRecDepth 100000 in
/-- Counterexample to C6 as stated: with a valid start `(0,0)` and end still
`(-1,-1)` no search rejects the call; each discovers the cell `(0,1)`, writes
its `cameFrom` entry and changes its kind from `Empty` to `Visited`. -/
theorem unset_end_is_not_rejected :
    inBounds unsetEndWorld.start ∧ unsetEndWorld.end_ = unsetPos ∧
    unsetEndWorld.grid ⟨0, 1⟩ = CellType.Empty ∧
    unsetEndWorld.cameFrom ⟨0, 1⟩ = unsetPos ∧
    ((bfs unsetEndWorld).2.w.visited ⟨0, 1⟩ = true ∧
      (bfs unsetEndWorld).2.w.cameFrom ⟨0, 1⟩ = ⟨0, 0⟩ ∧
      (bfs unsetEndWorld).2.w.grid ⟨0, 1⟩ = CellType.Visited) ∧
    ((dijkstra firstTie unsetEndWorld).2.w.cameFrom ⟨0, 1⟩ = ⟨0, 0⟩ ∧
      (dijkstra firstTie unsetEndWorld).2.w.grid ⟨0, 1⟩ = CellType.Visited) ∧
    ((aStar firstTie unsetEndWorld).2.w.cameFrom ⟨0, 1⟩ = ⟨0, 0⟩ ∧
      (aStar firstTie unsetEndWorld).2.w.grid ⟨0, 1⟩ = CellType.Visited) := by
  decide

/-- C6, amended: the searches do not check that End is set. Invoked with an
in-bounds start and end still `(-1,-1)`, each of `bfs`, `dijkstra` and `aStar`
runs the whole traversal and stops only when its frontier is empty: every cell
of start's component other than start is discovered, gets a `cameFrom` entry
and gets kind `Visited`. -/
theorem unset_end_runs_whole_traversal (tie : Nat → Nat) (w : World)
    (hs : inBounds w.start) (he : w.end_ = unsetPos) :
    ((bfs w).1 = Outcome.exhausted ∧
      ∀ c, c ≠ w.start → (∃ n, Route w.grid w.start c n) →
        (bfs w).2.w.visited c = true ∧ (bfs w).2.w.cameFrom c ≠ unsetPos ∧
          (bfs w).2.w.grid c = CellType.Visited) ∧
    ((dijkstra tie w).1 = Outcome.exhausted ∧
      ∀ c, c ≠ w.start → (∃ n, Route w.grid w.start c n) →
        (dijkstra tie w).2.w.cameFrom c ≠ unsetPos ∧
          (dijkstra tie w).2.w.grid c = CellType.Visited) ∧
    ((aStar tie w).1 = Outcome.exhausted ∧
      ∀ c, c ≠ w.start → (∃ n, Route w.grid w.start c n) →
        (aStar tie w).2.w.cameFrom c ≠ unsetPos ∧
          (aStar tie w).2.w.grid c = CellType.Visited) := by
  have hno := no_route_to_unset w hs he
  refine ⟨?_, ?_, ?_⟩
  · obtain ⟨hout, ⟨lvl, ht⟩, hiff⟩ := bfs_unreachable w hs hno
    refine ⟨hout, fun c hcs hr => ?_⟩
    have hv := (hiff c).2 hr
    obtain ⟨hb, _, _, hadj, _⟩ := ht.cert.parent c hv hcs
    exact ⟨hv, adjacent_inBounds_ne_unset hadj hb, ht.painted c hcs hv⟩
  · rw [dijkstra_eq]
    have hnn : ∀ c, 0 ≤ noHeuristic c w.end_ := fun _ => le_refl _
    have hadm : ∀ c m, Route w.grid c w.end_ m → noHeuristic c w.end_ ≤ m :=
      fun _ m _ => by simp [noHeuristic]
    obtain ⟨hout, ht, hiff⟩ :=
      relaxRun_unreachable noHeuristic tie w hs hnn hadm (noHeuristic_small w) hno
    refine ⟨hout, fun c hcs hr => ?_⟩
    have hv := (hiff c).2 hr
    obtain ⟨hb, _, _, hadj, _⟩ := ht.cert.parent c hv hcs
    exact ⟨adjacent_inBounds_ne_unset hadj hb, (ht.painted c hb hcs).2 hv⟩
  · rw [aStar_eq]
    have hnn : ∀ c, 0 ≤ heuristic c w.end_ := fun c => heuristic_nonneg c _
    obtain ⟨hout, ht, hiff⟩ :=
      relaxRun_unreachable heuristic tie w hs hnn (heuristic_admissible w.grid w.end_)
        (heuristic_start_small w hs (Or.inr he)) hno
    refine ⟨hout, fun c hcs hr => ?_⟩
    have hv := (hiff c).2 hr
    obtain ⟨hb, _, _, hadj, _⟩ := ht.cert.parent c hv hcs
    exact ⟨adjacent_inBounds_ne_unset hadj hb, (ht.painted c hb hcs).2 hv⟩

/-- Witness of amended C6 on the grid with start `(0,0)`, end unset and the
open cell `(0,1)` next to start. -/
theorem unset_end_runs_whole_traversal_witness :
    inBounds unsetEndWorld.start ∧ unsetEndWorld.end_ = unsetPos ∧
    (∃ n, Route unsetEndWorld.grid unsetEndWorld.start ⟨0, 1⟩ n) ∧
    (((bfs unsetEndWorld).1 = Outcome.exhausted ∧
      ∀ c, c ≠ unsetEndWorld.start →
        (∃ n, Route unsetEndWorld.grid unsetEndWorld.start c n) →
        (bfs unsetEndWorld).2.w.visited c = true ∧
          (bfs unsetEndWorld).2.w.cameFrom c ≠ unsetPos ∧
          (bfs unsetEndWorld).2.w.grid c = CellType.Visited) ∧
    ((dijkstra firstTie unsetEndWorld).1 = Outcome.exhausted ∧
      ∀ c, c ≠ unsetEndWorld.start →
        (∃ n, Route unsetEndWorld.grid unsetEndWorld.start c n) →
        (dijkstra firstTie unsetEndWorld).2.w.cameFrom c ≠ unsetPos ∧
          (dijkstra firstTie unsetEndWorld).2.w.grid c = CellType.Visited) ∧
    ((aStar firstTie unsetEndWorld).1 = Outcome.exhausted ∧
      ∀ c, c ≠ unsetEndWorld.start →
        (∃ n, Route unsetEndWorld.grid unsetEndWorld.start c n) →
        (aStar firstTie unsetEndWorld).2.w.cameFrom c ≠ unsetPos ∧
          (aStar firstTie unsetEndWorld).2.w.grid c = CellType.Visited)) :=
  ⟨by decide, by decide,
    ⟨1, Route.step (by decide) (by decide) (by decide) (Route.refl _)⟩,
    unset_end_runs_whole_traversal firstTie unsetEndWorld (by decide) (by decide)⟩

/-! ## The claims: termination (C7) -/

theorem relaxNeighbor_pushes (hf : Vector2i → Vector2i → Int) :
    PushesOnlyOnDecrease (relaxNeighbor hf) := by
  intro u s d
  rcases relaxNeighbor_cases hf u s d with ⟨h, _⟩ | ⟨hb, _, hlt, h⟩
  · exact Or.inl h
  · right
    rw [h]
    refine ⟨⟨u.x + d.1, u.y + d.2⟩, _, rfl, hb, ?_, ?_, rfl⟩
    · show setAt s.score _ _ _ < _
      rw [setAt_same]
      exact hlt
    · intro c hc
      exact setAt_other _ _ _ _ hc

/-- C7: for every wall layout, every tie-breaking and every in-bounds start
(end arbitrary), the main loop of each of `bfs`, `dijkstra` and `aStar`
terminates within the fuel given by the potential of its initial state.
`dijkstra` and `aStar` never set the table `visited`; their loops end because
a neighbour step pushes an entry only when it strictly lowers the score of an
in-bounds cell. (The walk of `drawPath` inside the loop body changes no state
and is not part of the loop model.) -/
theorem search_loops_terminate (tie : Nat → Nat) (w : World) (hs : inBounds w.start) :
    (bfs w).1 ≠ Outcome.outOfFuel ∧
    (dijkstra tie w).1 ≠ Outcome.outOfFuel ∧
    (aStar tie w).1 ≠ Outcome.outOfFuel ∧
    (∀ c, (dijkstra tie w).2.w.visited c = false) ∧
    (∀ c, (aStar tie w).2.w.visited c = false) ∧
    PushesOnlyOnDecrease dijkstraNeighbor ∧ PushesOnlyOnDecrease aStarNeighbor := by
  have hd := relaxRun_total noHeuristic tie w hs (le_refl _)
  have ha := relaxRun_total heuristic tie w hs (heuristic_nonneg _ _)
  rw [dijkstra_eq, aStar_eq, dijkstraNeighbor_eq, aStarNeighbor_eq]
  exact ⟨(bfs_total w hs).1, hd.1, ha.1, hd.2.1, ha.2.1, relaxNeighbor_pushes _,
    relaxNeighbor_pushes _⟩

/-- Witness of C7 on the grid with start `(0,0)` and end unset. -/
theorem search_loops_terminate_witness :
    inBounds unsetEndWorld.start ∧
    ((bfs unsetEndWorld).1 ≠ Outcome.outOfFuel ∧
    (dijkstra firstTie unsetEndWorld).1 ≠ Outcome.outOfFuel ∧
    (aStar firstTie unsetEndWorld).1 ≠ Outcome.outOfFuel ∧
    (∀ c, (dijkstra firstTie unsetEndWorld).2.w.visited c = false) ∧
    (∀ c, (aStar firstTie unsetEndWorld).2.w.visited c = false) ∧
    PushesOnlyOnDecrease dijkstraNeighbor ∧ PushesOnlyOnDecrease aStarNeighbor) :=
  ⟨by decide, search_loops_terminate firstTie unsetEndWorld (by decide)⟩

/-! ## The claims: the endpoint cells (C8) -/

set_option maxRecDepth 100000 in
/-- C8 at its failing input, the empty grid with `Start` at `(0,0)` and `End`
at `(0,1)`: each search keeps the kind of the start cell but repaints the end
cell as `Visited`, and a following `resetGrid` turns it into `Empty`. -/
theorem end_cell_repainted_by_search :
    inBounds twoCellWorld.start ∧ inBounds twoCellWorld.end_ ∧
    twoCellWorld.grid twoCellWorld.start = CellType.Start ∧
    twoCellWorld.grid twoCellWorld.end_ = CellType.End ∧
    ((bfs twoCellWorld).2.w.grid twoCellWorld.start = CellType.Start ∧
      (bfs twoCellWorld).2.w.grid twoCellWorld.end_ = CellType.Visited ∧
      (resetGrid (bfs twoCellWorld).2.w).grid twoCellWorld.end_ = CellType.Empty) ∧
    ((dijkstra firstTie twoCellWorld).2.w.grid twoCellWorld.start = CellType.Start ∧
      (dijkstra firstTie twoCellWorld).2.w.grid twoCellWorld.end_ = CellType.Visited ∧
      (resetGrid (dijkstra firstTie twoCellWorld).2.w).grid twoCellWorld.end_ =
        CellType.Empty) ∧
    ((aStar firstTie twoCellWorld).2.w.grid twoCellWorld.start = CellType.Start ∧
      (aStar firstTie twoCellWorld).2.w.grid twoCellWorld.end_ = CellType.Visited ∧
      (resetGrid (aStar firstTie twoCellWorld).2.w).grid twoCellWorld.end_ =
        CellType.Empty) := by
  decide

/-! ## The claims: the key and mouse handlers (C9, C10) -/

theorem MarkOp.run_grid (w : World) (op : MarkOp) (c : Vector2i) :
    (op.run w).grid c = if c = op.cell then op.kind else w.grid c := by
  cases op <;> rfl

theorem runMarks_grid (ops : List MarkOp) :
    ∀ (w : World) (c : Vector2i),
      (runMarks w ops).grid c =
        match lastMarkAt c ops with
        | some op => op.kind
        | none => w.grid c := by
  induction ops with
  | nil => intro w c; rfl
  | cons op ops ih =>
    intro w c
    have h := ih (op.run w) c
    have e : runMarks w (op :: ops) = runMarks (op.run w) ops := rfl
    rw [e, h]
    simp only [lastMarkAt]
    cases hl : lastMarkAt c ops with
    | some later => rfl
    | none =>
      simp only [MarkOp.run_grid]
      by_cases hc : op.cell = c
      · simp [hc]
      · have hc2 : ¬ c = op.cell := fun h => hc h.symm
        simp [hc, hc2]

/-- Counterexample to C9 as stated: after set-start at `(0,0)` and then
set-start at `(0,1)` on the empty grid, two distinct cells have kind `Start`. -/
theorem two_start_cells :
    (runMarks initialWorld [MarkOp.setStart 0 0, MarkOp.setStart 30 0]).grid ⟨0, 0⟩ =
      CellType.Start ∧
    (runMarks initialWorld [MarkOp.setStart 0 0, MarkOp.setStart 30 0]).grid ⟨0, 1⟩ =
      CellType.Start ∧
    (⟨0, 0⟩ : Vector2i) ≠ ⟨0, 1⟩ := by
  decide

/-- C9, amended: a set-start or set-end operation writes the kind `Start` or
`End` into the cell under the mouse and changes no other cell, so it does not
clear the cell that held the kind before. After any sequence of such operations
on the initially empty grid, a cell has the kind written by the most recent
operation applied to it, and kind `Empty` when there was none. -/
theorem marks_keep_earlier_cells (ops : List MarkOp) (c : Vector2i) :
    (∀ (w : World) (op : MarkOp),
      (op.run w).grid op.cell = op.kind ∧ ∀ p, p ≠ op.cell → (op.run w).grid p = w.grid p) ∧
    (runMarks initialWorld ops).grid c =
      match lastMarkAt c ops with
      | some op => op.kind
      | none => CellType.Empty := by
  refine ⟨fun w op => ⟨?_, fun p hp => ?_⟩, runMarks_grid ops initialWorld c⟩
  · rw [MarkOp.run_grid]
    simp
  · rw [MarkOp.run_grid]
    simp [hp]

/-- Counterexample to C10 as stated: a left click on the cell of kind `Start`
does not leave it unchanged but makes it a wall. -/
theorem toggle_overwrites_start :
    (onKeyS initialWorld 0 0).grid ⟨0, 0⟩ = CellType.Start ∧
    (onLeftClick (onKeyS initialWorld 0 0) 0 0).grid ⟨0, 0⟩ = CellType.Wall := by
  decide

/-- C10, amended: the left-click handler turns a `Wall` cell into `Empty` and a
cell of any other kind into `Wall`; so an `Empty` cell becomes `Wall`, and a
cell of kind `Start` or `End` becomes `Wall` too. No other cell changes. -/
theorem toggle_wall_effect (w : World) (mouseX mouseY : Int) :
    (onLeftClick w mouseX mouseY).grid ⟨Int.tdiv mouseY cellSize, Int.tdiv mouseX cellSize⟩ =
      (if w.grid ⟨Int.tdiv mouseY cellSize, Int.tdiv mouseX cellSize⟩ = CellType.Wall
        then CellType.Empty else CellType.Wall) ∧
    (w.grid ⟨Int.tdiv mouseY cellSize, Int.tdiv mouseX cellSize⟩ = CellType.Start ∨
      w.grid ⟨Int.tdiv mouseY cellSize, Int.tdiv mouseX cellSize⟩ = CellType.End →
      (onLeftClick w mouseX mouseY).grid
        ⟨Int.tdiv mouseY cellSize, Int.tdiv mouseX cellSize⟩ = CellType.Wall) ∧
    (∀ p, p ≠ ⟨Int.tdiv mouseY cellSize, Int.tdiv mouseX cellSize⟩ →
      (onLeftClick w mouseX mouseY).grid p = w.grid p) := by
  refine ⟨?_, ?_, ?_⟩
  · simp [onLeftClick]
  · rintro (h | h) <;> simp [onLeftClick, h]
  · intro p hp
    simp [onLeftClick, hp]

/-! ## The start cell keeps its kind -/

/-- Every search leaves the kind `Start` of the start cell as it is, also
after a following `resetGrid`: the start cell is never repainted. -/
theorem start_cell_keeps_kind (tie : Nat → Nat) (w : World) (hs : inBounds w.start)
    (he : inBounds w.end_) (hk : w.grid w.start = CellType.Start) :
    ((bfs w).2.w.grid w.start = CellType.Start ∧
      (resetGrid (bfs w).2.w).grid w.start = CellType.Start) ∧
    ((dijkstra tie w).2.w.grid w.start = CellType.Start ∧
      (resetGrid (dijkstra tie w).2.w).grid w.start = CellType.Start) ∧
    ((aStar tie w).2.w.grid w.start = CellType.Start ∧
      (resetGrid (aStar tie w).2.w).grid w.start = CellType.Start) := by
  have hreset : ∀ w1 : World, w1.grid w.start = CellType.Start →
      (resetGrid w1).grid w.start = CellType.Start := by
    intro w1 h1
    simp [resetGrid, h1]
  have hkeep : (if inBounds w.start ∧
      (w.grid w.start = CellType.Visited ∨ w.grid w.start = CellType.Path)
      then CellType.Empty else w.grid w.start) = CellType.Start := by
    simp [hk]
  refine ⟨?_, ?_, ?_⟩
  · obtain ⟨lvl, ht, _⟩ := bfs_inv w hs
    have h1 := (ht.kept w.start (Or.inr rfl)).2
    rw [hkeep] at h1
    exact ⟨h1, hreset _ h1⟩
  · rw [dijkstra_eq]
    have hnn : ∀ c, 0 ≤ noHeuristic c w.end_ := fun _ => le_refl _
    have hadm : ∀ c m, Route w.grid c w.end_ m → noHeuristic c w.end_ ≤ m :=
      fun _ m _ => by simp [noHeuristic]
    obtain ⟨ht, _⟩ := relaxRun_inv noHeuristic tie w hs hnn hadm (noHeuristic_small w)
    have h1 := (ht.kept w.start (Or.inr rfl)).2
    rw [hkeep] at h1
    exact ⟨h1, hreset _ h1⟩
  · rw [aStar_eq]
    have hnn : ∀ c, 0 ≤ heuristic c w.end_ := fun c => heuristic_nonneg c _
    obtain ⟨ht, _⟩ := relaxRun_inv heuristic tie w hs hnn
      (heuristic_admissible w.grid w.end_) (heuristic_start_small w hs (Or.inl he))
    have h1 := (ht.kept w.start (Or.inr rfl)).2
    rw [hkeep] at h1
    exact ⟨h1, hreset _ h1⟩

/-- Witness of the start cell keeping its kind, on the empty grid with `Start`
at `(0,0)` and `End` at `(0,1)`. -/
theorem start_cell_keeps_kind_witness :
    inBounds twoCellWorld.start ∧ inBounds twoCellWorld.end_ ∧
    twoCellWorld.grid twoCellWorld.start = CellType.Start ∧
    (((bfs twoCellWorld).2.w.grid twoCellWorld.start = CellType.Start ∧
      (resetGrid (bfs twoCellWorld).2.w).grid twoCellWorld.start = CellType.Start) ∧
    ((dijkstra firstTie twoCellWorld).2.w.grid twoCellWorld.start = CellType.Start ∧
      (resetGrid (dijkstra firstTie twoCellWorld).2.w).grid twoCellWorld.start =
        CellType.Start) ∧
    ((aStar firstTie twoCellWorld).2.w.grid twoCellWorld.start = CellType.Start ∧
      (resetGrid (aStar firstTie twoCellWorld).2.w).grid twoCellWorld.start =
        CellType.Start)) :=
  ⟨by decide, by decide, by decide,
    start_cell_keeps_kind firstTie twoCellWorld (by decide) (by decide) (by decide)⟩

/-! ## The claims: start equal to end (C16) -/

theorem popTop_single (t : Nat) (e : Vector2i × Int) : popTop t [e] = some (e, []) := by
  simp [popTop, minKey]

theorem resetGrid_not_visited (w : World) (c : Vector2i) (hc : inBounds c) :
    (resetGrid w).grid c ≠ CellType.Visited := by
  show (if inBounds c ∧ (w.grid c = CellType.Visited ∨ w.grid c = CellType.Path)
    then CellType.Empty else w.grid c) ≠ CellType.Visited
  split
  · intro h; cases h
  · next hn => exact fun h => hn ⟨hc, Or.inl h⟩

/-- C16: when start = end, each of `bfs`, `dijkstra` and `aStar` stops with
success on its first pop without expanding a neighbour: exactly one pop has
occurred, every `cameFrom` entry is `(-1,-1)`, and no cell of the grid has
kind `Visited`. -/
theorem same_cell_stops_at_first_pop (tie : Nat → Nat) (w : World) (he : w.end_ = w.start) :
    ((bfs w).1 = Outcome.reached ∧ (bfs w).2.pops = 1 ∧
      (∀ c, (bfs w).2.w.cameFrom c = unsetPos) ∧
      (∀ c, inBounds c → (bfs w).2.w.grid c ≠ CellType.Visited)) ∧
    ((dijkstra tie w).1 = Outcome.reached ∧ (dijkstra tie w).2.pops = 1 ∧
      (∀ c, (dijkstra tie w).2.w.cameFrom c = unsetPos) ∧
      (∀ c, inBounds c → (dijkstra tie w).2.w.grid c ≠ CellType.Visited)) ∧
    ((aStar tie w).1 = Outcome.reached ∧ (aStar tie w).2.pops = 1 ∧
      (∀ c, (aStar tie w).2.w.cameFrom c = unsetPos) ∧
      (∀ c, inBounds c → (aStar tie w).2.w.grid c ≠ CellType.Visited)) := by
  have hb : bfs w = (Outcome.reached,
      { (bfsInit w) with q := [], pops := 1 }) := by
    simp [bfs, bfsLoop, bfsInit, resetGrid, he]
  have hd : dijkstra tie w = (Outcome.reached,
      { (dijkstraInit w) with pq := [], pops := 1 }) := by
    simp [dijkstra, dijkstraLoop, dijkstraInit, resetGrid, he, popTop_single]
  have ha : aStar tie w = (Outcome.reached,
      { (aStarInit w) with pq := [], pops := 1 }) := by
    simp [aStar, aStarLoop, aStarInit, resetGrid, he, popTop_single]
  rw [hb, hd, ha]
  exact ⟨⟨rfl, rfl, fun _ => rfl, fun c hc => resetGrid_not_visited w c hc⟩,
    ⟨rfl, rfl, fun _ => rfl, fun c hc => resetGrid_not_visited w c hc⟩,
    ⟨rfl, rfl, fun _ => rfl, fun c hc => resetGrid_not_visited w c hc⟩⟩

/-- Witness of C16 on the empty grid with start and end both at `(2,3)`. -/
theorem same_cell_stops_at_first_pop_witness :
    sameCellWorld.end_ = sameCellWorld.start ∧ inBounds sameCellWorld.start ∧
    (((bfs sameCellWorld).1 = Outcome.reached ∧ (bfs sameCellWorld).2.pops = 1 ∧
      (∀ c, (bfs sameCellWorld).2.w.cameFrom c = unsetPos) ∧
      (∀ c, inBounds c → (bfs sameCellWorld).2.w.grid c ≠ CellType.Visited)) ∧
    ((dijkstra firstTie sameCellWorld).1 = Outcome.reached ∧
      (dijkstra firstTie sameCellWorld).2.pops = 1 ∧
      (∀ c, (dijkstra firstTie sameCellWorld).2.w.cameFrom c = unsetPos) ∧
      (∀ c, inBounds c → (dijkstra firstTie sameCellWorld).2.w.grid c ≠ CellType.Visited)) ∧
    ((aStar firstTie sameCellWorld).1 = Outcome.reached ∧
      (aStar firstTie sameCellWorld).2.pops = 1 ∧
      (∀ c, (aStar firstTie sameCellWorld).2.w.cameFrom c = unsetPos) ∧
      (∀ c, inBounds c → (aStar firstTie sameCellWorld).2.w.grid c ≠ CellType.Visited))) :=
  ⟨by decide, by decide, same_cell_stops_at_first_pop firstTie sameCellWorld (by decide)⟩

/-! ## The claims: `resetGrid` (C18) -/

theorem World.eq_of_fields {a b : World} (h1 : a.grid = b.grid) (h2 : a.start = b.start)
    (h3 : a.end_ = b.end_) (h4 : a.visited = b.visited) (h5 : a.cameFrom = b.cameFrom) :
    a = b := by
  cases a
  cases b
  simp only [World.mk.injEq]
  exact ⟨h1, h2, h3, h4, h5⟩

/-- C18: `resetGrid` sets every `visited` entry to false and every `cameFrom`
entry to `(-1,-1)`, turns every cell of the grid of kind `Visited` or `Path`
into `Empty`, leaves every cell of kind `Empty`, `Wall`, `Start` or `End`
unchanged, and leaves start and end as they are; hence applying it twice gives
the same state as applying it once. -/
theorem resetGrid_effect (w : World) :
    (∀ c, (resetGrid w).visited c = false) ∧
    (∀ c, (resetGrid w).cameFrom c = unsetPos) ∧
    (∀ c, inBounds c → (w.grid c = CellType.Visited ∨ w.grid c = CellType.Path) →
      (resetGrid w).grid c = CellType.Empty) ∧
    (∀ c, (w.grid c = CellType.Empty ∨ w.grid c = CellType.Wall ∨
      w.grid c = CellType.Start ∨ w.grid c = CellType.End) →
      (resetGrid w).grid c = w.grid c) ∧
    (resetGrid w).start = w.start ∧ (resetGrid w).end_ = w.end_ ∧
    resetGrid (resetGrid w) = resetGrid w := by
  refine ⟨fun _ => rfl, fun _ => rfl, ?_, ?_, rfl, rfl, ?_⟩
  · intro c hc hk
    simp [resetGrid, hc, hk]
  · intro c hk
    show (if inBounds c ∧ (w.grid c = CellType.Visited ∨ w.grid c = CellType.Path)
      then CellType.Empty else w.grid c) = w.grid c
    split
    · next h =>
      rcases hk with hk | hk | hk | hk <;> rcases h.2 with h2 | h2 <;> rw [hk] at h2 <;> cases h2
    · rfl
  · have hg : (resetGrid (resetGrid w)).grid = (resetGrid w).grid := by
      funext c
      show (if inBounds c ∧ ((resetGrid w).grid c = CellType.Visited ∨
        (resetGrid w).grid c = CellType.Path) then CellType.Empty else (resetGrid w).grid c) = _
      split
      · next h =>
        exfalso
        rcases h.2 with h2 | h2
        · exact resetGrid_not_visited w c h.1 h2
        · change (if inBounds c ∧ (w.grid c = CellType.Visited ∨ w.grid c = CellType.Path)
            then CellType.Empty else w.grid c) = CellType.Path at h2
          split at h2
          · cases h2
          · next hn => exact hn ⟨h.1, Or.inr h2⟩
      · rfl
    exact World.eq_of_fields hg rfl rfl rfl rfl

/-! ## The claims: the walk after an exhausted run (C15) -/

set_option maxRecDepth 100000 in
/-- Counterexample to C15 as stated: with start `(0,0)` walled in and end
`(5,5)`, every search ends with its frontier exhausted, and the walk of
`drawPath` is not empty: it visits the cell end and exits at `(-1,-1)`. -/
theorem exhausted_walk_is_not_empty :
    inBounds isolatedStartWorld.end_ ∧ isolatedStartWorld.end_ ≠ isolatedStartWorld.start ∧
    (bfs isolatedStartWorld).1 = Outcome.exhausted ∧
    drawPath (bfs isolatedStartWorld).2.w 400 = some ([⟨5, 5⟩], unsetPos) ∧
    (dijkstra firstTie isolatedStartWorld).1 = Outcome.exhausted ∧
    drawPath (dijkstra firstTie isolatedStartWorld).2.w 400 = some ([⟨5, 5⟩], unsetPos) ∧
    (aStar firstTie isolatedStartWorld).1 = Outcome.exhausted ∧
    drawPath (aStar firstTie isolatedStartWorld).2.w 400 = some ([⟨5, 5⟩], unsetPos) := by
  decide

theorem drawPath_unreached (w1 : World) (e : Vector2i) (h1 : w1.end_ = e) (hb : inBounds e)
    (hne : e ≠ w1.start) (hc : w1.cameFrom e = unsetPos) :
    ∀ fuel, 1 < fuel → drawPath w1 fuel = some ([e], unsetPos) := by
  intro fuel hfuel
  obtain ⟨f, rfl⟩ : ∃ f, fuel = f + 2 := ⟨fuel - 2, by omega⟩
  simp [drawPath, drawPathFrom, h1, hne, inBounds_ne_unset hb, hc]

/-- C15, amended: when a run ends with the frontier exhausted and end never
popped (start and end in bounds, end different from start), the walk of
`drawPath` is not empty: it visits exactly one cell, end itself, and stops at
the unset `cameFrom` entry `(-1,-1)` of end without reaching start. -/
theorem exhausted_walk_is_end_alone (tie : Nat → Nat) (w : World) (hs : inBounds w.start)
    (he : inBounds w.end_) (hne : w.end_ ≠ w.start) :
    ((bfs w).1 = Outcome.exhausted →
      ∀ fuel, 1 < fuel → drawPath (bfs w).2.w fuel = some ([w.end_], unsetPos)) ∧
    ((dijkstra tie w).1 = Outcome.exhausted →
      ∀ fuel, 1 < fuel → drawPath (dijkstra tie w).2.w fuel = some ([w.end_], unsetPos)) ∧
    ((aStar tie w).1 = Outcome.exhausted →
      ∀ fuel, 1 < fuel → drawPath (aStar tie w).2.w fuel = some ([w.end_], unsetPos)) := by
  refine ⟨?_, ?_, ?_⟩
  · intro hout
    obtain ⟨lvl, ht, _, hexh⟩ := bfs_inv w hs
    have hk := (ht.kept w.end_ (Or.inl (hexh hout).1)).1
    exact drawPath_unreached _ _ ht.w_end he (by rw [ht.w_start]; exact hne) hk
  · rw [dijkstra_eq]
    intro hout
    have hnn : ∀ c, 0 ≤ noHeuristic c w.end_ := fun _ => le_refl _
    have hadm : ∀ c m, Route w.grid c w.end_ m → noHeuristic c w.end_ ≤ m :=
      fun _ m _ => by simp [noHeuristic]
    obtain ⟨ht, _, hexh⟩ := relaxRun_inv noHeuristic tie w hs hnn hadm (noHeuristic_small w)
    have hk := (ht.kept w.end_ (Or.inl (hexh hout).1)).1
    exact drawPath_unreached _ _ ht.w_end he (by rw [ht.w_start]; exact hne) hk
  · rw [aStar_eq]
    intro hout
    have hnn : ∀ c, 0 ≤ heuristic c w.end_ := fun c => heuristic_nonneg c _
    obtain ⟨ht, _, hexh⟩ := relaxRun_inv heuristic tie w hs hnn
      (heuristic_admissible w.grid w.end_) (heuristic_start_small w hs (Or.inl he))
    have hk := (ht.kept w.end_ (Or.inl (hexh hout).1)).1
    exact drawPath_unreached _ _ ht.w_end he (by rw [ht.w_start]; exact hne) hk

set_option maxRecDepth 100000 in
/-- Witness of amended C15 on the grid with start `(0,0)` walled in and end
`(5,5)`, where all three searches exhaust their frontier. -/
theorem exhausted_walk_is_end_alone_witness :
    inBounds isolatedStartWorld.start ∧ inBounds isolatedStartWorld.end_ ∧
    isolatedStartWorld.end_ ≠ isolatedStartWorld.start ∧
    (bfs isolatedStartWorld).1 = Outcome.exhausted ∧
    (dijkstra firstTie isolatedStartWorld).1 = Outcome.exhausted ∧
    (aStar firstTie isolatedStartWorld).1 = Outcome.exhausted ∧
    (((bfs isolatedStartWorld).1 = Outcome.exhausted →
      ∀ fuel, 1 < fuel →
        drawPath (bfs isolatedStartWorld).2.w fuel = some ([isolatedStartWorld.end_], unsetPos)) ∧
    ((dijkstra firstTie isolatedStartWorld).1 = Outcome.exhausted →
      ∀ fuel, 1 < fuel →
        drawPath (dijkstra firstTie isolatedStartWorld).2.w fuel =
          some ([isolatedStartWorld.end_], unsetPos)) ∧
    ((aStar firstTie isolatedStartWorld).1 = Outcome.exhausted →
      ∀ fuel, 1 < fuel →
        drawPath (aStar firstTie isolatedStartWorld).2.w fuel =
          some ([isolatedStartWorld.end_], unsetPos))) :=
  ⟨by decide, by decide, by decide, by decide, by decide, by decide,
    exhausted_walk_is_end_alone firstTie isolatedStartWorld (by decide) (by decide)
      (by decide)⟩

/-! ## The claims: the 3x3 scenario (C17) -/

/-- A run in which every pop finds a single entry is the same for all
tie-breaking oracles. -/
theorem relaxLoop_single (hf : Vector2i → Vector2i → Int) (tie1 tie2 : Nat → Nat) :
    ∀ (fuel : Nat) (s : PQState), relaxSingle hf fuel s = true →
      relaxLoop hf tie1 fuel s = relaxLoop hf tie2 fuel s := by
  intro fuel
  induction fuel with
  | zero => intro s _; rfl
  | succ n ih =>
    intro s hs
    unfold relaxLoop
    unfold relaxSingle at hs
    cases hq : s.pq with
    | nil => simp [popTop]
    | cons e es =>
      cases es with
      | nil =>
        rw [hq] at hs
        simp only [popTop_single]
        by_cases he : e.1 = s.w.end_
        · simp [he]
        · simp only [he, if_false] at hs ⊢
          exact ih _ hs
      | cons e2 es2 =>
        rw [hq] at hs
        simp at hs

theorem relaxRun_single (hf : Vector2i → Vector2i → Int) (tie : Nat → Nat) (w : World)
    (h : relaxSingle hf (pqPotential (relaxInit hf w) + 1) (relaxInit hf w) = true) :
    relaxRun hf tie w = relaxRun hf firstTie w :=
  relaxLoop_single hf tie firstTie _ _ h

/-- More fuel does not change the result of a walk of `drawPath`. -/
theorem drawPathFrom_mono (w : World) :
    ∀ (n : Nat) (c : Vector2i) (r : List Vector2i × Vector2i),
      drawPathFrom w n c = some r → ∀ m, n ≤ m → drawPathFrom w m c = some r := by
  intro n
  induction n with
  | zero => intro c r h; simp [drawPathFrom] at h
  | succ n ih =>
    intro c r h m hm
    obtain ⟨m, rfl⟩ : ∃ k, m = k + 1 := ⟨m - 1, by omega⟩
    unfold drawPathFrom at h ⊢
    by_cases hc : c ≠ w.start ∧ c ≠ unsetPos
    · simp only [hc, and_self, if_true, ne_eq, not_false_eq_true] at h ⊢
      cases hr : drawPathFrom w n (w.cameFrom c) with
      | none => rw [hr] at h; simp at h
      | some r1 =>
        rw [hr] at h
        rw [ih _ _ hr m (by omega)]
        exact h
    · simp only [hc, if_false] at h ⊢
      exact h

theorem drawPath_mono (w : World) (n : Nat) (r : List Vector2i × Vector2i)
    (h : drawPath w n = some r) : ∀ m, n ≤ m → drawPath w m = some r :=
  drawPathFrom_mono w n _ r h

set_option maxRecDepth 100000 in
theorem cornerWorld_single :
    relaxSingle noHeuristic (pqPotential (relaxInit noHeuristic cornerWorld) + 1)
      (relaxInit noHeuristic cornerWorld) = true ∧
    relaxSingle heuristic (pqPotential (relaxInit heuristic cornerWorld) + 1)
      (relaxInit heuristic cornerWorld) = true := by
  decide

set_option maxRecDepth 100000 in
theorem cornerWorld_runs :
    ((bfs cornerWorld).1 = Outcome.reached ∧
      drawPath (bfs cornerWorld).2.w 7 = some (cornerPath, ⟨0, 0⟩)) ∧
    ((relaxRun noHeuristic firstTie cornerWorld).1 = Outcome.reached ∧
      drawPath (relaxRun noHeuristic firstTie cornerWorld).2.w 7 = some (cornerPath, ⟨0, 0⟩)) ∧
    ((relaxRun heuristic firstTie cornerWorld).1 = Outcome.reached ∧
      drawPath (relaxRun heuristic firstTie cornerWorld).2.w 7 =
        some (cornerPath, ⟨0, 0⟩)) := by
  decide

/-- C17: on the 20x20 grid whose 3x3 corner is walled off from the rest, with
walls at `(0,1)` and `(1,1)`, cell `(2,1)` open, start `(0,0)` and end `(0,2)`,
each of `bfs`, `dijkstra` and `aStar` (for every tie-breaking) stops by popping
end, and the walk of `drawPath` visits `(0,2),(1,2),(2,2),(2,1),(2,0),(1,0)`
and arrives at start `(0,0)`: a chain of 7 cells and 6 moves through row 2. -/
theorem corner_scenario_chain (tie : Nat → Nat) :
    cornerWorld.start = ⟨0, 0⟩ ∧ cornerWorld.end_ = ⟨0, 2⟩ ∧
    cornerPath = [⟨0, 2⟩, ⟨1, 2⟩, ⟨2, 2⟩, ⟨2, 1⟩, ⟨2, 0⟩, ⟨1, 0⟩] ∧
    ((bfs cornerWorld).1 = Outcome.reached ∧
      ∀ fuel, 6 < fuel → drawPath (bfs cornerWorld).2.w fuel = some (cornerPath, ⟨0, 0⟩)) ∧
    ((dijkstra tie cornerWorld).1 = Outcome.reached ∧
      ∀ fuel, 6 < fuel →
        drawPath (dijkstra tie cornerWorld).2.w fuel = some (cornerPath, ⟨0, 0⟩)) ∧
    ((aStar tie cornerWorld).1 = Outcome.reached ∧
      ∀ fuel, 6 < fuel →
        drawPath (aStar tie cornerWorld).2.w fuel = some (cornerPath, ⟨0, 0⟩)) := by
  obtain ⟨hb, hd, ha⟩ := cornerWorld_runs
  rw [dijkstra_eq, aStar_eq, relaxRun_single noHeuristic tie _ cornerWorld_single.1,
    relaxRun_single heuristic tie _ cornerWorld_single.2]
  exact ⟨rfl, rfl, rfl,
    ⟨hb.1, fun fuel hf => drawPath_mono _ 7 _ hb.2 fuel (by omega)⟩,
    ⟨hd.1, fun fuel hf => drawPath_mono _ 7 _ hd.2 fuel (by omega)⟩,
    ⟨ha.1, fun fuel hf => drawPath_mono _ 7 _ ha.2 fuel (by omega)⟩⟩

/-! ## The claims: running a search again (C11) -/

theorem isValid_same {a b : World} (h : SameSearch a b) (x y : Int) :
    isValid a x y = isValid b x y := by
  obtain ⟨_, _, hv, _, hw, _⟩ := h
  have h1 : decide (a.grid ⟨x, y⟩ ≠ CellType.Wall) = decide (b.grid ⟨x, y⟩ ≠ CellType.Wall) :=
    decide_eq_decide.2 (not_congr (hw _))
  unfold isValid
  rw [h1, hv]

theorem SameSearch.paint {a b : World} (h : SameSearch a b) (v u : Vector2i)
    (va vb : Vector2i → Bool) (hv : va = vb) :
    SameSearch
      { a with visited := va, cameFrom := setAt a.cameFrom v u,
               grid := setAt a.grid v CellType.Visited }
      { b with visited := vb, cameFrom := setAt b.cameFrom v u,
               grid := setAt b.grid v CellType.Visited } := by
  obtain ⟨h1, h2, _, h4, h5, h6⟩ := h
  refine ⟨h1, h2, hv, ?_, ?_, ?_⟩
  · show setAt a.cameFrom v u = setAt b.cameFrom v u
    rw [h4]
  · intro c
    show setAt a.grid v CellType.Visited c = CellType.Wall ↔
      setAt b.grid v CellType.Visited c = CellType.Wall
    by_cases hc : c = v
    · subst hc
      simp
    · rw [setAt_other _ _ _ _ hc, setAt_other _ _ _ _ hc]
      exact h5 c
  · intro c
    show setAt a.grid v CellType.Visited c = CellType.Visited ↔
      setAt b.grid v CellType.Visited c = CellType.Visited
    by_cases hc : c = v
    · subst hc
      simp
    · rw [setAt_other _ _ _ _ hc, setAt_other _ _ _ _ hc]
      exact h6 c

theorem bfsNeighbor_same (u : Vector2i) (d : Int × Int) (s1 s2 : BfsState)
    (hw : SameSearch s1.w s2.w) (hq : s1.q = s2.q) (hp : s1.pops = s2.pops) :
    SameSearch (bfsNeighbor u s1 d).w (bfsNeighbor u s2 d).w ∧
      (bfsNeighbor u s1 d).q = (bfsNeighbor u s2 d).q ∧
      (bfsNeighbor u s1 d).pops = (bfsNeighbor u s2 d).pops := by
  unfold bfsNeighbor
  simp only [isValid_same hw]
  by_cases hv : isValid s2.w (u.x + d.1) (u.y + d.2) = true
  · simp only [hv, if_true]
    refine ⟨?_, by rw [hq], hp⟩
    have h3 : s1.w.visited = s2.w.visited := hw.2.2.1
    exact hw.paint _ _ _ _ (by rw [h3])
  · simp only [hv, if_false, Bool.false_eq_true]
    exact ⟨hw, hq, hp⟩

theorem bfsFold_same (u : Vector2i) (l : List (Int × Int)) :
    ∀ (s1 s2 : BfsState), SameSearch s1.w s2.w → s1.q = s2.q → s1.pops = s2.pops →
      SameSearch (l.foldl (bfsNeighbor u) s1).w (l.foldl (bfsNeighbor u) s2).w ∧
      (l.foldl (bfsNeighbor u) s1).q = (l.foldl (bfsNeighbor u) s2).q ∧
      (l.foldl (bfsNeighbor u) s1).pops = (l.foldl (bfsNeighbor u) s2).pops := by
  induction l with
  | nil => intro s1 s2 hw hq hp; exact ⟨hw, hq, hp⟩
  | cons d l ih =>
    intro s1 s2 hw hq hp
    obtain ⟨k1, k2, k3⟩ := bfsNeighbor_same u d s1 s2 hw hq hp
    exact ih _ _ k1 k2 k3

theorem bfsLoop_same :
    ∀ (fuel : Nat) (s1 s2 : BfsState), SameSearch s1.w s2.w → s1.q = s2.q →
      s1.pops = s2.pops →
      (bfsLoop fuel s1).1 = (bfsLoop fuel s2).1 ∧
      SameSearch (bfsLoop fuel s1).2.w (bfsLoop fuel s2).2.w := by
  intro fuel
  induction fuel with
  | zero => intro s1 s2 hw _ _; exact ⟨rfl, hw⟩
  | succ n ih =>
    intro s1 s2 hw hq hp
    unfold bfsLoop
    rw [hq]
    cases s2.q with
    | nil => exact ⟨rfl, hw⟩
    | cons cur rest =>
      simp only
      rw [hw.2.1]
      by_cases he : cur = s2.w.end_
      · simp only [he, if_true]
        exact ⟨by simp, hw⟩
      · simp only [he, if_false]
        obtain ⟨k1, k2, k3⟩ := bfsFold_same cur dirs
          { s1 with q := rest, pops := s1.pops + 1 } { s2 with q := rest, pops := s2.pops + 1 }
          hw rfl (by show s1.pops + 1 = s2.pops + 1; rw [hp])
        exact ih _ _ k1 k2 k3

theorem relaxNeighbor_same (hf : Vector2i → Vector2i → Int) (u : Vector2i) (d : Int × Int)
    (s1 s2 : PQState) (hw : SameSearch s1.w s2.w) (hsc : s1.score = s2.score)
    (hq : s1.pq = s2.pq) (hp : s1.pops = s2.pops) :
    SameSearch (relaxNeighbor hf u s1 d).w (relaxNeighbor hf u s2 d).w ∧
      (relaxNeighbor hf u s1 d).score = (relaxNeighbor hf u s2 d).score ∧
      (relaxNeighbor hf u s1 d).pq = (relaxNeighbor hf u s2 d).pq ∧
      (relaxNeighbor hf u s1 d).pops = (relaxNeighbor hf u s2 d).pops := by
  unfold relaxNeighbor
  simp only [isValid_same hw, hsc]
  by_cases hv : isValid s2.w (u.x + d.1) (u.y + d.2) = true
  · simp only [hv, if_true]
    by_cases hlt : s2.score u + 1 < s2.score ⟨u.x + d.1, u.y + d.2⟩
    · simp only [hlt, if_true]
      refine ⟨?_, trivial, by rw [hq, hw.2.1], hp⟩
      exact hw.paint ⟨u.x + d.1, u.y + d.2⟩ u s1.w.visited s2.w.visited hw.2.2.1
    · simp only [hlt, if_false]
      exact ⟨hw, hsc, hq, hp⟩
  · simp only [hv, if_false, Bool.false_eq_true]
    exact ⟨hw, hsc, hq, hp⟩

theorem relaxFold_same (hf : Vector2i → Vector2i → Int) (u : Vector2i)
    (l : List (Int × Int)) :
    ∀ (s1 s2 : PQState), SameSearch s1.w s2.w → s1.score = s2.score → s1.pq = s2.pq →
      s1.pops = s2.pops →
      SameSearch (l.foldl (relaxNeighbor hf u) s1).w (l.foldl (relaxNeighbor hf u) s2).w ∧
      (l.foldl (relaxNeighbor hf u) s1).score = (l.foldl (relaxNeighbor hf u) s2).score ∧
      (l.foldl (relaxNeighbor hf u) s1).pq = (l.foldl (relaxNeighbor hf u) s2).pq ∧
      (l.foldl (relaxNeighbor hf u) s1).pops = (l.foldl (relaxNeighbor hf u) s2).pops := by
  induction l with
  | nil => intro s1 s2 hw hsc hq hp; exact ⟨hw, hsc, hq, hp⟩
  | cons d l ih =>
    intro s1 s2 hw hsc hq hp
    obtain ⟨k1, k2, k3, k4⟩ := relaxNeighbor_same hf u d s1 s2 hw hsc hq hp
    exact ih _ _ k1 k2 k3 k4

theorem relaxLoop_same (hf : Vector2i → Vector2i → Int) (tie : Nat → Nat) :
    ∀ (fuel : Nat) (s1 s2 : PQState), SameSearch s1.w s2.w → s1.score = s2.score →
      s1.pq = s2.pq → s1.pops = s2.pops →
      (relaxLoop hf tie fuel s1).1 = (relaxLoop hf tie fuel s2).1 ∧
      SameSearch (relaxLoop hf tie fuel s1).2.w (relaxLoop hf tie fuel s2).2.w := by
  intro fuel
  induction fuel with
  | zero => intro s1 s2 hw _ _ _; exact ⟨rfl, hw⟩
  | succ n ih =>
    intro s1 s2 hw hsc hq hp
    unfold relaxLoop
    rw [hq, hp]
    cases popTop (tie s2.pops) s2.pq with
    | none => exact ⟨rfl, hw⟩
    | some r =>
      obtain ⟨top, rest⟩ := r
      simp only
      rw [hw.2.1]
      by_cases he : top.1 = s2.w.end_
      · simp only [he, if_true]
        exact ⟨by simp, hw⟩
      · simp only [he, if_false]
        obtain ⟨k1, k2, k3, k4⟩ := relaxFold_same hf top.1 dirs
          { s1 with pq := rest, pops := s2.pops + 1 } { s2 with pq := rest, pops := s2.pops + 1 }
          hw hsc rfl rfl
        exact ih _ _ k1 k2 k3 k4

/-- After a reset, a grid that differs from the reset of `g0` only by
`Visited` marks on open cells of the grid has its walls and its `Visited`
marks where the reset of `g0` has them. -/
theorem resetGrid_same (w w1 : World) (h1 : w1.start = w.start) (h2 : w1.end_ = w.end_)
    (hg : ∀ c, (inBounds c ∧ w.grid c ≠ CellType.Wall ∧ w1.grid c = CellType.Visited) ∨
      w1.grid c = (if inBounds c ∧ (w.grid c = CellType.Visited ∨ w.grid c = CellType.Path)
        then CellType.Empty else w.grid c)) :
    SameSearch (resetGrid w1) (resetGrid w) := by
  have key : ∀ c, ((resetGrid w1).grid c = CellType.Wall ↔ (resetGrid w).grid c = CellType.Wall) ∧
      ((resetGrid w1).grid c = CellType.Visited ↔ (resetGrid w).grid c = CellType.Visited) := by
    intro c
    show ((if inBounds c ∧ (w1.grid c = CellType.Visited ∨ w1.grid c = CellType.Path)
        then CellType.Empty else w1.grid c) = CellType.Wall ↔
      (if inBounds c ∧ (w.grid c = CellType.Visited ∨ w.grid c = CellType.Path)
        then CellType.Empty else w.grid c) = CellType.Wall) ∧
      ((if inBounds c ∧ (w1.grid c = CellType.Visited ∨ w1.grid c = CellType.Path)
        then CellType.Empty else w1.grid c) = CellType.Visited ↔
      (if inBounds c ∧ (w.grid c = CellType.Visited ∨ w.grid c = CellType.Path)
        then CellType.Empty else w.grid c) = CellType.Visited)
    rcases hg c with ⟨hb, hw, hv⟩ | hk
    · rw [hv]
      cases hgc : w.grid c <;> simp_all
    · rw [hk]
      by_cases hb : inBounds c
      · cases hgc : w.grid c <;> simp [hb]
      · simp [hb]
  exact ⟨h1, h2, rfl, rfl, fun c => (key c).1, fun c => (key c).2⟩

theorem BfsTables.bfsFinalGrid {g0 : Vector2i → CellType} {start e : Vector2i}
    {lvl : Vector2i → Int} {s : BfsState} (ht : BfsTables g0 start e lvl s) :
    ∀ c, (inBounds c ∧ g0 c ≠ CellType.Wall ∧ s.w.grid c = CellType.Visited) ∨
      s.w.grid c = (if inBounds c ∧ (g0 c = CellType.Visited ∨ g0 c = CellType.Path)
        then CellType.Empty else g0 c) := by
  intro c
  by_cases hcs : c = start
  · exact Or.inr (ht.kept c (Or.inr hcs)).2
  · cases hv : s.w.visited c with
    | false => exact Or.inr (ht.kept c (Or.inl hv)).2
    | true =>
      obtain ⟨hb, hw, _⟩ := ht.cert.parent c hv hcs
      exact Or.inl ⟨hb, hw, ht.painted c hcs hv⟩

theorem PQTables.pqFinalGrid {hf : Vector2i → Vector2i → Int} {g0 : Vector2i → CellType}
    {start e : Vector2i} {s : PQState} (ht : PQTables hf g0 start e s) :
    ∀ c, (inBounds c ∧ g0 c ≠ CellType.Wall ∧ s.w.grid c = CellType.Visited) ∨
      s.w.grid c = (if inBounds c ∧ (g0 c = CellType.Visited ∨ g0 c = CellType.Path)
        then CellType.Empty else g0 c) := by
  intro c
  by_cases hcs : c = start
  · exact Or.inr (ht.kept c (Or.inr hcs)).2
  · by_cases hv : s.score c < INT_MAX
    · obtain ⟨hb, hw, _⟩ := ht.cert.parent c hv hcs
      exact Or.inl ⟨hb, hw, (ht.painted c hb hcs).2 hv⟩
    · exact Or.inr (ht.kept c (Or.inl hv)).2

theorem SameSearch.sameRun {a b : World} (h : SameSearch a b) {o1 o2 : Outcome}
    (ho : o2 = o1) : SameRun o1 b o2 a :=
  ⟨ho, h.2.2.2.1, h.2.2.1, h.2.2.2.2.2⟩

/-- A second run of `bfs` on the globals left by the first run. -/
theorem bfs_rerun (w : World) (hs : inBounds w.start) :
    SameRun (bfs w).1 (bfs w).2.w (bfs (bfs w).2.w).1 (bfs (bfs w).2.w).2.w := by
  obtain ⟨lvl, ht, _⟩ := bfs_inv w hs
  have hsame := resetGrid_same w (bfs w).2.w ht.w_start ht.w_end ht.bfsFinalGrid
  have h1 : (bfs w).2.w.start = w.start := ht.w_start
  have hvis : (bfsInit (bfs w).2.w).w.visited = (bfsInit w).w.visited := by
    show setAt (fun _ => false) (bfs w).2.w.start true = setAt (fun _ => false) w.start true
    rw [h1]
  have hq : (bfsInit (bfs w).2.w).q = (bfsInit w).q := by
    show [(bfs w).2.w.start] = [w.start]
    rw [h1]
  have hinit : SameSearch (bfsInit (bfs w).2.w).w (bfsInit w).w :=
    ⟨hsame.1, hsame.2.1, hvis, rfl, hsame.2.2.2.2.1, hsame.2.2.2.2.2⟩
  have hpot : bfsPotential (bfsInit (bfs w).2.w) = bfsPotential (bfsInit w) := by
    unfold bfsPotential
    rw [hq, hvis]
  obtain ⟨k1, k2⟩ := bfsLoop_same (bfsPotential (bfsInit w) + 1) _ _ hinit hq rfl
  have e2 : bfs (bfs w).2.w = bfsLoop (bfsPotential (bfsInit w) + 1) (bfsInit (bfs w).2.w) := by
    show bfsLoop (bfsPotential (bfsInit (bfs w).2.w) + 1) _ = _
    rw [hpot]
  rw [e2]
  exact k2.sameRun k1

/-- A second run of the relaxation search on the globals left by the first
run. -/
theorem relaxRun_rerun (hf : Vector2i → Vector2i → Int) (tie : Nat → Nat) (w : World)
    (hs : inBounds w.start) (hnn : ∀ c, 0 ≤ hf c w.end_)
    (hadm : ∀ c m, Route w.grid c w.end_ m → hf c w.end_ ≤ m)
    (hsmall : hf w.start w.end_ + allCells.length + 1 < INT_MAX) :
    SameRun (relaxRun hf tie w).1 (relaxRun hf tie w).2.w
      (relaxRun hf tie (relaxRun hf tie w).2.w).1
      (relaxRun hf tie (relaxRun hf tie w).2.w).2.w := by
  obtain ⟨ht, _⟩ := relaxRun_inv hf tie w hs hnn hadm hsmall
  have hsame := resetGrid_same w (relaxRun hf tie w).2.w ht.w_start ht.w_end ht.pqFinalGrid
  have h1 : (relaxRun hf tie w).2.w.start = w.start := ht.w_start
  have h2 : (relaxRun hf tie w).2.w.end_ = w.end_ := ht.w_end
  have hsc : (relaxInit hf (relaxRun hf tie w).2.w).score = (relaxInit hf w).score := by
    show setAt (fun _ => INT_MAX) (relaxRun hf tie w).2.w.start
      (hf (relaxRun hf tie w).2.w.start (relaxRun hf tie w).2.w.end_) =
      setAt (fun _ => INT_MAX) w.start (hf w.start w.end_)
    rw [h1, h2]
  have hq : (relaxInit hf (relaxRun hf tie w).2.w).pq = (relaxInit hf w).pq := by
    show [((relaxRun hf tie w).2.w.start,
      hf (relaxRun hf tie w).2.w.start (relaxRun hf tie w).2.w.end_)] =
      [(w.start, hf w.start w.end_)]
    rw [h1, h2]
  have hinit : SameSearch (relaxInit hf (relaxRun hf tie w).2.w).w (relaxInit hf w).w := hsame
  have hpot : pqPotential (relaxInit hf (relaxRun hf tie w).2.w) =
      pqPotential (relaxInit hf w) := by
    unfold pqPotential
    rw [hq, hsc]
  obtain ⟨k1, k2⟩ := relaxLoop_same hf tie (pqPotential (relaxInit hf w) + 1) _ _ hinit hsc hq rfl
  have e2 : relaxRun hf tie (relaxRun hf tie w).2.w =
      relaxLoop hf tie (pqPotential (relaxInit hf w) + 1)
        (relaxInit hf (relaxRun hf tie w).2.w) := by
    show relaxLoop hf tie (pqPotential (relaxInit hf (relaxRun hf tie w).2.w) + 1) _ = _
    rw [hpot]
  rw [e2]
  exact k2.sameRun k1

/-- C11: for each of `bfs`, `dijkstra` and `aStar`, every tie-breaking and every
state with in-bounds start and end, running the search a second time on the
state left by its first run yields the same outcome, the same `cameFrom`
table, the same `visited` table and the same set of cells of kind `Visited` as
the first run. -/
theorem rerun_repeats_first_run (tie : Nat → Nat) (w : World) (hs : inBounds w.start)
    (he : inBounds w.end_) :
    SameRun (bfs w).1 (bfs w).2.w (bfs (bfs w).2.w).1 (bfs (bfs w).2.w).2.w ∧
    SameRun (dijkstra tie w).1 (dijkstra tie w).2.w
      (dijkstra tie (dijkstra tie w).2.w).1 (dijkstra tie (dijkstra tie w).2.w).2.w ∧
    SameRun (aStar tie w).1 (aStar tie w).2.w
      (aStar tie (aStar tie w).2.w).1 (aStar tie (aStar tie w).2.w).2.w := by
  refine ⟨bfs_rerun w hs, ?_, ?_⟩
  · simp only [dijkstra_eq]
    exact relaxRun_rerun noHeuristic tie w hs (fun _ => le_refl _)
      (fun _ m _ => by simp [noHeuristic]) (noHeuristic_small w)
  · simp only [aStar_eq]
    exact relaxRun_rerun heuristic tie w hs (fun c => heuristic_nonneg c _)
      (heuristic_admissible w.grid w.end_) (heuristic_start_small w hs (Or.inl he))

/-- Witness of C11 on the empty grid with start `(0,0)` and end `(0,1)`. -/
theorem rerun_repeats_first_run_witness :
    inBounds twoCellWorld.start ∧ inBounds twoCellWorld.end_ ∧
    (SameRun (bfs twoCellWorld).1 (bfs twoCellWorld).2.w
      (bfs (bfs twoCellWorld).2.w).1 (bfs (bfs twoCellWorld).2.w).2.w ∧
    SameRun (dijkstra firstTie twoCellWorld).1 (dijkstra firstTie twoCellWorld).2.w
      (dijkstra firstTie (dijkstra firstTie twoCellWorld).2.w).1
      (dijkstra firstTie (dijkstra firstTie twoCellWorld).2.w).2.w ∧
    SameRun (aStar firstTie twoCellWorld).1 (aStar firstTie twoCellWorld).2.w
      (aStar firstTie (aStar firstTie twoCellWorld).2.w).1
      (aStar firstTie (aStar firstTie twoCellWorld).2.w).2.w) :=
  ⟨by decide, by decide, rerun_repeats_first_run firstTie twoCellWorld (by decide) (by decide)⟩

/-! ## The states at the head of the loops -/

theorem aStarInit_eq (w : World) : aStarInit w = relaxInit heuristic w := by
  simp [aStarInit, relaxInit]

theorem dijkstraInit_eq (w : World) : dijkstraInit w = relaxInit noHeuristic w := rfl

theorem aStarStates_eq (tie : Nat → Nat) (w : World) :
    aStarStates tie w = pqTrace (relaxNeighbor heuristic) tie
      (pqPotential (relaxInit heuristic w) + 1) (relaxInit heuristic w) := by
  unfold aStarStates
  rw [aStarNeighbor_eq, aStarInit_eq]

theorem dijkstraStates_eq (tie : Nat → Nat) (w : World) :
    dijkstraStates tie w = pqTrace (relaxNeighbor noHeuristic) tie
      (pqPotential (relaxInit noHeuristic w) + 1) (relaxInit noHeuristic w) := by
  unfold dijkstraStates
  rw [dijkstraNeighbor_eq, dijkstraInit_eq]

/-- The invariant of the relaxation search holds at every loop-head state. -/
theorem pqTrace_inv {hf : Vector2i → Vector2i → Int} {g0 : Vector2i → CellType}
    {start e : Vector2i} (tie : Nat → Nat)
    (hsmall : hf start e + allCells.length + 1 < INT_MAX) :
    ∀ (fuel : Nat) (s : PQState), PQInv hf g0 start e (fun _ => False) s →
      ∀ s1 ∈ pqTrace (relaxNeighbor hf) tie fuel s, PQInv hf g0 start e (fun _ => False) s1 := by
  intro fuel
  induction fuel with
  | zero =>
    intro s hinv s1 hs1
    have : s1 = s := by simpa [pqTrace] using hs1
    rw [this]
    exact hinv
  | succ n ih =>
    intro s hinv s1 hs1
    unfold pqTrace at hs1
    cases hp : popTop (tie s.pops) s.pq with
    | none =>
      rw [hp] at hs1
      have : s1 = s := by simpa using hs1
      rw [this]
      exact hinv
    | some r =>
      obtain ⟨top, rest⟩ := r
      rw [hp] at hs1
      simp only at hs1
      obtain ⟨hmem, _, _⟩ := popTop_some hp
      by_cases he : top.1 = s.w.end_
      · simp only [he, if_true] at hs1
        have : s1 = s := by simpa using hs1
        rw [this]
        exact hinv
      · simp only [he, if_false] at hs1
        rcases List.mem_cons.1 hs1 with h | h
        · rw [h]
          exact hinv
        · have hne : top.1 ≠ e := fun h => he (h.trans hinv.w_end.symm)
          have h1 := pop_inv hinv hp hne
          have h2 := relaxFold_inv { s with pq := rest, pops := s.pops + 1 } hsmall
            (hinv.entries top hmem).1 h1
          exact ih _ h2 s1 h

/-- The entries of the queue are in bounds at every loop-head state. -/
theorem pqTrace_basic (hf : Vector2i → Vector2i → Int) (tie : Nat → Nat) :
    ∀ (fuel : Nat) (s : PQState), PQBasic s →
      ∀ s1 ∈ pqTrace (relaxNeighbor hf) tie fuel s, PQBasic s1 := by
  intro fuel
  induction fuel with
  | zero =>
    intro s hinv s1 hs1
    have : s1 = s := by simpa [pqTrace] using hs1
    rw [this]
    exact hinv
  | succ n ih =>
    intro s hinv s1 hs1
    unfold pqTrace at hs1
    cases hp : popTop (tie s.pops) s.pq with
    | none =>
      rw [hp] at hs1
      have : s1 = s := by simpa using hs1
      rw [this]
      exact hinv
    | some r =>
      obtain ⟨top, rest⟩ := r
      rw [hp] at hs1
      simp only at hs1
      obtain ⟨hmem, _, hrest⟩ := popTop_some hp
      by_cases he : top.1 = s.w.end_
      · simp only [he, if_true] at hs1
        have : s1 = s := by simpa using hs1
        rw [this]
        exact hinv
      · simp only [he, if_false] at hs1
        rcases List.mem_cons.1 hs1 with h | h
        · rw [h]
          exact hinv
        · have hs1b : PQBasic { s with pq := rest, pops := s.pops + 1 } :=
            ⟨hinv.score_nonneg,
              fun en hen => hinv.entries en (by rw [hrest] at hen; exact List.mem_of_mem_erase hen),
              hinv.unvisited⟩
          exact ih _ (relaxFold_basic hf top.1 dirs _ hs1b).1 s1 h

/-- The invariant of `bfs` holds at every loop-head state. -/
theorem bfsTrace_inv {g0 : Vector2i → CellType} {start e : Vector2i} :
    ∀ (fuel : Nat) (s : BfsState), (∃ lvl, BfsInv g0 start e lvl s) →
      ∀ s1 ∈ bfsTrace fuel s, ∃ lvl, BfsInv g0 start e lvl s1 := by
  intro fuel
  induction fuel with
  | zero =>
    intro s hinv s1 hs1
    have : s1 = s := by simpa [bfsTrace] using hs1
    rw [this]
    exact hinv
  | succ n ih =>
    intro s hinv s1 hs1
    unfold bfsTrace at hs1
    cases hq : s.q with
    | nil =>
      rw [hq] at hs1
      have : s1 = s := by simpa using hs1
      rw [this]
      exact hinv
    | cons cur rest =>
      rw [hq] at hs1
      simp only at hs1
      by_cases he : cur = s.w.end_
      · simp only [he, if_true] at hs1
        have : s1 = s := by simpa using hs1
        rw [this]
        exact hinv
      · simp only [he, if_false] at hs1
        rcases List.mem_cons.1 hs1 with h | h
        · rw [h]
          exact hinv
        · obtain ⟨lvl, hl⟩ := hinv
          have hne : cur ≠ e := fun h => he (h.trans hl.core.w_end.symm)
          have h1 := bfsPop_inv hl hq hne
          have h2 := bfsFold_inv { s with q := rest, pops := s.pops + 1 } h1
          exact ih _ h2 s1 h

theorem heuristic_endValue_small (w : World) (hs : inBounds w.start) (he : EndValue w.end_) :
    heuristic w.start w.end_ + allCells.length + 1 < INT_MAX := by
  rw [allCells_length]
  simp only [inBounds, rows, cols, EndValue] at hs he
  simp only [heuristic, iabs, INT_MAX]
  push_cast
  split <;> split <;> omega

theorem aStarStates_inv (tie : Nat → Nat) (w : World) (hs : inBounds w.start)
    (he : EndValue w.end_) :
    ∀ s ∈ aStarStates tie w,
      PQInv heuristic w.grid w.start w.end_ (fun _ => False) s ∧ PQBasic s := by
  intro s hmem
  rw [aStarStates_eq] at hmem
  have hsmall := heuristic_endValue_small w hs he
  exact ⟨pqTrace_inv tie hsmall _ _
      (relaxInit_inv heuristic w (fun c => heuristic_nonneg c _) hsmall) s hmem,
    pqTrace_basic heuristic tie _ _ (relaxInit_basic heuristic w hs (heuristic_nonneg _ _)) s hmem⟩

theorem dijkstraStates_inv (tie : Nat → Nat) (w : World) (hs : inBounds w.start) :
    ∀ s ∈ dijkstraStates tie w,
      PQInv noHeuristic w.grid w.start w.end_ (fun _ => False) s ∧ PQBasic s := by
  intro s hmem
  rw [dijkstraStates_eq] at hmem
  exact ⟨pqTrace_inv tie (noHeuristic_small w) _ _
      (relaxInit_inv noHeuristic w (fun _ => le_refl _) (noHeuristic_small w)) s hmem,
    pqTrace_basic noHeuristic tie _ _ (relaxInit_basic noHeuristic w hs (le_refl _)) s hmem⟩

theorem bfsStates_inv (w : World) :
    ∀ s ∈ bfsStates w, ∃ lvl, BfsInv w.grid w.start w.end_ lvl s :=
  bfsTrace_inv _ _ ⟨_, bfsInit_inv w⟩

/-- The run of the relaxation loop ends at a loop-head state of its trace:
either the fuel ran out there, or the result is that of the last pass of the
loop from that state, which pops `end` or finds the queue empty. -/
theorem relaxLoop_ends_in_trace (hf : Vector2i → Vector2i → Int) (tie : Nat → Nat) :
    ∀ (fuel : Nat) (s : PQState), ∃ s1 ∈ pqTrace (relaxNeighbor hf) tie fuel s,
      relaxLoop hf tie fuel s = (Outcome.outOfFuel, s1) ∨
      (relaxLoop hf tie fuel s = relaxLoop hf tie 1 s1 ∧
        (relaxLoop hf tie 1 s1).1 ≠ Outcome.outOfFuel) := by
  intro fuel
  induction fuel with
  | zero => intro s; exact ⟨s, by simp [pqTrace], Or.inl rfl⟩
  | succ n ih =>
    intro s
    unfold pqTrace
    cases hp : popTop (tie s.pops) s.pq with
    | none =>
      refine ⟨s, by simp, Or.inr ?_⟩
      simp [relaxLoop, hp]
    | some r =>
      obtain ⟨top, rest⟩ := r
      simp only
      by_cases he : top.1 = s.w.end_
      · refine ⟨s, by simp [he], Or.inr ?_⟩
        simp [relaxLoop, hp, he]
      · simp only [he, if_false]
        obtain ⟨s1, hs1, h⟩ := ih (dirs.foldl (relaxNeighbor hf top.1)
          { s with pq := rest, pops := s.pops + 1 })
        refine ⟨s1, List.mem_cons_of_mem _ hs1, ?_⟩
        have hrun : relaxLoop hf tie (n + 1) s = relaxLoop hf tie n
            (dirs.foldl (relaxNeighbor hf top.1) { s with pq := rest, pops := s.pops + 1 }) := by
          conv_lhs => unfold relaxLoop
          simp [hp, he]
        rw [hrun]
        exact h

/-- The run of the loop of `bfs` ends at a loop-head state of its trace. -/
theorem bfsLoop_ends_in_trace :
    ∀ (fuel : Nat) (s : BfsState), ∃ s1 ∈ bfsTrace fuel s,
      bfsLoop fuel s = (Outcome.outOfFuel, s1) ∨
      (bfsLoop fuel s = bfsLoop 1 s1 ∧ (bfsLoop 1 s1).1 ≠ Outcome.outOfFuel) := by
  intro fuel
  induction fuel with
  | zero => intro s; exact ⟨s, by simp [bfsTrace], Or.inl rfl⟩
  | succ n ih =>
    intro s
    unfold bfsTrace
    cases hq : s.q with
    | nil =>
      refine ⟨s, by simp, Or.inr ?_⟩
      simp [bfsLoop, hq]
    | cons cur rest =>
      simp only
      by_cases he : cur = s.w.end_
      · refine ⟨s, by simp [he], Or.inr ?_⟩
        simp [bfsLoop, hq, he]
      · simp only [he, if_false]
        obtain ⟨s1, hs1, h⟩ := ih (dirs.foldl (bfsNeighbor cur)
          { s with q := rest, pops := s.pops + 1 })
        refine ⟨s1, List.mem_cons_of_mem _ hs1, ?_⟩
        have hrun : bfsLoop (n + 1) s = bfsLoop n
            (dirs.foldl (bfsNeighbor cur) { s with q := rest, pops := s.pops + 1 }) := by
          conv_lhs => unfold bfsLoop
          simp [hq, he]
        rw [hrun]
        exact h

/-! ## The claims: no cycle in `cameFrom` (C14) -/

theorem drawPathFrom_stop (w1 : World) (c : Vector2i) (h : c = w1.start ∨ c = unsetPos) :
    ∀ fuel, 0 < fuel → drawPathFrom w1 fuel c = some ([], c) := by
  intro fuel hfuel
  obtain ⟨f, rfl⟩ : ∃ f, fuel = f + 1 := ⟨fuel - 1, by omega⟩
  unfold drawPathFrom
  rcases h with h | h <;> simp [h]

/-- Over a predecessor tree whose other entries are unset, the walk of
`drawPath` ends from every cell. -/
theorem TreeCert.treeWalkEnds {g0 : Vector2i → CellType} {w1 : World} {S : Vector2i → Prop}
    {lvl : Vector2i → Int} (hc : TreeCert g0 w1.start S w1.cameFrom lvl)
    (hkept : ∀ c, (¬ S c ∨ c = w1.start) → w1.cameFrom c = unsetPos) : WalkEnds w1 := by
  have h400 : (rows * cols).toNat = allCells.length := by
    rw [allCells_length]
    rfl
  intro c
  rw [h400]
  by_cases h0 : c = w1.start ∨ c = unsetPos
  · exact ⟨[], c, by simp, h0, fun fuel hf => drawPathFrom_stop w1 c h0 fuel (by omega)⟩
  · have hcs : c ≠ w1.start := fun h => h0 (Or.inl h)
    have hcu : c ≠ unsetPos := fun h => h0 (Or.inr h)
    by_cases hS : S c
    · obtain ⟨path, hw, _⟩ := hc.goodWalk c hS
      refine ⟨path, w1.start, ?_, Or.inl rfl, hw.walk⟩
      have hnd : path.Nodup := (List.nodup_append.1 hw.nodup).1
      have hsub : path ⊆ allCells := fun x hx => (mem_allCells x).2 (hw.cells x hx).1
      exact (List.subperm_of_subset hnd hsub).length_le
    · refine ⟨[c], unsetPos, ?_, Or.inr rfl, ?_⟩
      · rw [allCells_length]
        simp
      · intro fuel hfuel
        obtain ⟨f, rfl⟩ : ∃ f, fuel = f + 2 := ⟨fuel - 2, by simp at hfuel; omega⟩
        simp [drawPathFrom, hcs, hcu, hkept c (Or.inl hS)]

theorem PQTables.pqWalkEnds {hf : Vector2i → Vector2i → Int} {g0 : Vector2i → CellType}
    {start e : Vector2i} {s : PQState} (ht : PQTables hf g0 start e s) : WalkEnds s.w := by
  have hcert := ht.cert
  rw [← ht.w_start] at hcert
  refine hcert.treeWalkEnds ?_
  intro c hc
  rw [ht.w_start] at hc
  exact (ht.kept c hc).1

theorem BfsTables.bfsWalkEnds {g0 : Vector2i → CellType} {start e : Vector2i}
    {lvl : Vector2i → Int} {s : BfsState} (ht : BfsTables g0 start e lvl s) :
    WalkEnds s.w := by
  have hcert := ht.cert
  rw [← ht.w_start] at hcert
  refine hcert.treeWalkEnds ?_
  intro c hc
  rw [ht.w_start] at hc
  refine (ht.kept c ?_).1
  rcases hc with hc | hc
  · left
    cases hv : s.w.visited c with
    | false => rfl
    | true => exact absurd hv hc
  · exact Or.inr hc

/-- C14: at every loop-head state of every run of `bfs`, `dijkstra` and `aStar`
(the state on entry to the loop and the state after each loop iteration), the
table `cameFrom` contains no cycle: starting from any cell and repeatedly
following `cameFrom`, the walk of `drawPath` arrives at start or at an unset
entry `(-1,-1)` within `rows * cols` steps, so it terminates. -/
theorem cameFrom_walk_ends_at_every_step (tie : Nat → Nat) (w : World)
    (hs : inBounds w.start) (he : EndValue w.end_) :
    (∀ s ∈ bfsStates w, WalkEnds s.w) ∧
    (∀ s ∈ dijkstraStates tie w, WalkEnds s.w) ∧
    (∀ s ∈ aStarStates tie w, WalkEnds s.w) := by
  refine ⟨?_, ?_, ?_⟩
  · intro s hmem
    obtain ⟨lvl, hl⟩ := bfsStates_inv w s hmem
    exact hl.core.toBfsTables.bfsWalkEnds
  · intro s hmem
    exact ((dijkstraStates_inv tie w hs s hmem).1.toTables (noHeuristic_small w)).pqWalkEnds
  · intro s hmem
    exact ((aStarStates_inv tie w hs he s hmem).1.toTables
      (heuristic_endValue_small w hs he)).pqWalkEnds

set_option maxRecDepth 100000 in
/-- Witness of C14 on the empty grid with start `(0,0)` and end `(0,1)`, where
each run has a state after its first loop iteration. -/
theorem cameFrom_walk_ends_at_every_step_witness :
    inBounds twoCellWorld.start ∧ EndValue twoCellWorld.end_ ∧
    (bfsStates twoCellWorld).length = 3 ∧
    (dijkstraStates firstTie twoCellWorld).length = 3 ∧
    (aStarStates firstTie twoCellWorld).length = 2 ∧
    ((∀ s ∈ bfsStates twoCellWorld, WalkEnds s.w) ∧
    (∀ s ∈ dijkstraStates firstTie twoCellWorld, WalkEnds s.w) ∧
    (∀ s ∈ aStarStates firstTie twoCellWorld, WalkEnds s.w)) :=
  ⟨by decide, by decide, by decide, by decide, by decide,
    cameFrom_walk_ends_at_every_step firstTie twoCellWorld (by decide) (by decide)⟩

/-! ## The claims: indices of the table accesses (C20) -/

theorem bfsNeighbor_log {start u : Vector2i} {s : BfsState} {L : List (Vector2i × Vector2i)}
    (d : Int × Int) (h : BfsLogInv start s L) :
    BfsLogInv start (bfsNeighbor u s d) (L ++ bfsNeighborLog u s d) := by
  by_cases hv : isValid s.w (u.x + d.1) (u.y + d.2) = true
  · have hlog : bfsNeighborLog u s d = [(⟨u.x + d.1, u.y + d.2⟩, u)] := by
      simp [bfsNeighborLog, hv]
    have hst : bfsNeighbor u s d =
        { s with
          w := { s.w with
            visited := setAt s.w.visited ⟨u.x + d.1, u.y + d.2⟩ true
            cameFrom := setAt s.w.cameFrom ⟨u.x + d.1, u.y + d.2⟩ u
            grid := setAt s.w.grid ⟨u.x + d.1, u.y + d.2⟩ CellType.Visited }
          q := s.q ++ [⟨u.x + d.1, u.y + d.2⟩] } := by
      simp [bfsNeighbor, hv]
    have hunv : s.w.visited ⟨u.x + d.1, u.y + d.2⟩ = false := by
      simp only [isValid, Bool.and_eq_true, decide_eq_true_eq, Bool.not_eq_true'] at hv
      exact hv.2
    have hnew : ¬ ((⟨u.x + d.1, u.y + d.2⟩ : Vector2i) = start ∨
        (⟨u.x + d.1, u.y + d.2⟩ : Vector2i) ∈ L.map Prod.fst) := by
      intro hc
      have := (h.visited _).2 hc
      rw [hunv] at this
      exact Bool.false_ne_true this
    rw [hlog, hst]
    refine ⟨h.w_start, ?_, ?_, ?_, ?_, ?_⟩
    · show setAt s.w.visited _ true start = true
      simp only [setAt]
      split
      · rfl
      · exact h.vis_start
    · have hf := h.fresh
      simp only [List.map_append, List.map_cons, List.map_nil, List.nodup_cons,
        List.mem_append, List.mem_singleton, List.nodup_append, List.nodup_nil,
        List.not_mem_nil, List.disjoint_singleton, not_or, and_true] at hf ⊢
      exact ⟨⟨hf.1, fun hc => hnew (Or.inl hc.symm)⟩, hf.2, not_false,
        fun hc => hnew (Or.inr hc)⟩
    · intro en hen
      show setAt s.w.cameFrom _ u en.1 = en.2
      rcases List.mem_append.1 hen with hen | hen
      · have hne : en.1 ≠ ⟨u.x + d.1, u.y + d.2⟩ := by
          intro hc
          apply hnew
          right
          rw [← hc]
          exact List.mem_map_of_mem _ hen
        simp only [setAt, hne, if_false]
        exact h.logged en hen
      · rw [List.mem_singleton.1 hen]
        simp [setAt]
    · intro c
      show setAt s.w.visited _ true c = true ↔ _
      simp only [setAt, List.map_append, List.map_cons, List.map_nil, List.mem_append,
        List.mem_singleton]
      by_cases hc : c = ⟨u.x + d.1, u.y + d.2⟩
      · simp [hc]
      · simp only [hc, if_false, or_false]
        exact h.visited c
    · intro c hc
      show setAt s.w.cameFrom _ u c = unsetPos
      simp only [List.map_append, List.map_cons, List.map_nil, List.mem_append,
        List.mem_singleton, not_or] at hc
      simp only [setAt, hc.2, if_false]
      exact h.others c hc.1
  · have hlog : bfsNeighborLog u s d = [] := by
      simp [bfsNeighborLog, hv]
    have hst : bfsNeighbor u s d = s := by
      simp [bfsNeighbor, hv]
    rw [hlog, hst, List.append_nil]
    exact h

theorem bfsExpand_log {start u : Vector2i} :
    ∀ (ds : List (Int × Int)) (s : BfsState) (L : List (Vector2i × Vector2i)),
      BfsLogInv start s L →
      BfsLogInv start (ds.foldl (bfsNeighbor u) s) (L ++ bfsExpandLog u ds s) := by
  intro ds
  induction ds with
  | nil =>
    intro s L h
    simpa [bfsExpandLog] using h
  | cons d ds ih =>
    intro s L h
    have h1 := ih _ _ (bfsNeighbor_log (u := u) d h)
    simpa [bfsExpandLog, List.append_assoc] using h1

theorem bfsLoop_log {start : Vector2i} :
    ∀ (fuel : Nat) (s : BfsState) (L : List (Vector2i × Vector2i)),
      BfsLogInv start s L → BfsLogInv start (bfsLoop fuel s).2 (L ++ bfsLog fuel s) := by
  intro fuel
  induction fuel with
  | zero =>
    intro s L h
    simpa [bfsLoop, bfsLog] using h
  | succ n ih =>
    intro s L h
    unfold bfsLoop bfsLog
    cases hq : s.q with
    | nil => simpa using h
    | cons cur rest =>
      simp only
      by_cases he : cur = s.w.end_
      · simp only [he, if_true, List.append_nil]
        exact ⟨h.w_start, h.vis_start, h.fresh, h.logged, h.visited, h.others⟩
      · simp only [he, if_false]
        have h1 : BfsLogInv start { s with q := rest, pops := s.pops + 1 } L :=
          ⟨h.w_start, h.vis_start, h.fresh, h.logged, h.visited, h.others⟩
        have h2 := ih _ _ (bfsExpand_log (u := cur) dirs _ L h1)
        rw [List.append_assoc] at h2
        exact h2

theorem bfsInit_log (w : World) : BfsLogInv w.start (bfsInit w) [] := by
  refine ⟨rfl, ?_, by simp, by simp, ?_, ?_⟩
  · simp [bfsInit, resetGrid, setAt]
  · intro c
    simp only [bfsInit, resetGrid, setAt, List.map_nil, List.not_mem_nil, or_false]
    by_cases hc : c = w.start <;> simp [hc]
  · intro c _
    rfl

theorem bfsNeighbor_queue (u : Vector2i) (s : BfsState) (d : Int × Int) :
    (bfsNeighbor u s d).q = s.q ++ (bfsNeighborLog u s d).map Prod.fst ∧
    (bfsNeighbor u s d).pops = s.pops := by
  by_cases hv : isValid s.w (u.x + d.1) (u.y + d.2) = true
  · simp [bfsNeighbor, bfsNeighborLog, hv]
  · simp [bfsNeighbor, bfsNeighborLog, hv]

theorem bfsExpand_queue (u : Vector2i) :
    ∀ (ds : List (Int × Int)) (s : BfsState),
      (ds.foldl (bfsNeighbor u) s).q = s.q ++ (bfsExpandLog u ds s).map Prod.fst ∧
      (ds.foldl (bfsNeighbor u) s).pops = s.pops := by
  intro ds
  induction ds with
  | nil => intro s; simp [bfsExpandLog]
  | cons d ds ih =>
    intro s
    obtain ⟨h1, h2⟩ := ih (bfsNeighbor u s d)
    obtain ⟨k1, k2⟩ := bfsNeighbor_queue u s d
    rw [List.foldl_cons, h1, h2, k1, k2]
    simp [bfsExpandLog, List.append_assoc]

/-- The queue of `bfs` against the log of its pushes: the cells popped so far
followed by the cells still in the queue are the cells that were in the queue
at the start followed by the cells pushed since, in the order of the pushes;
and the counter of pops counts the popped cells. -/
theorem bfsLoop_queue :
    ∀ (fuel : Nat) (s : BfsState),
      bfsPopped fuel s ++ (bfsLoop fuel s).2.q = s.q ++ (bfsLog fuel s).map Prod.fst ∧
      (bfsLoop fuel s).2.pops = s.pops + (bfsPopped fuel s).length := by
  intro fuel
  induction fuel with
  | zero => intro s; simp [bfsLoop, bfsLog, bfsPopped]
  | succ n ih =>
    intro s
    unfold bfsLoop bfsLog bfsPopped
    cases hq : s.q with
    | nil => simp [hq]
    | cons cur rest =>
      simp only
      by_cases he : cur = s.w.end_
      · simp [he]
      · simp only [he, if_false]
        obtain ⟨h1, h2⟩ := ih (dirs.foldl (bfsNeighbor cur) { s with q := rest, pops := s.pops + 1 })
        obtain ⟨k1, k2⟩ := bfsExpand_queue cur dirs { s with q := rest, pops := s.pops + 1 }
        refine ⟨?_, ?_⟩
        · rw [List.cons_append, h1, k1]
          simp [List.append_assoc]
        · rw [h2, k2]
          simp only [List.length_cons]
          omega

/-- C13: in every run of `bfs` from an in-bounds start, each cell is enqueued
at most once and its `cameFrom` entry is written at most once. The cells that
went through the queue `q`, that is the cells popped followed by the cells
left in `q` when `bfs` returns, are start followed by the cells of the pushes
of the loop, in order, and this list has no duplicate; the counter of pops
counts the popped cells. Each `q.push` of the loop goes with the one write of
`cameFrom` of the pushed cell, so no entry is written twice and the entry of
start is never written: the value written at the discovery of a cell is still
in the table when `bfs` returns, the entries of start and of all other cells
are still unset, and the visited cells are start and the pushed cells. -/
theorem bfs_writes_each_cell_once (w : World) (_hs : inBounds w.start) :
    bfsPops w ++ (bfs w).2.q = w.start :: (bfsWrites w).map Prod.fst ∧
    (bfsPops w ++ (bfs w).2.q).Nodup ∧
    (bfs w).2.pops = (bfsPops w).length ∧
    (∀ en ∈ bfsWrites w, (bfs w).2.w.cameFrom en.1 = en.2) ∧
    (∀ c, c ∉ (bfsWrites w).map Prod.fst → (bfs w).2.w.cameFrom c = unsetPos) ∧
    (bfs w).2.w.cameFrom w.start = unsetPos ∧
    (∀ c, (bfs w).2.w.visited c = true ↔ c = w.start ∨ c ∈ (bfsWrites w).map Prod.fst) := by
  have h := bfsLoop_log (bfsPotential (bfsInit w) + 1) (bfsInit w) [] (bfsInit_log w)
  rw [List.nil_append] at h
  obtain ⟨hq, hp⟩ := bfsLoop_queue (bfsPotential (bfsInit w) + 1) (bfsInit w)
  have hq1 : bfsPops w ++ (bfs w).2.q = w.start :: (bfsWrites w).map Prod.fst := hq
  have hstart : w.start ∉ (bfsWrites w).map Prod.fst := (List.nodup_cons.1 h.fresh).1
  refine ⟨hq1, ?_, ?_, h.logged, h.others, h.others _ hstart, h.visited⟩
  · rw [hq1]
    exact h.fresh
  · have : (bfs w).2.pops = 0 + (bfsPops w).length := hp
    omega

set_option maxRecDepth 100000 in
/-- Witness of C13 on the empty grid with start `(0,0)` and end `(0,1)`: `bfs`
pops `(0,0)`, `(1,0)` and `(0,1)`, and leaves `(2,0)` and `(1,1)` in the queue;
the four pushes of the loop go with the four writes of `cameFrom`. -/
theorem bfs_writes_each_cell_once_witness :
    inBounds twoCellWorld.start ∧
    bfsPops twoCellWorld = [⟨0, 0⟩, ⟨1, 0⟩, ⟨0, 1⟩] ∧
    (bfs twoCellWorld).2.q = [⟨2, 0⟩, ⟨1, 1⟩] ∧
    bfsWrites twoCellWorld =
      [(⟨1, 0⟩, ⟨0, 0⟩), (⟨0, 1⟩, ⟨0, 0⟩), (⟨2, 0⟩, ⟨1, 0⟩), (⟨1, 1⟩, ⟨1, 0⟩)] ∧
    (bfsPops twoCellWorld ++ (bfs twoCellWorld).2.q).Nodup :=
  ⟨by decide, by decide, by decide, by decide,
    (bfs_writes_each_cell_once twoCellWorld (by decide)).2.1⟩

/-! ## The claims: the priority keys of `aStar` (C19) -/

set_option maxRecDepth 100000 in
/-- C19, the divergence: on the empty grid with start `(0,0)` and end `(0,1)`
the first loop iteration of `aStar` expands start and pushes its neighbour
`(1,0)` with key 4 and its neighbour `(0,1)` with key 2, whereas one move plus
the Manhattan distance to end is 3 for `(1,0)` and 1 for `(0,1)`: every key is
larger by `heuristic(start, end) = 1`, the value that seeds `fScore[start]`. -/
theorem aStar_keys_carry_start_estimate :
    (aStarStates firstTie twoCellWorld).map (fun s => s.pq) =
      [[(⟨0, 0⟩, 1)], [(⟨1, 0⟩, 4), (⟨0, 1⟩, 2)]] ∧
    1 + heuristic ⟨1, 0⟩ twoCellWorld.end_ = 3 ∧
    1 + heuristic ⟨0, 1⟩ twoCellWorld.end_ = 1 ∧
    heuristic twoCellWorld.start twoCellWorld.end_ = 1 := by
  refine ⟨by decide, by decide, by decide, by decide⟩

/-! ## The exact value of the scores and of the keys -/

/-- Induction along the loop-head states: what holds on entry to the loop and
is kept by every loop iteration holds at every loop-head state. -/
theorem pqTrace_induct (P : PQState → Prop)
    (step : Vector2i → PQState → Int × Int → PQState) (tie : Nat → Nat)
    (hstep : ∀ (s : PQState) (top : Vector2i × Int) (rest : List (Vector2i × Int)), P s →
      popTop (tie s.pops) s.pq = some (top, rest) → top.1 ≠ s.w.end_ →
      P (dirs.foldl (step top.1) { s with pq := rest, pops := s.pops + 1 })) :
    ∀ (fuel : Nat) (s : PQState), P s → ∀ s1 ∈ pqTrace step tie fuel s, P s1 := by
  intro fuel
  induction fuel with
  | zero =>
    intro s hinv s1 hs1
    have : s1 = s := by simpa [pqTrace] using hs1
    rw [this]
    exact hinv
  | succ n ih =>
    intro s hinv s1 hs1
    unfold pqTrace at hs1
    cases hp : popTop (tie s.pops) s.pq with
    | none =>
      rw [hp] at hs1
      have : s1 = s := by simpa using hs1
      rw [this]
      exact hinv
    | some r =>
      obtain ⟨top, rest⟩ := r
      rw [hp] at hs1
      simp only at hs1
      by_cases he : top.1 = s.w.end_
      · simp only [he, if_true] at hs1
        have : s1 = s := by simpa using hs1
        rw [this]
        exact hinv
      · simp only [he, if_false] at hs1
        rcases List.mem_cons.1 hs1 with h | h
        · rw [h]
          exact hinv
        · exact ih _ (hstep s top rest hinv hp he) s1 h

theorem relaxNeighbor_key {hf : Vector2i → Vector2i → Int} {g0 : Vector2i → CellType}
    {start e u : Vector2i} {s : PQState} {d : Int × Int} (hd : d ∈ dirs)
    (h : KeyInv hf g0 start e s) (hu : s.score u < INT_MAX) :
    KeyInv hf g0 start e (relaxNeighbor hf u s d) ∧ (relaxNeighbor hf u s d).score u < INT_MAX := by
  rcases relaxNeighbor_cases hf u s d with ⟨heq, _⟩ | ⟨hb, hw, hlt, heq⟩
  · rw [heq]
    exact ⟨h, hu⟩
  · have hadj : adjacent u ⟨u.x + d.1, u.y + d.2⟩ := dirs_adjacent hd
    have hne : u ≠ ⟨u.x + d.1, u.y + d.2⟩ := adjacent_ne hadj
    have hw0 : g0 ⟨u.x + d.1, u.y + d.2⟩ ≠ CellType.Wall := fun hc => hw ((h.walls _).2 hc)
    obtain ⟨n, hr, hn⟩ := h.dist u hu
    have hr1 : Route g0 start ⟨u.x + d.1, u.y + d.2⟩ (n + 1) := hr.snoc hadj hb hw0
    have hmax := h.le_max ⟨u.x + d.1, u.y + d.2⟩
    rw [heq]
    refine ⟨⟨h.w_end, ?_, ?_, ?_, ?_, ?_⟩, ?_⟩
    · intro c
      show setAt s.w.grid _ CellType.Visited c = CellType.Wall ↔ _
      by_cases hc : c = ⟨u.x + d.1, u.y + d.2⟩
      · rw [hc]
        simp [setAt, hw0]
      · simp only [setAt, hc, if_false]
        exact h.walls c
    · intro c
      show setAt s.score _ (s.score u + 1) c ≤ INT_MAX
      by_cases hc : c = ⟨u.x + d.1, u.y + d.2⟩
      · simp only [setAt, hc, if_true]
        omega
      · simp only [setAt, hc, if_false]
        exact h.le_max c
    · intro en hen
      show setAt s.score _ (s.score u + 1) en.1 < INT_MAX
      by_cases hc : en.1 = ⟨u.x + d.1, u.y + d.2⟩
      · simp only [setAt, hc, if_true]
        omega
      · simp only [setAt, hc, if_false]
        rcases List.mem_append.1 hen with hen | hen
        · exact h.found en hen
        · rw [List.mem_singleton.1 hen] at hc
          exact absurd rfl hc
    · intro c
      show setAt s.score _ (s.score u + 1) c < INT_MAX → ∃ n : Nat, Route g0 start c n ∧
        setAt s.score _ (s.score u + 1) c = hf start e + n
      by_cases hc : c = ⟨u.x + d.1, u.y + d.2⟩
      · intro _
        rw [hc]
        refine ⟨n + 1, hr1, ?_⟩
        simp only [setAt, if_true]
        push_cast
        omega
      · simp only [setAt, hc, if_false]
        exact h.dist c
    · intro en hen
      rcases List.mem_append.1 hen with hen | hen
      · exact h.keys en hen
      · right
        rw [List.mem_singleton.1 hen]
        refine ⟨n + 1, by omega, hr1, ?_⟩
        show s.score u + 1 + hf _ s.w.end_ = _
        rw [h.w_end]
        push_cast
        omega
    · show setAt s.score _ (s.score u + 1) u < INT_MAX
      simp only [setAt, hne, if_false]
      exact hu

theorem relaxFold_key {hf : Vector2i → Vector2i → Int} {g0 : Vector2i → CellType}
    {start e u : Vector2i} :
    ∀ (l : List (Int × Int)) (s : PQState), (∀ d ∈ l, d ∈ dirs) →
      KeyInv hf g0 start e s → s.score u < INT_MAX →
      KeyInv hf g0 start e (l.foldl (relaxNeighbor hf u) s) := by
  intro l
  induction l with
  | nil => intro s _ h _; exact h
  | cons d l ih =>
    intro s hl h hu
    obtain ⟨h1, h2⟩ := relaxNeighbor_key (hl d (List.mem_cons_self _ _)) h hu
    exact ih _ (fun x hx => hl x (List.mem_cons_of_mem _ hx)) h1 h2

theorem relaxInit_key (hf : Vector2i → Vector2i → Int) (w : World)
    (hsmall : hf w.start w.end_ < INT_MAX) :
    KeyInv hf w.grid w.start w.end_ (relaxInit hf w) := by
  refine ⟨rfl, ?_, ?_, ?_, ?_, ?_⟩
  · intro c
    show (resetGrid w).grid c = CellType.Wall ↔ _
    simp only [resetGrid]
    split
    · rename_i hc
      rcases hc.2 with h | h <;> simp [h]
    · exact Iff.rfl
  · intro c
    show setAt (fun _ => INT_MAX) w.start (hf w.start w.end_) c ≤ INT_MAX
    simp only [setAt]
    split
    · exact le_of_lt hsmall
    · exact le_refl _
  · intro en hen
    have : en = (w.start, hf w.start w.end_) := by simpa [relaxInit, resetGrid] using hen
    rw [this]
    show setAt (fun _ => INT_MAX) w.start (hf w.start w.end_) w.start < INT_MAX
    simp only [setAt, if_true]
    exact hsmall
  · intro c hc
    have hc1 : setAt (fun _ => INT_MAX) w.start (hf w.start w.end_) c < INT_MAX := hc
    by_cases hcs : c = w.start
    · refine ⟨0, ?_, ?_⟩
      · rw [hcs]
        exact Route.refl _
      · show setAt (fun _ => INT_MAX) w.start (hf w.start w.end_) c = _
        simp [setAt, hcs]
    · simp [setAt, hcs] at hc1
  · intro en hen
    left
    simpa [relaxInit, resetGrid] using hen

theorem pqTrace_key (hf : Vector2i → Vector2i → Int) (tie : Nat → Nat) (w : World)
    (hsmall : hf w.start w.end_ < INT_MAX) :
    ∀ s ∈ pqTrace (relaxNeighbor hf) tie (pqPotential (relaxInit hf w) + 1) (relaxInit hf w),
      KeyInv hf w.grid w.start w.end_ s := by
  refine pqTrace_induct _ _ tie ?_ _ _ (relaxInit_key hf w hsmall)
  intro s top rest h hp _
  obtain ⟨hmem, _, hrest⟩ := popTop_some hp
  have h1 : KeyInv hf w.grid w.start w.end_ { s with pq := rest, pops := s.pops + 1 } :=
    ⟨h.w_end, h.walls, h.le_max,
      fun en hen => h.found en (by rw [hrest] at hen; exact List.mem_of_mem_erase hen),
      h.dist,
      fun en hen => h.keys en (by rw [hrest] at hen; exact List.mem_of_mem_erase hen)⟩
  exact relaxFold_key dirs _ (fun _ hd => hd) h1 (h.found top hmem)

/-- The keys of `aStar`: for start in bounds and any value of `end` that the
`E` key can leave, at every loop-head state every entry of the queue is the
entry of start with key `heuristic(start, end)`, or an entry of a cell `n`
whose key is `g + heuristic(start, end) + heuristic(n, end)`, where `g ≥ 1` is
the number of moves of a route from start to `n`; and the score `fScore[n]` of a
discovered cell is `g + heuristic(start, end)` for such a route. In `dijkstra`
the key of such an entry is `g` and `dist[n]` is `g`. -/
theorem keys_are_moves_plus_seed_plus_estimate (tie : Nat → Nat) (w : World)
    (hs : inBounds w.start) (he : EndValue w.end_) :
    (∀ s ∈ aStarStates tie w,
      (∀ en ∈ s.pq, en = (w.start, heuristic w.start w.end_) ∨
        ∃ g : Nat, 1 ≤ g ∧ Route w.grid w.start en.1 g ∧
          en.2 = g + heuristic w.start w.end_ + heuristic en.1 w.end_) ∧
      (∀ c, s.score c < INT_MAX →
        ∃ g : Nat, Route w.grid w.start c g ∧ s.score c = heuristic w.start w.end_ + g)) ∧
    (∀ s ∈ dijkstraStates tie w,
      (∀ en ∈ s.pq, en = (w.start, 0) ∨
        ∃ g : Nat, 1 ≤ g ∧ Route w.grid w.start en.1 g ∧ en.2 = g) ∧
      (∀ c, s.score c < INT_MAX → ∃ g : Nat, Route w.grid w.start c g ∧ s.score c = g)) := by
  have hsmall : heuristic w.start w.end_ < INT_MAX := by
    have := heuristic_endValue_small w hs he
    omega
  constructor
  · intro s hmem
    rw [aStarStates_eq] at hmem
    have h := pqTrace_key heuristic tie w hsmall s hmem
    exact ⟨h.keys, h.dist⟩
  · intro s hmem
    rw [dijkstraStates_eq] at hmem
    have h := pqTrace_key noHeuristic tie w (by simp [noHeuristic, INT_MAX]) s hmem
    refine ⟨?_, ?_⟩
    · intro en hen
      rcases h.keys en hen with hk | ⟨g, hg, hr, hk⟩
      · exact Or.inl hk
      · exact Or.inr ⟨g, hg, hr, by simpa [noHeuristic] using hk⟩
    · intro c hc
      obtain ⟨g, hr, hk⟩ := h.dist c hc
      exact ⟨g, hr, by simpa [noHeuristic] using hk⟩

set_option maxRecDepth 100000 in
/-- Witness of the key formula on the empty grid with start `(0,0)` and end
`(0,1)`. -/
theorem keys_are_moves_plus_seed_plus_estimate_witness :
    inBounds twoCellWorld.start ∧ EndValue twoCellWorld.end_ ∧
    ∀ s ∈ aStarStates firstTie twoCellWorld,
      (∀ en ∈ s.pq, en = (twoCellWorld.start, heuristic twoCellWorld.start twoCellWorld.end_) ∨
        ∃ g : Nat, 1 ≤ g ∧ Route twoCellWorld.grid twoCellWorld.start en.1 g ∧
          en.2 = g + heuristic twoCellWorld.start twoCellWorld.end_ +
            heuristic en.1 twoCellWorld.end_) ∧
      (∀ c, s.score c < INT_MAX →
        ∃ g : Nat, Route twoCellWorld.grid twoCellWorld.start c g ∧
          s.score c = heuristic twoCellWorld.start twoCellWorld.end_ + g) :=
  ⟨by decide, by decide,
    (keys_are_moves_plus_seed_plus_estimate firstTie twoCellWorld (by decide) (by decide)).1⟩

/-! ## The claims: pops of `aStar` against pops of `dijkstra` (C12) -/

set_option maxRecDepth 100000 in
/-- C12, counterexample: on the grid `detourWorld`, where `end` cannot be
reached, `aStar` makes 10 pops and `dijkstra` makes 9, both when ties are broken
for the oldest entry and when they are broken for the newest: `aStar` pushes
the cell `(2,0)` twice, first from `(2,1)` and then with a lower score from
`(1,0)`, and pops both entries. -/
theorem aStar_pops_more_than_dijkstra :
    detourWorld.start = ⟨0, 1⟩ ∧ detourWorld.end_ = ⟨3, 3⟩ ∧
    inBounds detourWorld.start ∧ inBounds detourWorld.end_ ∧
    (aStar firstTie detourWorld).2.pops = 10 ∧
    (dijkstra firstTie detourWorld).2.pops = 9 ∧
    (aStar lastTie detourWorld).2.pops = 10 ∧
    (dijkstra lastTie detourWorld).2.pops = 9 ∧
    aStarPopped firstTie detourWorld =
      [⟨0, 1⟩, ⟨0, 2⟩, ⟨1, 2⟩, ⟨2, 2⟩, ⟨0, 0⟩, ⟨2, 1⟩, ⟨1, 0⟩, ⟨2, 0⟩, ⟨3, 0⟩, ⟨2, 0⟩] ∧
    dijkstraPopped firstTie detourWorld =
      [⟨0, 1⟩, ⟨0, 0⟩, ⟨0, 2⟩, ⟨1, 0⟩, ⟨1, 2⟩, ⟨2, 0⟩, ⟨2, 2⟩, ⟨3, 0⟩, ⟨2, 1⟩] := by
  refine ⟨by decide, by decide, by decide, by decide, by decide, by decide, by decide,
    by decide, by decide, by decide⟩

theorem relaxFold_pops (hf : Vector2i → Vector2i → Int) (u : Vector2i) :
    ∀ (l : List (Int × Int)) (s : PQState),
      (l.foldl (relaxNeighbor hf u) s).pops = s.pops := by
  intro l
  induction l with
  | nil => intro s; rfl
  | cons d l ih =>
    intro s
    rw [List.foldl_cons, ih]
    rcases relaxNeighbor_cases hf u s d with ⟨h, _⟩ | ⟨_, _, _, h⟩ <;> rw [h]

/-- The number of pops of a run is the number of cells in its list of pops. -/
theorem relaxLoop_pops (hf : Vector2i → Vector2i → Int) (tie : Nat → Nat) :
    ∀ (fuel : Nat) (s : PQState),
      (relaxLoop hf tie fuel s).2.pops =
        s.pops + (pqPopped (relaxNeighbor hf) tie fuel s).length := by
  intro fuel
  induction fuel with
  | zero => intro s; simp [relaxLoop, pqPopped]
  | succ n ih =>
    intro s
    unfold relaxLoop pqPopped
    cases hp : popTop (tie s.pops) s.pq with
    | none => simp
    | some r =>
      obtain ⟨top, rest⟩ := r
      simp only
      by_cases he : top.1 = s.w.end_
      · simp [he]
      · simp only [he, if_false, List.length_cons]
        rw [ih, relaxFold_pops]
        dsimp only
        omega

/-- Every popped cell is the top of the queue of a loop-head state. -/
theorem popped_in_trace (step : Vector2i → PQState → Int × Int → PQState) (tie : Nat → Nat) :
    ∀ (fuel : Nat) (s : PQState), ∀ c ∈ pqPopped step tie fuel s,
      ∃ s1 ∈ pqTrace step tie fuel s, ∃ top rest,
        popTop (tie s1.pops) s1.pq = some (top, rest) ∧ top.1 = c := by
  intro fuel
  induction fuel with
  | zero => intro s c hc; simp [pqPopped] at hc
  | succ n ih =>
    intro s c hc
    unfold pqPopped at hc
    unfold pqTrace
    cases hp : popTop (tie s.pops) s.pq with
    | none =>
      rw [hp] at hc
      simp at hc
    | some r =>
      obtain ⟨top, rest⟩ := r
      rw [hp] at hc
      simp only at hc ⊢
      by_cases he : top.1 = s.w.end_
      · simp only [he, if_true, List.mem_singleton] at hc ⊢
        exact ⟨s, by simp, top, rest, hp, he.trans hc.symm⟩
      · simp only [he, if_false] at hc ⊢
        rcases List.mem_cons.1 hc with h | h
        · exact ⟨s, by simp, top, rest, hp, h.symm⟩
        · obtain ⟨s1, hs1, hrest⟩ := ih _ c h
          exact ⟨s1, List.mem_cons_of_mem _ hs1, hrest⟩

theorem relaxNeighbor_endFresh {hf : Vector2i → Vector2i → Int} {e u : Vector2i}
    {s : PQState} (d : Int × Int) (h : EndFresh hf e s) :
    EndFresh hf e (relaxNeighbor hf u s d) := by
  rcases relaxNeighbor_cases hf u s d with ⟨heq, _⟩ | ⟨_, _, _, heq⟩
  · rw [heq]
    exact h
  · rw [heq]
    refine ⟨h.1, ?_⟩
    show setAt s.score _ (s.score u + 1) e < INT_MAX → ∃ k,
      (e, k) ∈ s.pq ++ [(_, s.score u + 1 + hf _ s.w.end_)] ∧
        k ≤ setAt s.score _ (s.score u + 1) e + hf e e
    by_cases hc : e = ⟨u.x + d.1, u.y + d.2⟩
    · intro _
      refine ⟨s.score u + 1 + hf e e, ?_, ?_⟩
      · rw [h.1, ← hc]
        simp
      · rw [← hc]
        simp [setAt]
    · simp only [setAt, hc, if_false]
      intro he
      obtain ⟨k, hk, hle⟩ := h.2 he
      exact ⟨k, List.mem_append_left _ hk, hle⟩

theorem relaxFold_endFresh {hf : Vector2i → Vector2i → Int} {e u : Vector2i} :
    ∀ (l : List (Int × Int)) (s : PQState), EndFresh hf e s →
      EndFresh hf e (l.foldl (relaxNeighbor hf u) s) := by
  intro l
  induction l with
  | nil => intro s h; exact h
  | cons d l ih => intro s h; exact ih _ (relaxNeighbor_endFresh d h)

theorem pqTrace_endFresh (hf : Vector2i → Vector2i → Int) (tie : Nat → Nat) (w : World)
    (hnn : 0 ≤ hf w.end_ w.end_) :
    ∀ s ∈ pqTrace (relaxNeighbor hf) tie (pqPotential (relaxInit hf w) + 1) (relaxInit hf w),
      EndFresh hf w.end_ s := by
  refine pqTrace_induct _ _ tie ?_ _ _ ?_
  · intro s top rest h hp hne
    obtain ⟨_, _, hrest⟩ := popTop_some hp
    apply relaxFold_endFresh
    refine ⟨h.1, ?_⟩
    intro he
    obtain ⟨k, hk, hle⟩ := h.2 he
    refine ⟨k, ?_, hle⟩
    show (w.end_, k) ∈ rest
    rw [hrest]
    refine (List.mem_erase_of_ne ?_).2 hk
    intro hc
    apply hne
    rw [← hc, h.1]
  · refine ⟨rfl, ?_⟩
    intro he
    have he1 : setAt (fun _ => INT_MAX) w.start (hf w.start w.end_) w.end_ < INT_MAX := he
    have hes : w.end_ = w.start := by
      by_contra hc
      simp [setAt, hc] at he1
    refine ⟨hf w.start w.end_, ?_, ?_⟩
    · show (w.end_, hf w.start w.end_) ∈ [(w.start, hf w.start w.end_)]
      rw [hes]
      simp
    · show hf w.start w.end_ ≤ setAt (fun _ => INT_MAX) w.start (hf w.start w.end_) w.end_ + _
      rw [hes] at hnn ⊢
      simp only [setAt, if_true]
      omega

theorem Route.zero_eq {grid : Vector2i → CellType} {a b : Vector2i} {n : Nat}
    (h : Route grid a b n) (hn : n = 0) : b = a := by
  cases h with
  | refl => rfl
  | step => omega

/-- Every cell popped by the relaxation search with an admissible heuristic
that is positive away from `end` is `end` or lies nearer to start than `end`. -/
theorem relaxPopped_nearer (hf : Vector2i → Vector2i → Int) (tie : Nat → Nat) (w : World)
    (hnn : ∀ c, 0 ≤ hf c w.end_)
    (hadm : ∀ c m, Route w.grid c w.end_ m → hf c w.end_ ≤ m)
    (hpos : ∀ c, c ≠ w.end_ → 1 ≤ hf c w.end_)
    (hsmall : hf w.start w.end_ + allCells.length + 1 < INT_MAX) :
    ∀ c ∈ pqPopped (relaxNeighbor hf) tie (pqPotential (relaxInit hf w) + 1) (relaxInit hf w),
      Nearer w.grid w.start w.end_ c := by
  intro c hc
  obtain ⟨s, hs, top, rest, hp, htop⟩ := popped_in_trace _ tie _ _ c hc
  have hinv := pqTrace_inv tie hsmall _ _ (relaxInit_inv hf w hnn hsmall) s hs
  have hfresh := pqTrace_endFresh hf tie w (hnn _) s hs
  obtain ⟨hmem, hmin, _⟩ := popTop_some hp
  have ht := hinv.toTables hsmall
  obtain ⟨hSc, hkey⟩ := hinv.entries top hmem
  rw [htop] at hSc hkey
  obtain ⟨path, hw, hlen⟩ := ht.walkTo c hSc
  have hroute := hw.route
  rw [ht.w_start] at hroute
  refine ⟨⟨_, hroute⟩, ?_⟩
  by_cases hce : c = w.end_
  · exact Or.inl hce
  · right
    intro m hr
    have hclosed : ∀ u, s.score u < INT_MAX →
        (∀ v, adjacent u v → inBounds v → w.grid v ≠ CellType.Wall →
          s.score v ≤ s.score u + 1) →
        ∀ v, adjacent u v → inBounds v → w.grid v ≠ CellType.Wall → s.score v < INT_MAX := by
      intro u hu hcl v hadj hb hw
      have h1 := hcl v hadj hb hw
      have h2 := hinv.bound u hu
      omega
    have hfr := frontier_route w.grid (fun c => s.score c < INT_MAX)
      s.score (fun k => ∃ en ∈ s.pq, en.2 = k) (fun c => hf c w.end_) w.end_ hadm
      (by
        intro u hu
        rcases hinv.frontier u hu (fun h => h) with ⟨k, hk, hle⟩ | hcl
        · exact Or.inl ⟨k, ⟨(u, k), hk, rfl⟩, hle⟩
        · exact Or.inr fun v hadj hb hw =>
            ⟨hclosed u hu hcl v hadj hb hw, hcl v hadj hb hw⟩)
      w.start w.end_ m hr rfl (hf w.start w.end_) ht.start_found (le_of_eq hinv.score_start)
    have htopkey : top.2 ≤ hf w.start w.end_ + m := by
      rcases hfr with ⟨h1, h2⟩ | ⟨k, ⟨en, hen, rfl⟩, hle⟩
      · obtain ⟨k, hk, hle⟩ := hfresh.2 h1
        have h3 := hmin _ hk
        have h4 := hadm w.end_ 0 (Route.refl _)
        simp only [Nat.cast_zero] at h4
        simp only at h3
        omega
      · have h3 := hmin en hen
        omega
    rcases hkey with hk | hk
    · refine ⟨0, by rw [hk]; exact Route.refl _, ?_⟩
      rcases Nat.eq_zero_or_pos m with hm | hm
      · exfalso
        apply hce
        rw [hk]
        exact (hr.zero_eq hm).symm
      · exact hm
    · refine ⟨path.length, hroute, ?_⟩
      have h5 := hpos c hce
      omega

theorem relaxNeighbor_popLog {hf : Vector2i → Vector2i → Int} {u : Vector2i}
    {s : PQState} {L : List Vector2i} (d : Int × Int)
    (hz : ∀ a b, hf a b = 0) (h : PopLog s L) :
    PopLog (relaxNeighbor hf u s d) L := by
  rcases relaxNeighbor_cases hf u s d with ⟨heq, _⟩ | ⟨_, _, _, heq⟩
  · rw [heq]
    exact h
  · rw [heq]
    intro c
    show setAt s.score _ (s.score u + 1) c < INT_MAX →
      (∃ k, (c, k) ∈ s.pq ++ [(_, s.score u + 1 + hf _ s.w.end_)] ∧
        k ≤ setAt s.score _ (s.score u + 1) c) ∨ c ∈ L
    by_cases hc : c = ⟨u.x + d.1, u.y + d.2⟩
    · intro _
      left
      refine ⟨s.score u + 1, ?_, ?_⟩
      · rw [hz, ← hc]
        simp
      · rw [← hc]
        simp [setAt]
    · simp only [setAt, hc, if_false]
      intro hlt
      rcases h c hlt with ⟨k, hk, hle⟩ | hL
      · exact Or.inl ⟨k, List.mem_append_left _ hk, hle⟩
      · exact Or.inr hL

theorem relaxFold_popLog {hf : Vector2i → Vector2i → Int} {u : Vector2i}
    {L : List Vector2i} (hz : ∀ a b, hf a b = 0) :
    ∀ (l : List (Int × Int)) (s : PQState), PopLog s L →
      PopLog (l.foldl (relaxNeighbor hf u) s) L := by
  intro l
  induction l with
  | nil => intro s h; exact h
  | cons d l ih => intro s h; exact ih _ (relaxNeighbor_popLog d hz h)

/-- The loop of `dijkstra` pops every cell that is `end` or nearer to start
than `end`. -/
theorem dijkstraLoop_popped {g0 : Vector2i → CellType} {start e : Vector2i} (tie : Nat → Nat)
    (hsmall : noHeuristic start e + allCells.length + 1 < INT_MAX) :
    ∀ (fuel : Nat) (s : PQState) (L : List Vector2i),
      PQInv noHeuristic g0 start e (fun _ => False) s → PopLog s L →
      (relaxLoop noHeuristic tie fuel s).1 ≠ Outcome.outOfFuel →
      ∀ c, Nearer g0 start e c →
        c ∈ L ++ pqPopped (relaxNeighbor noHeuristic) tie fuel s := by
  intro fuel
  induction fuel with
  | zero => intro s L _ _ h; simp [relaxLoop] at h
  | succ n ih =>
    intro s L hinv hlog
    have hclosed : ∀ u, s.score u < INT_MAX →
        (∀ v, adjacent u v → inBounds v → g0 v ≠ CellType.Wall → s.score v ≤ s.score u + 1) →
        ∀ v, adjacent u v → inBounds v → g0 v ≠ CellType.Wall → s.score v < INT_MAX := by
      intro u hu hcl v hadj hb hw
      have h1 := hcl v hadj hb hw
      have h2 := hinv.bound u hu
      omega
    have ht := hinv.toTables hsmall
    have hroutes : ∀ (c : Vector2i) (m : Nat), Route g0 start c m →
        (s.score c < INT_MAX ∧ s.score c ≤ m) ∨ ∃ en ∈ s.pq, en.2 ≤ m := by
      intro c m hr
      have hfr := frontier_route g0 (fun c => s.score c < INT_MAX)
        s.score (fun k => ∃ en ∈ s.pq, en.2 = k) (fun _ => 0) c
        (fun _ m _ => Int.ofNat_nonneg m)
        (by
          intro u hu
          rcases hinv.frontier u hu (fun h => h) with ⟨k, hk, hle⟩ | hcl
          · exact Or.inl ⟨k, ⟨(u, k), hk, rfl⟩, by simpa [noHeuristic] using hle⟩
          · exact Or.inr fun v hadj hb hw =>
              ⟨hclosed u hu hcl v hadj hb hw, hcl v hadj hb hw⟩)
        start c m hr rfl 0 ht.start_found
        (by rw [hinv.score_start]; simp [noHeuristic])
      rcases hfr with ⟨h1, h2⟩ | ⟨k, ⟨en, hen, rfl⟩, hle⟩
      · exact Or.inl ⟨h1, by simpa using h2⟩
      · exact Or.inr ⟨en, hen, by simpa using hle⟩
    unfold relaxLoop pqPopped
    cases hp : popTop (tie s.pops) s.pq with
    | none =>
      intro _ c hc
      have hnil := popTop_none hp
      obtain ⟨⟨m, hr⟩, _⟩ := hc
      simp only [List.append_nil]
      rcases hroutes c m hr with ⟨h1, _⟩ | ⟨en, hen, _⟩
      · rcases hlog c h1 with ⟨k, hk, _⟩ | hL
        · rw [hnil] at hk
          simp at hk
        · exact hL
      · rw [hnil] at hen
        simp at hen
    | some r =>
      obtain ⟨top, rest⟩ := r
      obtain ⟨hmem, hmin, hrest⟩ := popTop_some hp
      simp only
      by_cases he : top.1 = s.w.end_
      · simp only [he, if_true]
        intro _ c hc
        have hee : top.1 = e := he.trans hinv.w_end
        rw [← he, hee]
        rcases hc.2 with hce | hnear
        · rw [hce]
          simp
        · apply List.mem_append_left
          obtain ⟨hSe, hkey⟩ := hinv.entries top hmem
          rw [hee] at hSe hkey
          obtain ⟨path, hw, hlen⟩ := ht.walkTo e hSe
          have hroute := hw.route
          rw [ht.w_start] at hroute
          obtain ⟨m, hr, hlt⟩ := hnear _ hroute
          have hz : noHeuristic start e = 0 := rfl
          have hz2 : noHeuristic e e = 0 := rfl
          have htop : (m : Int) < top.2 := by
            rcases hkey with hk | hk
            · exfalso
              have h1 := hlen
              rw [hk, hinv.score_start] at h1
              simp only [noHeuristic] at h1
              omega
            · omega
          rcases hroutes c m hr with ⟨h1, h2⟩ | ⟨en, hen, hle⟩
          · rcases hlog c h1 with ⟨k, hk, hle⟩ | hL
            · have := hmin _ hk
              simp only at this
              omega
            · exact hL
          · have := hmin en hen
            omega
      · simp only [he, if_false]
        intro hfuel c hc
        have hne : top.1 ≠ e := fun h => he (h.trans hinv.w_end.symm)
        have h1 := pop_inv hinv hp hne
        have h2 := relaxFold_inv { s with pq := rest, pops := s.pops + 1 } hsmall
          (hinv.entries top hmem).1 h1
        have hlog1 : PopLog { s with pq := rest, pops := s.pops + 1 } (L ++ [top.1]) := by
          intro u hu
          rcases hlog u hu with ⟨k, hk, hle⟩ | hL
          · by_cases hut : (u, k) = top
            · right
              rw [← hut]
              simp
            · left
              refine ⟨k, ?_, hle⟩
              show (u, k) ∈ rest
              rw [hrest]
              exact (List.mem_erase_of_ne hut).2 hk
          · exact Or.inr (List.mem_append_left _ hL)
        have hlog2 := relaxFold_popLog (u := top.1) (fun _ _ => rfl) dirs _ hlog1
        have := ih _ _ h2 hlog2 hfuel c hc
        simpa [List.append_assoc] using this

theorem heuristic_pos {c e : Vector2i} (h : c ≠ e) : 1 ≤ heuristic c e := by
  have hne : c.x ≠ e.x ∨ c.y ≠ e.y := by
    by_contra hc
    push_neg at hc
    apply h
    cases c
    cases e
    simp only [Vector2i.mk.injEq]
    exact hc
  unfold heuristic iabs
  split <;> split <;> omega

theorem relaxInit_popLog (w : World) : PopLog (relaxInit noHeuristic w) [] := by
  intro u hu
  left
  have hu1 : setAt (fun _ => INT_MAX) w.start (noHeuristic w.start w.end_) u < INT_MAX := hu
  have hus : u = w.start := by
    by_contra hc
    simp [setAt, hc] at hu1
  refine ⟨0, ?_, ?_⟩
  · show (u, (0 : Int)) ∈ [(w.start, noHeuristic w.start w.end_)]
    rw [hus]
    simp [noHeuristic]
  · show (0 : Int) ≤ setAt (fun _ => INT_MAX) w.start (noHeuristic w.start w.end_) u
    rw [hus]
    simp [setAt, noHeuristic]

theorem aStarPopped_eq (tie : Nat → Nat) (w : World) :
    aStarPopped tie w = pqPopped (relaxNeighbor heuristic) tie
      (pqPotential (relaxInit heuristic w) + 1) (relaxInit heuristic w) := by
  unfold aStarPopped
  rw [aStarNeighbor_eq, aStarInit_eq]

theorem dijkstraPopped_eq (tie : Nat → Nat) (w : World) :
    dijkstraPopped tie w = pqPopped (relaxNeighbor noHeuristic) tie
      (pqPotential (relaxInit noHeuristic w) + 1) (relaxInit noHeuristic w) := by
  unfold dijkstraPopped
  rw [dijkstraNeighbor_eq, dijkstraInit_eq]

theorem relaxRun_pops (hf : Vector2i → Vector2i → Int) (tie : Nat → Nat) (w : World) :
    (relaxRun hf tie w).2.pops =
      (pqPopped (relaxNeighbor hf) tie (pqPotential (relaxInit hf w) + 1)
        (relaxInit hf w)).length := by
  unfold relaxRun
  rw [relaxLoop_pops]
  show 0 + _ = _
  omega

/-- C12, amended: for every wall layout with start and end in bounds, and
whatever the tie-breaking of the two queues, every cell that `aStar` pops
before it stops is also popped by `dijkstra`, so the number of distinct cells
that `aStar` expands is at most the number of pops of `dijkstra`. The number of
pops of each search is the length of its list of popped cells, in which `aStar`
can hold a cell more than once. -/
theorem aStar_pops_only_cells_dijkstra_pops (tieA tieD : Nat → Nat) (w : World)
    (hs : inBounds w.start) (he : inBounds w.end_) :
    (∀ c ∈ aStarPopped tieA w, c ∈ dijkstraPopped tieD w) ∧
    (aStarPopped tieA w).dedup.length ≤ (dijkstra tieD w).2.pops ∧
    (aStar tieA w).2.pops = (aStarPopped tieA w).length ∧
    (dijkstra tieD w).2.pops = (dijkstraPopped tieD w).length := by
  have hA : (aStar tieA w).2.pops = (aStarPopped tieA w).length := by
    rw [aStar_eq, aStarPopped_eq]
    exact relaxRun_pops heuristic tieA w
  have hD : (dijkstra tieD w).2.pops = (dijkstraPopped tieD w).length := by
    rw [dijkstra_eq, dijkstraPopped_eq]
    exact relaxRun_pops noHeuristic tieD w
  have hsub : ∀ c ∈ aStarPopped tieA w, c ∈ dijkstraPopped tieD w := by
    intro c hc
    rw [aStarPopped_eq] at hc
    have hnear := relaxPopped_nearer heuristic tieA w (fun c => heuristic_nonneg c _)
      (heuristic_admissible w.grid w.end_) (fun c hce => heuristic_pos hce)
      (heuristic_start_small w hs (Or.inl he)) c hc
    have hfuel := (relaxRun_total noHeuristic tieD w hs (le_refl _)).1
    have := dijkstraLoop_popped tieD (noHeuristic_small w) _ _ []
      (relaxInit_inv noHeuristic w (fun _ => le_refl _) (noHeuristic_small w))
      (relaxInit_popLog w) hfuel c hnear
    rw [dijkstraPopped_eq]
    simpa using this
  refine ⟨hsub, ?_, hA, hD⟩
  rw [hD]
  have hnd : (aStarPopped tieA w).dedup.Nodup := List.nodup_dedup _
  have hss : (aStarPopped tieA w).dedup ⊆ dijkstraPopped tieD w :=
    fun c hc => hsub c (List.mem_dedup.1 hc)
  exact (List.subperm_of_subset hnd hss).length_le

set_option maxRecDepth 100000 in
/-- Witness of the amended C12 on the grid `detourWorld`. -/
theorem aStar_pops_only_cells_dijkstra_pops_witness :
    inBounds detourWorld.start ∧ inBounds detourWorld.end_ ∧
    (aStarPopped firstTie detourWorld).dedup.length ≤ (dijkstra lastTie detourWorld).2.pops :=
  ⟨by decide, by decide,
    (aStar_pops_only_cells_dijkstra_pops firstTie lastTie detourWorld
      (by decide) (by decide)).2.1⟩

end MazePathfinding
